import Mathlib

/-!
# Type reconstruction core of the Snowman decompiler

A shallow embedding of `nc/core/ir/types/TypeAnalyzer.cpp` and of
`Function::getReturns` (`nc/core/ir/Function.cpp`), and theorems about them.

Terms and statements are identified by natural numbers (the identity of the
IR object).  The classes `Type`, `Types`, `DisjointSet` and `CensusVisitor`
and the oracles (`Dataflow`, `Usage`, `CallsData`) are not part of the two
source files: the oracles are parameters, the type lattice and the type
store are modelled from the specification, each such definition saying so.
-/

namespace nc

/-! ## IR vocabulary -/

/-- Operator kinds of `UnaryOperator`; `UNKNOWN` stands for any other value of
the enumeration (the `default:` branch of the switch). -/
inductive UnaryOperatorKind where
  | NOT | NEGATION | SIGN_EXTEND | ZERO_EXTEND | TRUNCATE
  | UNKNOWN (code : Nat)
  deriving DecidableEq, Repr

/-- Operator kinds of `BinaryOperator`; `UNKNOWN` stands for any other value of
the enumeration (the `default:` branch of the switch). -/
inductive BinaryOperatorKind where
  | AND | OR | XOR | SHL | SHR | SAR | ADD | SUB | MUL
  | SIGNED_DIV | SIGNED_REM | UNSIGNED_DIV | UNSIGNED_REM
  | EQUAL | SIGNED_LESS | SIGNED_LESS_OR_EQUAL | UNSIGNED_LESS | UNSIGNED_LESS_OR_EQUAL
  | UNKNOWN (code : Nat)
  deriving DecidableEq, Repr

/-- The kind of a term together with what the downcast of that kind exposes:
operands are given by the identity of the operand term. -/
inductive TermKind where
  | INT_CONST
  | INTRINSIC
  | UNDEFINED
  | MEMORY_LOCATION_ACCESS
  | DEREFERENCE (address : Nat)
  | UNARY_OPERATOR (operatorKind : UnaryOperatorKind) (operand : Nat)
  | BINARY_OPERATOR (operatorKind : BinaryOperatorKind) (left right : Nat)
  | CHOICE
  | UNKNOWN (code : Nat)
  deriving DecidableEq, Repr

/-- An IR term: its identity, its read flag and its kind. -/
structure Term where
  id : Nat
  isRead : Bool
  kind : TermKind
  deriving DecidableEq, Repr

/-- The kind of a statement; an assignment exposes the identities of its left
and right terms.  `UNKNOWN` stands for any other value of the enumeration. -/
inductive StatementKind where
  | COMMENT
  | INLINE_ASSEMBLY
  | ASSIGNMENT (left right : Nat)
  | KILL
  | JUMP
  | CALL
  | RETURN
  | UNKNOWN (code : Nat)
  deriving DecidableEq, Repr

/-- An IR statement: its identity and its kind. -/
structure Statement where
  id : Nat
  kind : StatementKind
  deriving DecidableEq, Repr

/-- A basic block: its statements in source order. -/
structure BasicBlock where
  statements : List Statement
  deriving DecidableEq, Repr

/-- A function: its basic blocks, in the order of `basicBlocks()`. -/
structure Function where
  basicBlocks : List BasicBlock
  deriving DecidableEq, Repr

/-- The downcast `statement->as<Return>()` succeeds exactly on return statements. -/
def Statement.isReturn (statement : Statement) : Bool :=
  match statement.kind with
  | .RETURN => true
  | _ => false

/-- `Function::getReturns`: both loops push the return statements to the back
of `result`. -/
def Function.getReturns (function : Function) : List Statement :=
  function.basicBlocks.foldl
    (fun result basicBlock =>
      basicBlock.statements.foldl
        (fun result statement => if statement.isReturn then result ++ [statement] else result)
        result)
    []

/-! ## Oracles -/

/-- What the analyzer reads of a `dflow::Value`: `value`, `signedValue` and
`absoluteValue` are those of `abstractValue().asConcrete()`. -/
structure Value where
  isConcrete : Bool
  value : Nat
  signedValue : Int
  absoluteValue : Nat
  isProduct : Bool
  isStackOffset : Bool
  deriving DecidableEq, Repr

/-- A chunk of reaching definitions: a memory location and the defining terms. -/
structure Chunk where
  location : Nat
  definitions : List Nat
  deriving DecidableEq, Repr

/-- The dataflow oracle. -/
structure Dataflow where
  getMemoryLocation : Nat → Nat
  getDefinitions : Nat → List Chunk
  getValue : Nat → Value

/-- A function signature: its optional return-value descriptor. -/
structure FunctionSignature where
  returnValue : Option Nat

/-- A return analyzer: maps the return-value descriptor to the term carrying it. -/
structure ReturnAnalyzer where
  getReturnValueTerm : Nat → Nat

/-- The calls-data (signature) oracle. -/
structure CallsData where
  getFunctionSignature : Function → Option FunctionSignature
  getReturnAnalyzer : Function → Statement → Option ReturnAnalyzer

/-- Modelled from the spec: the result of `CensusVisitor` (absent from src), the
ordered sequences of the statements and of the terms of a function. -/
structure Census where
  statements : List Statement
  terms : List Term

/-! ## The type lattice element -/

/-- Modelled from the spec: the class `Type` (absent from src).  Independent
positive bits for integer, pointer, signed and unsigned; the stored factor,
where 0 means that no value was supplied yet; the optional pointee; the
union-find parent link and rank; the changed flag.  Structural offsets are
left out: they exist only under the build-time feature `NC_STRUCT_RECOVERY`,
which is off. -/
structure Type_ where
  parent_ : Nat
  rank_ : Nat
  isInteger_ : Bool
  isPointer_ : Bool
  isSigned_ : Bool
  isUnsigned_ : Bool
  factor_ : Nat
  pointee_ : Option Nat
  changed_ : Bool
  deriving DecidableEq, Repr

/-- Modelled from the spec: the fresh element the store inserts on first
request for term `i`; it is its own representative. -/
def Type_.bottom (i : Nat) : Type_ :=
  { parent_ := i, rank_ := 0, isInteger_ := false, isPointer_ := false, isSigned_ := false,
    isUnsigned_ := false, factor_ := 0, pointee_ := none, changed_ := false }

/-- All `Type` objects, addressed by the term they were created for. -/
abbrev Heap := Nat → Type_

/-- Overwrite one object. -/
def Heap.set (h : Heap) (i : Nat) (c : Type_) : Heap :=
  fun j => if j = i then c else h j

/-- Why a run of the model stops without a result: `unreachable()` was
reached, or the recursion budget of the model was used up. -/
inductive Failure where
  | unreachable
  | fuel
  deriving DecidableEq, Repr

/-- Modelled from the spec: `findSet` of `DisjointSet` (absent from src).  Parent
links are kept fully compressed (path compression carried to its end), so the
representative is read off the link. -/
def findSet (h : Heap) (x : Nat) : Nat := (h x).parent_

namespace Type_

/-- Modelled from the spec: `isInteger()` reads the bit from the representative. -/
def isInteger (h : Heap) (this : Nat) : Bool := (h (findSet h this)).isInteger_

/-- Modelled from the spec: `isPointer()` reads the bit from the representative. -/
def isPointer (h : Heap) (this : Nat) : Bool := (h (findSet h this)).isPointer_

/-- Modelled from the spec: `isSigned()` reads the bit from the representative. -/
def isSigned (h : Heap) (this : Nat) : Bool := (h (findSet h this)).isSigned_

/-- Modelled from the spec: `isUnsigned()` reads the bit from the representative. -/
def isUnsigned (h : Heap) (this : Nat) : Bool := (h (findSet h this)).isUnsigned_

/-- Modelled from the spec: `pointee()` reads the link from the representative. -/
def pointee (h : Heap) (this : Nat) : Option Nat := (h (findSet h this)).pointee_

/-- Modelled from the spec: `factor()`, a positive number, 1 by default (spec,
data model), that is as long as no value was supplied and the stored factor is
0, "unknown". -/
def factor (h : Heap) (this : Nat) : Nat :=
  if (h (findSet h this)).factor_ = 0 then 1 else (h (findSet h this)).factor_

/-- Modelled from the spec: `makeInteger()` sets the bit on the representative;
if the bit flips, `changed` is set. -/
def makeInteger (this : Nat) (h : Heap) : Heap :=
  if (h (findSet h this)).isInteger_ then h
  else h.set (findSet h this) { h (findSet h this) with isInteger_ := true, changed_ := true }

/-- Modelled from the spec: `makePointer()` without a pointee sets the bit on
the representative; if the bit flips, `changed` is set. -/
def makePointer (this : Nat) (h : Heap) : Heap :=
  if (h (findSet h this)).isPointer_ then h
  else h.set (findSet h this) { h (findSet h this) with isPointer_ := true, changed_ := true }

/-- Modelled from the spec: `makeSigned()` sets the bit on the representative;
if the bit flips, `changed` is set. -/
def makeSigned (this : Nat) (h : Heap) : Heap :=
  if (h (findSet h this)).isSigned_ then h
  else h.set (findSet h this) { h (findSet h this) with isSigned_ := true, changed_ := true }

/-- Modelled from the spec: `makeUnsigned()` sets the bit on the representative;
if the bit flips, `changed` is set. -/
def makeUnsigned (this : Nat) (h : Heap) : Heap :=
  if (h (findSet h this)).isUnsigned_ then h
  else h.set (findSet h this) { h (findSet h this) with isUnsigned_ := true, changed_ := true }

/-- Modelled from the spec: `updateFactor(v)`: the stored factor is the GCD of
all values supplied, 0 standing for "unknown" (so the first value supplied is
stored as it is); a value that does not change the GCD is a no-op, otherwise
`changed` is set. -/
def updateFactor (this : Nat) (v : Nat) (h : Heap) : Heap :=
  if Nat.gcd (h (findSet h this)).factor_ v = (h (findSet h this)).factor_ then h
  else h.set (findSet h this)
    { h (findSet h this) with
      factor_ := Nat.gcd (h (findSet h this)).factor_ v, changed_ := true }

/-- Modelled from the spec: establishing the parent link of a union.  The
representative `o` is put under the representative `s`; the links being kept
compressed, every member of the class of `o` now points at `s`.  The parent
link is one of the attributes of a `Type` (spec, data model) and `changed` is
true iff an attribute changed since the last probe (spec, invariant 4), so the
flag of `o` is set.  `bump` says that the rank of `s` grows (union by rank,
both ranks were equal). -/
def link (h : Heap) (s o : Nat) (bump : Bool) : Heap :=
  fun j =>
    { h j with
      parent_ := if (h j).parent_ = o then s else (h j).parent_,
      rank_ := if j = s ∧ bump = true then (h j).rank_ + 1 else (h j).rank_,
      changed_ := (h j).changed_ || decide (j = o) }

/-- Modelled from the spec: the join on merge, on the survivor `s` of a union
that absorbed `o`: the bits of the survivor become the bitwise OR and its
factor the GCD; `changed` is set if one of them changed. -/
def join (h : Heap) (s o : Nat) : Heap :=
  let c := h s
  let d := h o
  let c1 : Type_ :=
    { c with
      isInteger_ := c.isInteger_ || d.isInteger_,
      isPointer_ := c.isPointer_ || d.isPointer_,
      isSigned_ := c.isSigned_ || d.isSigned_,
      isUnsigned_ := c.isUnsigned_ || d.isUnsigned_,
      factor_ := Nat.gcd c.factor_ d.factor_ }
  if c1 = c then h else h.set s { c1 with changed_ := true }

/-- Modelled from the spec: the pointee part of `makePointer(pointee)` on the
representative `r`: the current pointee, if any, is unified with `p` (by
`unify`), otherwise `p` is installed and `changed` is set. -/
def setPointee (unify : Heap → Nat → Nat → Except Failure Heap) (h : Heap) (r : Nat)
    (p : Nat) : Except Failure Heap :=
  match (h r).pointee_ with
  | some q => unify h q p
  | none => .ok (h.set r { h r with pointee_ := some p, changed_ := true })

/-- Modelled from the spec: `unionSet(that)`.  Nothing happens when both are
in one class.  Otherwise the representatives are linked by rank, the
attributes are joined on the survivor, and the pointee links are unified
pairwise, which is a union again; `fuel` bounds the number of such nested
unions. -/
def unionSet : Nat → Heap → Nat → Nat → Except Failure Heap
  | 0, h, this, that =>
    if findSet h this = findSet h that then .ok h else .error .fuel
  | fuel + 1, h, this, that =>
    if findSet h this = findSet h that then .ok h
    else
      let a := findSet h this
      let b := findSet h that
      let s := if (h a).rank_ < (h b).rank_ then b else a
      let o := if (h a).rank_ < (h b).rank_ then a else b
      let h1 := join (link h s o (decide ((h a).rank_ = (h b).rank_))) s o
      match (h1 o).pointee_ with
      | none => .ok h1
      | some po => setPointee (unionSet fuel) h1 s po

/-- Modelled from the spec: `makePointer(pointee)`: sets the pointer bit as
`makePointer()` does and, for a pointee that is not null, unifies the current
pointee with it or installs it. -/
def makePointerTo (fuel : Nat) (this : Nat) (pointee : Option Nat) (h : Heap) :
    Except Failure Heap :=
  match pointee with
  | none => .ok (makePointer this h)
  | some p => setPointee (unionSet fuel) (makePointer this h) (findSet h this) p

end Type_

/-! ## The type store -/

/-- Modelled from the spec: the class `Types` (absent from src): the `Type`
objects and the terms that have one, in the order of their first request. -/
structure Types where
  heap : Heap
  keys : List Nat

namespace Types

/-- Modelled from the spec: the store before any request. -/
def empty : Types := { heap := Type_.bottom, keys := [] }

/-- Modelled from the spec: the allocating part of `getType(term)`: on first
access the term gets its (fresh) element. -/
def touch (s : Types) (term : Nat) : Types :=
  if term ∈ s.keys then s else { s with keys := s.keys ++ [term] }

/-- Modelled from the spec: `getType(term)` returns the representative of the
element of the term, allocating the element on first access. -/
def getType (s : Types) (term : Nat) : Types × Nat :=
  (s.touch term, findSet s.heap term)

/-- Modelled from the spec: the probe of the driver over `types()`: reads the
`changed` flag of every element of the store and resets the flags. -/
def probe (s : Types) : Bool × Types :=
  (s.keys.any (fun k => (s.heap k).changed_),
   { s with heap := fun j => if j ∈ s.keys then { s.heap j with changed_ := false } else s.heap j })

end Types

/-! ## Sequencing -/

/-- A piece of code acting on the `Type` objects. -/
abbrev Action := Heap → Except Failure Heap

namespace Action

/-- A call that always returns. -/
def lift (f : Heap → Heap) : Action := fun h => .ok (f h)

/-- Statements in sequence. -/
def seq : List Action → Action
  | [] => fun h => .ok h
  | a :: rest => fun h =>
    match a h with
    | .ok h1 => seq rest h1
    | .error e => .error e

/-- An `if` without `else`. -/
def when (c : Heap → Bool) (a : Action) : Action :=
  fun h => if c h then a h else .ok h

/-- An `if` with `else`. -/
def ifElse (c : Heap → Bool) (a b : Action) : Action :=
  fun h => if c h then a h else b h

end Action

/-- Run a piece of code on the objects of a store. -/
def Types.run (s : Types) (a : Action) : Except Failure Types :=
  match a s.heap with
  | .ok h => .ok { s with heap := h }
  | .error e => .error e

/-- Apply `f` to the elements of a list in order, stopping at a failure. -/
def sweep {α : Type} (f : Types → α → Except Failure Types) : List α → Types → Except Failure Types
  | [], s => .ok s
  | x :: rest, s =>
    match f s x with
    | .ok s1 => sweep f rest s1
    | .error e => .error e

/-- Arithmetic of `ConstantValue`, an unsigned 64-bit integer: the product. -/
def mulValue (a b : Nat) : Nat := (a * b) % 2 ^ 64

/-- Arithmetic of `ConstantValue`: `ConstantValue(1) << k`.  C++ defines the
shift only for `k < 64`, where it is `2 ^ k`; for larger `k` the definition only
makes the function total (the value modulo 2^64), and what is stated about the
factor after a shift is stated for `k < 64`. -/
def shlOne (k : Nat) : Nat := (2 ^ k) % 2 ^ 64

/-! ## The rule engine -/

/-- The collaborators of a `TypeAnalyzer`: the dataflow, usage and calls-data
oracles, and the census of a function. -/
structure TypeAnalyzer where
  dataflow : Dataflow
  isUsed : Nat → Bool
  callsData : Option CallsData
  census : Function → Census

namespace TypeAnalyzer

open Action Type_

/-- The signedness block shared by the ADD, SUB and MUL cases. -/
def signednessBlock (type leftType rightType : Nat) : List Action :=
  [ when (fun h => isUnsigned h leftType || isUnsigned h rightType) (lift (makeUnsigned type)),
    when (fun h => isSigned h leftType && isSigned h rightType) (lift (makeSigned type)),
    when (fun h => isSigned h type)
      (seq [lift (makeSigned leftType), lift (makeSigned rightType)]),
    when (fun h => isUnsigned h type)
      (seq [ when (fun h => isSigned h leftType) (lift (makeUnsigned rightType)),
             when (fun h => isSigned h rightType) (lift (makeUnsigned rightType)) ]) ]

/-- The body of `analyze(const BinaryOperator *)` after the three `getType`
calls: the switch over the operator kind.  The branches under
`NC_STRUCT_RECOVERY` are not compiled. -/
def binaryAction (fuel : Nat) (operatorKind : BinaryOperatorKind)
    (type leftType rightType : Nat) (leftValue rightValue : Value) : Action :=
  match operatorKind with
  | .AND | .OR | .XOR =>
    seq [ lift (makeInteger leftType), lift (makeInteger rightType), lift (makeInteger type),
          lift (makeUnsigned leftType), lift (makeUnsigned rightType), lift (makeUnsigned type) ]
  | .SHL =>
    seq [ lift (makeInteger leftType), lift (makeInteger rightType), lift (makeInteger type),
          lift (makeUnsigned rightType),
          when (fun h => isSigned h leftType) (lift (makeSigned type)),
          when (fun h => isUnsigned h leftType) (lift (makeUnsigned type)),
          when (fun h => isSigned h type) (lift (makeSigned leftType)),
          when (fun h => isUnsigned h type) (lift (makeUnsigned leftType)),
          when (fun _ => rightValue.isConcrete)
            (fun h => .ok (updateFactor type
              (mulValue (factor h leftType) (shlOne rightValue.value)) h)) ]
  | .SHR =>
    seq [ lift (makeInteger leftType), lift (makeInteger rightType), lift (makeInteger type),
          lift (makeUnsigned leftType), lift (makeUnsigned type) ]
  | .SAR =>
    seq [ lift (makeInteger leftType), lift (makeInteger rightType), lift (makeInteger type),
          lift (makeSigned leftType), lift (makeSigned type) ]
  | .ADD =>
    seq ([ when (fun h => isInteger h leftType && isInteger h rightType) (lift (makeInteger type)),
           when (fun h => (isInteger h leftType && isPointer h rightType) ||
                          (isPointer h leftType && isInteger h rightType))
             (lift (makePointer type)),
           when (fun h => isInteger h type)
             (seq [lift (makeInteger leftType), lift (makeInteger rightType)]),
           when (fun h => isPointer h type)
             (seq [ when (fun h => isInteger h leftType) (lift (makePointer rightType)),
                    when (fun h => isInteger h rightType) (lift (makePointer leftType)),
                    when (fun h => isPointer h leftType) (lift (makeInteger rightType)),
                    when (fun h => isPointer h rightType) (lift (makeInteger leftType)),
                    when (fun h => !isPointer h leftType && !isPointer h rightType)
                      (ifElse (fun _ => leftValue.isProduct) (lift (makePointer rightType))
                      (ifElse (fun _ => rightValue.isProduct) (lift (makePointer leftType))
                      (ifElse (fun _ => leftValue.isConcrete)
                        (ifElse (fun _ => decide (leftValue.value < 4096))
                          (lift (makeInteger leftType)) (lift (makePointer leftType)))
                      (when (fun _ => rightValue.isConcrete)
                        (ifElse (fun _ => decide (rightValue.value < 4096))
                          (lift (makeInteger rightType)) (lift (makePointer rightType))))))) ]) ]
         ++ signednessBlock type leftType rightType ++
         [ when (fun _ => rightValue.isConcrete)
             (when (fun _ => decide (type = leftType))
               (lift (updateFactor type rightValue.absoluteValue))),
           when (fun _ => leftValue.isConcrete)
             (when (fun _ => decide (type = rightType))
               (lift (updateFactor type leftValue.absoluteValue))),
           when (fun h => isPointer h leftType && rightValue.isProduct)
             (fun h => makePointerTo fuel type (pointee h leftType) h),
           when (fun h => isPointer h rightType && leftValue.isProduct)
             (fun h => makePointerTo fuel type (pointee h rightType) h) ])
  | .SUB =>
    seq ([ when (fun h => isInteger h leftType && isInteger h rightType) (lift (makeInteger type)),
           when (fun h => isPointer h leftType && isInteger h rightType) (lift (makePointer type)),
           when (fun h => isPointer h type)
             (seq [lift (makePointer leftType), lift (makeInteger rightType)]) ]
         ++ signednessBlock type leftType rightType ++
         [ when (fun _ => rightValue.isConcrete)
             (when (fun _ => decide (type = leftType))
               (lift (updateFactor type rightValue.absoluteValue))),
           when (fun h => isPointer h leftType && rightValue.isProduct)
             (fun h => makePointerTo fuel type (pointee h leftType) h) ])
  | .MUL =>
    seq ([ lift (makeInteger type), lift (makeInteger leftType), lift (makeInteger rightType) ]
         ++ signednessBlock type leftType rightType ++
         [ when (fun _ => rightValue.isConcrete)
             (fun h => .ok (updateFactor type
               (mulValue (factor h leftType) rightValue.value) h)),
           when (fun _ => leftValue.isConcrete)
             (fun h => .ok (updateFactor type
               (mulValue (factor h rightType) leftValue.value) h)) ])
  | .SIGNED_DIV | .SIGNED_REM =>
    seq [ lift (makeInteger leftType), lift (makeInteger rightType), lift (makeInteger type),
          lift (makeSigned leftType), lift (makeSigned rightType), lift (makeSigned type) ]
  | .UNSIGNED_DIV | .UNSIGNED_REM =>
    seq [ lift (makeInteger type), lift (makeInteger leftType), lift (makeInteger rightType),
          when (fun h => isSigned h leftType) (lift (makeUnsigned rightType)),
          when (fun h => isUnsigned h rightType) (lift (makeSigned leftType)),
          lift (makeUnsigned type) ]
  | .EQUAL => fun h => unionSet fuel h leftType rightType
  | .SIGNED_LESS | .SIGNED_LESS_OR_EQUAL =>
    seq [ lift (makeSigned leftType), lift (makeSigned rightType),
          fun h => unionSet fuel h leftType rightType ]
  | .UNSIGNED_LESS | .UNSIGNED_LESS_OR_EQUAL =>
    seq [ ifElse (fun h => isSigned h rightType) (lift (makeUnsigned leftType))
            (ifElse (fun h => isSigned h leftType) (lift (makeUnsigned rightType))
              (seq [lift (makeUnsigned leftType), lift (makeUnsigned rightType)])),
          fun h => unionSet fuel h leftType rightType ]
  | .UNKNOWN _ => fun _ => .error .unreachable

/-- The body of `analyze(const UnaryOperator *)` after the two `getType` calls. -/
def unaryAction (operatorKind : UnaryOperatorKind) (type operandType : Nat) : Action :=
  match operatorKind with
  | .NOT => seq [lift (makeInteger operandType), lift (makeInteger type)]
  | .NEGATION =>
    seq [ lift (makeInteger operandType), lift (makeInteger type),
          lift (makeSigned operandType), lift (makeSigned type) ]
  | .SIGN_EXTEND => lift (makeSigned operandType)
  | .ZERO_EXTEND => when (fun h => isSigned h operandType) (lift (makeUnsigned type))
  | .TRUNCATE => fun h => .ok h
  | .UNKNOWN _ => fun _ => .error .unreachable

/-- `TypeAnalyzer::analyze(const Dereference *)`. -/
def analyzeDereference (fuel : Nat) (s : Types) (dereference address : Nat) :
    Except Failure Types :=
  let r1 := s.getType address
  let r2 := r1.1.getType dereference
  r2.1.run (makePointerTo fuel r1.2 (some r2.2))

/-- `TypeAnalyzer::analyze(const UnaryOperator *)`. -/
def analyzeUnary (s : Types) (unary : Nat) (operatorKind : UnaryOperatorKind) (operand : Nat) :
    Except Failure Types :=
  let r1 := s.getType unary
  let r2 := r1.1.getType operand
  r2.1.run (unaryAction operatorKind r1.2 r2.2)

/-- `TypeAnalyzer::analyze(const BinaryOperator *)`. -/
def analyzeBinary (a : TypeAnalyzer) (fuel : Nat) (s : Types) (binary : Nat)
    (operatorKind : BinaryOperatorKind) (left right : Nat) : Except Failure Types :=
  let r1 := s.getType binary
  let r2 := r1.1.getType left
  let r3 := r2.1.getType right
  r3.1.run (binaryAction fuel operatorKind r1.2 r2.2 r3.2
    (a.dataflow.getValue left) (a.dataflow.getValue right))

/-- `TypeAnalyzer::analyze(const Term *)`: the switch over the term kind. -/
def analyzeTerm (a : TypeAnalyzer) (fuel : Nat) (s : Types) (term : Term) :
    Except Failure Types :=
  match term.kind with
  | .INT_CONST => .ok s
  | .INTRINSIC => .ok s
  | .UNDEFINED => .ok s
  | .MEMORY_LOCATION_ACCESS => .ok s
  | .DEREFERENCE address => analyzeDereference fuel s term.id address
  | .UNARY_OPERATOR operatorKind operand => analyzeUnary s term.id operatorKind operand
  | .BINARY_OPERATOR operatorKind left right =>
    a.analyzeBinary fuel s term.id operatorKind left right
  | .CHOICE => .ok s
  | .UNKNOWN _ => .error .unreachable

/-- `TypeAnalyzer::analyze(const Statement *)`: an assignment unifies the types
of its sides, any other kind leaves the store alone (an unsupported kind only
emits a warning). -/
def analyzeStatement (fuel : Nat) (s : Types) (statement : Statement) : Except Failure Types :=
  match statement.kind with
  | .ASSIGNMENT left right =>
    let r1 := s.getType left
    let r2 := r1.1.getType right
    r2.1.run (fun h => unionSet fuel h r1.2 r2.2)
  | _ => .ok s

/-! ## The fixed-point driver -/

/-- The union `getType(x)->unionSet(getType(y))` on the store. -/
def unifyTerms (fuel : Nat) (s : Types) (x y : Nat) : Except Failure Types :=
  let r1 := s.getType x
  let r2 := r1.1.getType y
  r2.1.run (fun h => unionSet fuel h r1.2 r2.2)

/-- The body of the first loop of `analyze(function, canceled)` for one term:
the type of a read term is joined with the types of its definitions, if these
form one chunk at the memory location of the term. -/
def seedTerm (a : TypeAnalyzer) (fuel : Nat) (s : Types) (term : Term) : Except Failure Types :=
  if term.isRead then
    match a.dataflow.getDefinitions term.id with
    | [chunk] =>
      if chunk.location = a.dataflow.getMemoryLocation term.id then
        sweep (fun s definition => unifyTerms fuel s term.id definition) chunk.definitions s
      else .ok s
    | _ => .ok s
  else .ok s

/-- The loop over `function->getReturns()`; `firstReturnTerm` is `none` for the
null pointer. -/
def unifyReturnsLoop (callsData : CallsData) (fuel : Nat) (function : Function)
    (returnValue : Nat) : List Statement → Option Nat → Types → Except Failure Types
  | [], _, s => .ok s
  | ret :: rest, firstReturnTerm, s =>
    match callsData.getReturnAnalyzer function ret with
    | none => unifyReturnsLoop callsData fuel function returnValue rest firstReturnTerm s
    | some returnAnalyzer =>
      match firstReturnTerm with
      | none =>
        unifyReturnsLoop callsData fuel function returnValue rest
          (some (returnAnalyzer.getReturnValueTerm returnValue)) s
      | some first =>
        match unifyTerms fuel s first (returnAnalyzer.getReturnValueTerm returnValue) with
        | .ok s1 => unifyReturnsLoop callsData fuel function returnValue rest (some first) s1
        | .error e => .error e

/-- The second step of `analyze(function, canceled)`: the types of the terms
used for return values are joined. -/
def unifyReturns (a : TypeAnalyzer) (fuel : Nat) (function : Function) (s : Types) :
    Except Failure Types :=
  match a.callsData with
  | none => .ok s
  | some callsData =>
    match callsData.getFunctionSignature function with
    | none => .ok s
    | some signature =>
      match signature.returnValue with
      | none => .ok s
      | some returnValue =>
        unifyReturnsLoop callsData fuel function returnValue function.getReturns none s

/-- The working sequence of terms: the terms of the census that are used, in
their order. -/
def usedTerms (a : TypeAnalyzer) (function : Function) : List Term :=
  (a.census function).terms.filter (fun term => a.isUsed term.id)

/-- One round of the do-while loop, before the probe: the term rules forward
and in reverse, then the statement rules forward and in reverse. -/
def round (a : TypeAnalyzer) (fuel : Nat) (terms : List Term) (statements : List Statement)
    (s : Types) : Except Failure Types :=
  match sweep (a.analyzeTerm fuel) terms s with
  | .error e => .error e
  | .ok s1 =>
    match sweep (a.analyzeTerm fuel) terms.reverse s1 with
    | .error e => .error e
    | .ok s2 =>
      match sweep (analyzeStatement fuel) statements s2 with
      | .error e => .error e
      | .ok s3 => sweep (analyzeStatement fuel) statements.reverse s3

/-- The do-while loop.  `canceled k` is what the cancellation token reads at
the end of round `k`; `rounds` bounds the number of rounds of the model. -/
def iterate (a : TypeAnalyzer) (fuel : Nat) (canceled : Nat → Bool) (terms : List Term)
    (statements : List Statement) : Nat → Nat → Types → Except Failure Types
  | 0, _, _ => .error .fuel
  | rounds + 1, k, s =>
    match a.round fuel terms statements s with
    | .error e => .error e
    | .ok s1 =>
      if s1.probe.1 && !canceled k then
        iterate a fuel canceled terms statements rounds (k + 1) s1.probe.2
      else .ok s1.probe.2

/-- `TypeAnalyzer::analyze(const Function *, const CancellationToken &)` on the
store `s`. -/
def analyze (a : TypeAnalyzer) (fuel rounds : Nat) (function : Function)
    (canceled : Nat → Bool) (s : Types) : Except Failure Types :=
  match sweep (a.seedTerm fuel) (a.census function).terms s with
  | .error e => .error e
  | .ok s1 =>
    match a.unifyReturns fuel function s1 with
    | .error e => .error e
    | .ok s2 =>
      a.iterate fuel canceled (a.usedTerms function) (a.census function).statements rounds 0 s2

end TypeAnalyzer

/-! # Definitions for the statements and the proofs -/

open Type_ Action

/-- The survivor after the join, as a record. -/
def joined (c d : Type_) : Type_ :=
  { c with
    isInteger_ := c.isInteger_ || d.isInteger_,
    isPointer_ := c.isPointer_ || d.isPointer_,
    isSigned_ := c.isSigned_ || d.isSigned_,
    isUnsigned_ := c.isUnsigned_ || d.isUnsigned_,
    factor_ := Nat.gcd c.factor_ d.factor_ }

/-- The heap `h2` extends `h1`: terms in one class stay in one class and no bit
read through the representative is cleared. -/
structure Grow (h1 h2 : Heap) : Prop where
  same : ∀ x y, findSet h1 x = findSet h1 y → findSet h2 x = findSet h2 y
  integer : ∀ x, isInteger h1 x = true → isInteger h2 x = true
  pointer : ∀ x, isPointer h1 x = true → isPointer h2 x = true
  signed : ∀ x, isSigned h1 x = true → isSigned h2 x = true
  unsigned : ∀ x, isUnsigned h1 x = true → isUnsigned h2 x = true

/-- The pieces of code the rules are made of: calls of the methods of `Type`
on handles that satisfy `K`, in sequence and under conditions. -/
inductive Wired (fuel : Nat) (K : Nat → Prop) : Action → Prop where
  | skip : Wired fuel K (fun h => .ok h)
  | fail : Wired fuel K (fun _ => .error .unreachable)
  | makeInteger {x : Nat} : K x → Wired fuel K (lift (Type_.makeInteger x))
  | makePointer {x : Nat} : K x → Wired fuel K (lift (Type_.makePointer x))
  | makeSigned {x : Nat} : K x → Wired fuel K (lift (Type_.makeSigned x))
  | makeUnsigned {x : Nat} : K x → Wired fuel K (lift (Type_.makeUnsigned x))
  | updateFactor {x : Nat} (v : Heap → Nat) :
      K x → Wired fuel K (fun h => .ok (Type_.updateFactor x (v h) h))
  | makePointerTo {x l : Nat} :
      K x → K l → Wired fuel K (fun h => Type_.makePointerTo fuel x (pointee h l) h)
  | makePointerSome {x p : Nat} :
      K x → K p → Wired fuel K (Type_.makePointerTo fuel x (some p))
  | unionSet {a b : Nat} : K a → K b → Wired fuel K (fun h => Type_.unionSet fuel h a b)
  | seqNil : Wired fuel K (seq [])
  | seqCons {a : Action} {rest : List Action} :
      Wired fuel K a → Wired fuel K (seq rest) → Wired fuel K (seq (a :: rest))
  | when (c : Heap → Bool) {a : Action} : Wired fuel K a → Wired fuel K (when c a)
  | ifElse (c : Heap → Bool) {a b : Action} :
      Wired fuel K a → Wired fuel K b → Wired fuel K (ifElse c a b)

/-- Allocate the elements of several terms, in order. -/
def Types.touchAll (s : Types) (ids : List Nat) : Types := ids.foldl Types.touch s

namespace TypeAnalyzer

open Type_ Action

/-- The terms whose types a term rule requests. -/
def termIds (term : Term) : List Nat :=
  match term.kind with
  | .DEREFERENCE address => [address, term.id]
  | .UNARY_OPERATOR _ operand => [term.id, operand]
  | .BINARY_OPERATOR _ left right => [term.id, left, right]
  | _ => []

/-- The code a term rule runs on the objects, the handles being read off `h0`. -/
def termAction (a : TypeAnalyzer) (fuel : Nat) (h0 : Heap) (term : Term) : Action :=
  match term.kind with
  | .DEREFERENCE address =>
    makePointerTo fuel (findSet h0 address) (some (findSet h0 term.id))
  | .UNARY_OPERATOR operatorKind operand =>
    unaryAction operatorKind (findSet h0 term.id) (findSet h0 operand)
  | .BINARY_OPERATOR operatorKind left right =>
    binaryAction fuel operatorKind (findSet h0 term.id) (findSet h0 left) (findSet h0 right)
      (a.dataflow.getValue left) (a.dataflow.getValue right)
  | .UNKNOWN _ => fun _ => .error .unreachable
  | _ => fun h => .ok h

/-- The terms whose types a statement rule requests. -/
def statementIds (statement : Statement) : List Nat :=
  match statement.kind with
  | .ASSIGNMENT left right => [left, right]
  | _ => []

/-- The code a statement rule runs on the objects. -/
def statementAction (fuel : Nat) (h0 : Heap) (statement : Statement) : Action :=
  match statement.kind with
  | .ASSIGNMENT left right => fun h => unionSet fuel h (findSet h0 left) (findSet h0 right)
  | _ => fun h => .ok h

end TypeAnalyzer

/-- The objects form a union-find structure owned by the terms in `K`:
representatives are their own representative, the representative and the
pointee of an object of `K` are in `K`, and an object outside `K` is as fresh
as on its creation. -/
structure HeapWF (K : Nat → Prop) (h : Heap) : Prop where
  idem : ∀ x, findSet h (findSet h x) = findSet h x
  parent_mem : ∀ k, K k → K (findSet h k)
  pointee_mem : ∀ k p, K k → (h k).pointee_ = some p → K p
  fresh : ∀ k, ¬ K k → h k = Type_.bottom k

/-- The store is well formed: its objects form a union-find structure owned by
its terms. -/
def Types.WF (s : Types) : Prop := HeapWF (fun k => k ∈ s.keys) s.heap

/-- The store `s2` extends `s1`: it is well formed, its heap extends the heap
of `s1`, and it has the terms of `s1`. -/
structure Ext (s1 s2 : Types) : Prop where
  wf : s2.WF
  grow : Grow s1.heap s2.heap
  keys : ∀ k, k ∈ s1.keys → k ∈ s2.keys

/-- The store of a result, the empty store for a failure. -/
def resultStore (r : Except Failure Types) : Types :=
  match r with
  | .ok s => s
  | .error _ => Types.empty

/-- Whether a run returned. -/
def returned (r : Except Failure Types) : Bool :=
  match r with
  | .ok _ => true
  | .error _ => false

/-- A dataflow oracle that knows nothing: no definitions, no concrete value. -/
def noDataflow : Dataflow :=
  { getMemoryLocation := fun _ => 0,
    getDefinitions := fun _ => [],
    getValue := fun _ => ⟨false, 0, 0, 0, false, false⟩ }

/-- A function of one basic block. -/
def blockOf (statements : List Statement) : Function := ⟨[⟨statements⟩]⟩

/-- An analyzer for one assignment `t0 := t1` between two memory accesses. -/
def assignExample : TypeAnalyzer :=
  { dataflow := noDataflow,
    isUsed := fun _ => true,
    callsData := none,
    census := fun _ =>
      { statements := [⟨10, .ASSIGNMENT 0 1⟩],
        terms := [⟨0, false, .MEMORY_LOCATION_ACCESS⟩, ⟨1, true, .MEMORY_LOCATION_ACCESS⟩] } }

/-- An analyzer for one term `t2 := EQUAL(t0, t1)`; `used` is the answer of the
usage oracle. -/
def equalExample (used : Bool) : TypeAnalyzer :=
  { dataflow := noDataflow,
    isUsed := fun _ => used,
    callsData := none,
    census := fun _ =>
      { statements := [],
        terms := [⟨0, true, .MEMORY_LOCATION_ACCESS⟩, ⟨1, true, .MEMORY_LOCATION_ACCESS⟩,
                  ⟨2, true, .BINARY_OPERATOR .EQUAL 0 1⟩] } }

/-- An analyzer for a read term `t1` (not used) whose definitions are the one
chunk `{t0}` at the location of `t1`, and a read term `t2` with a chunk at
another location. -/
def seedExample : TypeAnalyzer :=
  { dataflow :=
      { getMemoryLocation := fun t => if t = 2 then 8 else 7,
        getDefinitions := fun t => if t = 1 then [⟨7, [0]⟩] else if t = 2 then [⟨7, [0]⟩] else [],
        getValue := fun _ => ⟨false, 0, 0, 0, false, false⟩ },
    isUsed := fun _ => false,
    callsData := none,
    census := fun _ =>
      { statements := [],
        terms := [⟨0, false, .MEMORY_LOCATION_ACCESS⟩, ⟨1, true, .MEMORY_LOCATION_ACCESS⟩,
                  ⟨2, true, .MEMORY_LOCATION_ACCESS⟩] } }

/-- The calls data of `returnExample`: a signature with a return value, and an
analyzer for each return, whose return-value term is numbered as the return. -/
def returnCallsData : CallsData :=
  { getFunctionSignature := fun _ => some ⟨some 0⟩,
    getReturnAnalyzer := fun _ ret => some ⟨fun _ => ret.id⟩ }

/-- A function with two returns. -/
def returnFunction : Function := ⟨[⟨[⟨1, .RETURN⟩, ⟨5, .COMMENT⟩]⟩, ⟨[⟨2, .RETURN⟩]⟩]⟩

/-- An analyzer for `returnFunction`. -/
def returnExample : TypeAnalyzer :=
  { dataflow := noDataflow,
    isUsed := fun _ => true,
    callsData := some returnCallsData,
    census := fun _ => { statements := [⟨1, .RETURN⟩, ⟨5, .COMMENT⟩, ⟨2, .RETURN⟩], terms := [] } }

/-- An analyzer for one used term `t2 := AND(t0, t1)`. -/
def andExample : TypeAnalyzer :=
  { dataflow := noDataflow,
    isUsed := fun _ => true,
    callsData := none,
    census := fun _ =>
      { statements := [],
        terms := [⟨0, true, .MEMORY_LOCATION_ACCESS⟩, ⟨1, true, .MEMORY_LOCATION_ACCESS⟩,
                  ⟨2, true, .BINARY_OPERATOR .AND 0 1⟩] } }

namespace TypeAnalyzer

open Type_ Action

/-- No attribute bit of the type of a term is cleared from `s` to `s2`: for
every term `t` and every attribute among integer, pointer, signed and
unsigned, the attribute of `type(t)` in `s` is kept in `s2`. -/
def BitsKept (s s2 : Types) : Prop :=
  ∀ t : Nat,
    (isInteger s.heap (s.getType t).2 = true → isInteger s2.heap (s2.getType t).2 = true) ∧
    (isPointer s.heap (s.getType t).2 = true → isPointer s2.heap (s2.getType t).2 = true) ∧
    (isSigned s.heap (s.getType t).2 = true → isSigned s2.heap (s2.getType t).2 = true) ∧
    (isUnsigned s.heap (s.getType t).2 = true → isUnsigned s2.heap (s2.getType t).2 = true)

/-- The first part of the ADD case: the integer and pointer bits. -/
def addKindBlock (type leftType rightType : Nat) (leftValue rightValue : Value) : List Action :=
  [ when (fun h => isInteger h leftType && isInteger h rightType) (lift (makeInteger type)),
    when (fun h => (isInteger h leftType && isPointer h rightType) ||
                   (isPointer h leftType && isInteger h rightType))
      (lift (makePointer type)),
    when (fun h => isInteger h type)
      (seq [lift (makeInteger leftType), lift (makeInteger rightType)]),
    when (fun h => isPointer h type)
      (seq [ when (fun h => isInteger h leftType) (lift (makePointer rightType)),
             when (fun h => isInteger h rightType) (lift (makePointer leftType)),
             when (fun h => isPointer h leftType) (lift (makeInteger rightType)),
             when (fun h => isPointer h rightType) (lift (makeInteger leftType)),
             when (fun h => !isPointer h leftType && !isPointer h rightType)
               (ifElse (fun _ => leftValue.isProduct) (lift (makePointer rightType))
               (ifElse (fun _ => rightValue.isProduct) (lift (makePointer leftType))
               (ifElse (fun _ => leftValue.isConcrete)
                 (ifElse (fun _ => decide (leftValue.value < 4096))
                   (lift (makeInteger leftType)) (lift (makePointer leftType)))
               (when (fun _ => rightValue.isConcrete)
                 (ifElse (fun _ => decide (rightValue.value < 4096))
                   (lift (makeInteger rightType)) (lift (makePointer rightType))))))) ]) ]

/-- The last part of the ADD case: the factor and the pointee. -/
def addTail (fuel : Nat) (type leftType rightType : Nat) (leftValue rightValue : Value) :
    List Action :=
  [ when (fun _ => rightValue.isConcrete)
      (when (fun _ => decide (type = leftType))
        (lift (updateFactor type rightValue.absoluteValue))),
    when (fun _ => leftValue.isConcrete)
      (when (fun _ => decide (type = rightType))
        (lift (updateFactor type leftValue.absoluteValue))),
    when (fun h => isPointer h leftType && rightValue.isProduct)
      (fun h => makePointerTo fuel type (pointee h leftType) h),
    when (fun h => isPointer h rightType && leftValue.isProduct)
      (fun h => makePointerTo fuel type (pointee h rightType) h) ]

end TypeAnalyzer

/-- The objects `h1` and `h2` have the same links: parent, rank and pointee. -/
def SameLinks (h1 h2 : Heap) : Prop :=
  ∀ j, (h2 j).parent_ = (h1 j).parent_ ∧ (h2 j).rank_ = (h1 j).rank_ ∧
    (h2 j).pointee_ = (h1 j).pointee_

/-- The objects `h1` and `h2` have the same stored factors. -/
def SameFactors (h1 h2 : Heap) : Prop := ∀ j, (h2 j).factor_ = (h1 j).factor_

/-- Pieces of code made of the calls that set a bit (and of `updateFactor`, if
`withFactor` holds), in sequence and under conditions: they always return. -/
inductive Plain (withFactor : Prop) : Action → Prop where
  | skip : Plain withFactor (fun h => .ok h)
  | makeInteger (x : Nat) : Plain withFactor (lift (Type_.makeInteger x))
  | makePointer (x : Nat) : Plain withFactor (lift (Type_.makePointer x))
  | makeSigned (x : Nat) : Plain withFactor (lift (Type_.makeSigned x))
  | makeUnsigned (x : Nat) : Plain withFactor (lift (Type_.makeUnsigned x))
  | updateFactor (x : Nat) (v : Heap → Nat) :
      withFactor → Plain withFactor (fun h => .ok (Type_.updateFactor x (v h) h))
  | seqNil : Plain withFactor (seq [])
  | seqCons {a : Action} {rest : List Action} :
      Plain withFactor a → Plain withFactor (seq rest) → Plain withFactor (seq (a :: rest))
  | when (c : Heap → Bool) {a : Action} : Plain withFactor a → Plain withFactor (when c a)
  | ifElse (c : Heap → Bool) {a b : Action} :
      Plain withFactor a → Plain withFactor b → Plain withFactor (ifElse c a b)

namespace TypeAnalyzer

open Type_ Action

/-- The calls of the SHL case that come before the update of the factor. -/
def shlBitsBlock (type leftType rightType : Nat) : List Action :=
  [ lift (makeInteger leftType), lift (makeInteger rightType), lift (makeInteger type),
    lift (makeUnsigned rightType),
    when (fun h => isSigned h leftType) (lift (makeSigned type)),
    when (fun h => isUnsigned h leftType) (lift (makeUnsigned type)),
    when (fun h => isSigned h type) (lift (makeSigned leftType)),
    when (fun h => isUnsigned h type) (lift (makeUnsigned leftType)) ]

/-- An analyzer for the scenario S1: the used term `t2 := t0 SHL t1`, where the
value of `t1` is the concrete value 3. -/
def shlExample : TypeAnalyzer :=
  { dataflow :=
      { getMemoryLocation := fun _ => 0,
        getDefinitions := fun _ => [],
        getValue := fun t =>
          if t = 1 then ⟨true, 3, 3, 3, false, false⟩ else ⟨false, 0, 0, 0, false, false⟩ },
    isUsed := fun _ => true,
    callsData := none,
    census := fun _ =>
      { statements := [],
        terms := [⟨0, true, .MEMORY_LOCATION_ACCESS⟩, ⟨1, true, .INT_CONST⟩,
                  ⟨2, true, .BINARY_OPERATOR .SHL 0 1⟩] } }

end TypeAnalyzer

/-- The terms of a store after the requests `ids`. -/
def touchKeys (keys : List Nat) (ids : List Nat) : List Nat :=
  ids.foldl (fun ks t => if t ∈ ks then ks else ks ++ [t]) keys

/-- The store made of the objects of a result and of the terms requested. -/
def storeOf (r : Except Failure Heap) (keys : List Nat) : Except Failure Types :=
  match r with
  | .ok h => .ok ⟨h, keys⟩
  | .error e => .error e

/-- A sweep on the objects alone. -/
def sweepHeap {α : Type} (step : Heap → α → Except Failure Heap) :
    List α → Heap → Except Failure Heap
  | [], h => .ok h
  | x :: rest, h =>
    match step h x with
    | .ok h1 => sweepHeap step rest h1
    | .error e => .error e

namespace TypeAnalyzer

open Type_ Action

/-- The term rule on the objects. -/
def termStep (a : TypeAnalyzer) (fuel : Nat) (h : Heap) (term : Term) : Except Failure Heap :=
  termAction a fuel h term h

/-- The statement rule on the objects. -/
def statementStep (fuel : Nat) (h : Heap) (statement : Statement) : Except Failure Heap :=
  statementAction fuel h statement h

/-- One round on the objects. -/
def roundHeap (a : TypeAnalyzer) (fuel : Nat) (terms : List Term) (statements : List Statement)
    (h : Heap) : Except Failure Heap :=
  match sweepHeap (a.termStep fuel) terms h with
  | .error e => .error e
  | .ok h1 =>
    match sweepHeap (a.termStep fuel) terms.reverse h1 with
    | .error e => .error e
    | .ok h2 =>
      match sweepHeap (statementStep fuel) statements h2 with
      | .error e => .error e
      | .ok h3 => sweepHeap (statementStep fuel) statements.reverse h3

/-- The terms whose types a round requests, in order. -/
def roundIds (terms : List Term) (statements : List Statement) : List Nat :=
  terms.flatMap termIds ++ (terms.reverse.flatMap termIds ++
    (statements.flatMap statementIds ++ statements.reverse.flatMap statementIds))

end TypeAnalyzer

/-- A relation between heaps that holds along every piece of code of the
rules run on a well-formed heap. -/
structure Stable (fuel : Nat) (K : Nat → Prop) (R : Heap → Heap → Prop) : Prop where
  rel_refl : ∀ h, R h h
  rel_trans : ∀ h1 h2 h3, R h1 h2 → R h2 h3 → R h1 h3
  rel_wired : ∀ a, Wired fuel K a → ∀ h h2, HeapWF K h → a h = .ok h2 → R h h2

/-- From `h` to `h2` no `changed` flag is cleared, and either nothing changed
or the flag of an object of `K` is set in `h2`. -/
def Flagged (K : Nat → Prop) (h h2 : Heap) : Prop :=
  (∀ i, (h i).changed_ = true → (h2 i).changed_ = true) ∧
  (h2 = h ∨ ∃ i, K i ∧ (h2 i).changed_ = true)

/-- What a representative still can gain: itself as a class, its four bits, a
pointee, and a first factor. -/
def weight (c : Type_) : Nat :=
  1 + (if c.isInteger_ = true then 0 else 1) + (if c.isPointer_ = true then 0 else 1) +
    (if c.isSigned_ = true then 0 else 1) + (if c.isUnsigned_ = true then 0 else 1) +
    (if c.pointee_ = none then 1 else 0) + (if c.factor_ = 0 then 1 else 0)

/-- The weight of an object that is a representative, 0 for the others. -/
def cost (h : Heap) (i : Nat) : Nat := if findSet h i = i then weight (h i) else 0

/-- The stored factor of an object that is a representative, 0 for the others. -/
def stride (h : Heap) (i : Nat) : Nat := if findSet h i = i then (h i).factor_ else 0

/-- The first component of the measure, over the terms `U`. -/
def measure1 (U : List Nat) (h : Heap) : Nat := (U.map (cost h)).sum

/-- The second component of the measure, over the terms `U`. -/
def measure2 (U : List Nat) (h : Heap) : Nat := (U.map (stride h)).sum

/-- From `h` to `h2` either nothing changed or the measure decreased, in the
lexicographic order. -/
def Dec (U : List Nat) (h h2 : Heap) : Prop :=
  h2 = h ∨ measure1 U h2 < measure1 U h ∨
    (measure1 U h2 = measure1 U h ∧ measure2 U h2 < measure2 U h)

namespace TypeAnalyzer

open Type_ Action

/-- A store from which the rounds of the loop only shrink the measure: it is
well formed, all its terms and all terms of a round are in `U`, the terms of a
round are in the store, and no flag is set. -/
structure Settled (U : List Nat) (terms : List Term) (statements : List Statement)
    (s : Types) : Prop where
  wf : s.WF
  keys_mem : ∀ j ∈ s.keys, j ∈ U
  ids_mem : ∀ i ∈ roundIds terms statements, i ∈ s.keys
  clear : ∀ j ∈ s.keys, (s.heap j).changed_ = false

/-- The store is well formed and all its terms are in `U`. -/
def Fits (U : List Nat) (s : Types) : Prop := s.WF ∧ ∀ j ∈ s.keys, j ∈ U

/-- The terms whose types the seeding step may request. -/
def seedIds (a : TypeAnalyzer) (function : Function) : List Nat :=
  (a.census function).terms.flatMap
    (fun term => term.id :: (a.dataflow.getDefinitions term.id).flatMap (fun c => c.definitions))

/-- The terms whose types the unification of the returns may request. -/
def returnIds (a : TypeAnalyzer) (function : Function) : List Nat :=
  match a.callsData with
  | none => []
  | some callsData =>
    match callsData.getFunctionSignature function with
    | none => []
    | some signature =>
      match signature.returnValue with
      | none => []
      | some returnValue =>
        function.getReturns.flatMap (fun ret =>
          match callsData.getReturnAnalyzer function ret with
          | none => []
          | some ra => [ra.getReturnValueTerm returnValue])

/-- All terms whose types an analysis of `function` on the store `s` may request. -/
def allIds (a : TypeAnalyzer) (function : Function) (s : Types) : List Nat :=
  s.keys ++ (a.seedIds function ++ (a.returnIds function ++
    roundIds (a.usedTerms function) (a.census function).statements))

end TypeAnalyzer

/-- A function of two blocks: a return and a comment, then a jump and a return. -/
def twoReturnsFunction : Function :=
  ⟨[⟨[⟨1, .RETURN⟩, ⟨5, .COMMENT⟩]⟩, ⟨[⟨7, .JUMP⟩, ⟨2, .RETURN⟩]⟩]⟩

namespace TypeAnalyzer

open Type_ Action

/-- An analyzer for the terms `t2 := UNSIGNED_DIV(t0, t1)`,
`t3 := SIGN_EXTEND(t1)` and `t4 := SIGN_EXTEND(t0)`. -/
def unsignedDivExample : TypeAnalyzer :=
  { dataflow := noDataflow,
    isUsed := fun _ => true,
    callsData := none,
    census := fun _ =>
      { statements := [],
        terms := [⟨0, true, .MEMORY_LOCATION_ACCESS⟩, ⟨1, true, .MEMORY_LOCATION_ACCESS⟩,
                  ⟨2, true, .BINARY_OPERATOR .UNSIGNED_DIV 0 1⟩,
                  ⟨3, true, .UNARY_OPERATOR .SIGN_EXTEND 1⟩,
                  ⟨4, true, .UNARY_OPERATOR .SIGN_EXTEND 0⟩] } }

/-- The store after the rule of `t3 := SIGN_EXTEND(t1)` on the empty store: the
type of `t1` is signed. -/
def signedRightStore : Types :=
  resultStore (unsignedDivExample.analyzeTerm 1 Types.empty
    ⟨3, true, .UNARY_OPERATOR .SIGN_EXTEND 1⟩)

/-- The store after the rule of `t4 := SIGN_EXTEND(t0)` on the empty store: the
type of `t0` is signed. -/
def signedLeftStore : Types :=
  resultStore (unsignedDivExample.analyzeTerm 1 Types.empty
    ⟨4, true, .UNARY_OPERATOR .SIGN_EXTEND 0⟩)

end TypeAnalyzer

/-- The pieces of code of the rules that have no `unreachable()`. -/
inductive Defined (fuel : Nat) : Action → Prop where
  | skip : Defined fuel (fun h => .ok h)
  | lift (f : Heap → Heap) : Defined fuel (lift f)
  | updateFactor (x : Nat) (v : Heap → Nat) :
      Defined fuel (fun h => .ok (Type_.updateFactor x (v h) h))
  | makePointerTo (x l : Nat) : Defined fuel (fun h => Type_.makePointerTo fuel x (pointee h l) h)
  | makePointerSome (x p : Nat) : Defined fuel (Type_.makePointerTo fuel x (some p))
  | unionSet (a b : Nat) : Defined fuel (fun h => Type_.unionSet fuel h a b)
  | seqNil : Defined fuel (seq [])
  | seqCons {a : Action} {rest : List Action} :
      Defined fuel a → Defined fuel (seq rest) → Defined fuel (seq (a :: rest))
  | when (c : Heap → Bool) {a : Action} : Defined fuel a → Defined fuel (when c a)
  | ifElse (c : Heap → Bool) {a b : Action} :
      Defined fuel a → Defined fuel b → Defined fuel (ifElse c a b)

/-- Following the claim: the kind of the term is one of integer constant,
intrinsic, undefined, memory-location access, dereference, unary operator,
binary operator and choice, and the operator kind of an operator is one of the
vocabulary. -/
def Term.isKnown (term : Term) : Bool :=
  match term.kind with
  | .UNKNOWN _ => false
  | .UNARY_OPERATOR (.UNKNOWN _) _ => false
  | .BINARY_OPERATOR (.UNKNOWN _) _ _ => false
  | _ => true

namespace TypeAnalyzer

open Type_ Action

/-- An analyzer for the terms `t2 := UNSIGNED_LESS(t0, t1)` and
`t3 := SIGN_EXTEND(t1)`. -/
def unsignedLessExample : TypeAnalyzer :=
  { dataflow := noDataflow,
    isUsed := fun _ => true,
    callsData := none,
    census := fun _ =>
      { statements := [],
        terms := [⟨0, true, .MEMORY_LOCATION_ACCESS⟩, ⟨1, true, .MEMORY_LOCATION_ACCESS⟩,
                  ⟨2, true, .BINARY_OPERATOR .UNSIGNED_LESS 0 1⟩,
                  ⟨3, true, .UNARY_OPERATOR .SIGN_EXTEND 1⟩] } }

end TypeAnalyzer

/-- The pointee of every type that has one in `h` is kept in `h2`, up to its
class. -/
def PointeeKept (h h2 : Heap) : Prop :=
  ∀ x q, pointee h x = some q → ∃ q2, pointee h2 x = some q2 ∧ findSet h2 q2 = findSet h2 q

namespace TypeAnalyzer

open Type_ Action

/-- An analyzer for two dereferences `t1 := *t0` and `t2 := *t0` of one address. -/
def derefExample : TypeAnalyzer :=
  { dataflow := noDataflow,
    isUsed := fun _ => true,
    callsData := none,
    census := fun _ =>
      { statements := [],
        terms := [⟨0, true, .MEMORY_LOCATION_ACCESS⟩, ⟨1, true, .DEREFERENCE 0⟩,
                  ⟨2, true, .DEREFERENCE 0⟩] } }

/-- The store after the rule of `t1 := *t0` on the empty store: the type of
`t0` is a pointer to the type of `t1`. -/
def derefStore : Types :=
  resultStore (derefExample.analyzeTerm 1 Types.empty ⟨1, true, .DEREFERENCE 0⟩)

end TypeAnalyzer

/-- No object of `K` has its `changed` flag set. -/
def Quiet (K : Nat → Prop) (h : Heap) : Prop := ∀ i, K i → (h i).changed_ = false

namespace TypeAnalyzer

open Type_ Action

/-- The first part of the SUB case: the integer and pointer bits. -/
def subKindBlock (type leftType rightType : Nat) : List Action :=
  [ when (fun h => isInteger h leftType && isInteger h rightType) (lift (makeInteger type)),
    when (fun h => isPointer h leftType && isInteger h rightType) (lift (makePointer type)),
    when (fun h => isPointer h type)
      (seq [lift (makePointer leftType), lift (makeInteger rightType)]) ]

/-- The last part of the SUB case: the factor and the pointee. -/
def subTail (fuel : Nat) (type leftType : Nat) (rightValue : Value) : List Action :=
  [ when (fun _ => rightValue.isConcrete)
      (when (fun _ => decide (type = leftType))
        (lift (updateFactor type rightValue.absoluteValue))),
    when (fun h => isPointer h leftType && rightValue.isProduct)
      (fun h => makePointerTo fuel type (pointee h leftType) h) ]

/-- An analyzer for `t3 := *t2` with `t2 := SUB(t0, t1)`. -/
def subExample : TypeAnalyzer :=
  { dataflow := noDataflow,
    isUsed := fun _ => true,
    callsData := none,
    census := fun _ =>
      { statements := [],
        terms := [⟨0, true, .MEMORY_LOCATION_ACCESS⟩, ⟨1, true, .MEMORY_LOCATION_ACCESS⟩,
                  ⟨2, true, .BINARY_OPERATOR .SUB 0 1⟩, ⟨3, true, .DEREFERENCE 2⟩] } }

end TypeAnalyzer

namespace TypeAnalyzer

open Type_ Action

/-- The calls of the ADD case under `if (type->isPointer())`. -/
def addPointerBlock (leftType rightType : Nat) (leftValue rightValue : Value) : List Action :=
  [ when (fun h => isInteger h leftType) (lift (makePointer rightType)),
    when (fun h => isInteger h rightType) (lift (makePointer leftType)),
    when (fun h => isPointer h leftType) (lift (makeInteger rightType)),
    when (fun h => isPointer h rightType) (lift (makeInteger leftType)),
    when (fun h => !isPointer h leftType && !isPointer h rightType)
      (ifElse (fun _ => leftValue.isProduct) (lift (makePointer rightType))
      (ifElse (fun _ => rightValue.isProduct) (lift (makePointer leftType))
      (ifElse (fun _ => leftValue.isConcrete)
        (ifElse (fun _ => decide (leftValue.value < 4096))
          (lift (makeInteger leftType)) (lift (makePointer leftType)))
      (when (fun _ => rightValue.isConcrete)
        (ifElse (fun _ => decide (rightValue.value < 4096))
          (lift (makeInteger rightType)) (lift (makePointer rightType))))))) ]

/-- An analyzer for the scenario S2: `t2 := ADD(t0, t1)` and `t3 := *t2`, where
nothing is known of the value of `t0` and the value of `t1` is the concrete
value 16. -/
def smallImmediateExample : TypeAnalyzer :=
  { dataflow :=
      { getMemoryLocation := fun _ => 0,
        getDefinitions := fun _ => [],
        getValue := fun t =>
          if t = 1 then ⟨true, 16, 16, 16, false, false⟩ else ⟨false, 0, 0, 0, false, false⟩ },
    isUsed := fun _ => true,
    callsData := none,
    census := fun _ =>
      { statements := [],
        terms := [⟨0, true, .MEMORY_LOCATION_ACCESS⟩, ⟨1, true, .INT_CONST⟩,
                  ⟨2, true, .BINARY_OPERATOR .ADD 0 1⟩, ⟨3, true, .DEREFERENCE 2⟩] } }

/-- An analyzer for the scenario S3: `t2 := ADD(t0, t1)`, where the value of
`t0` is the concrete value 0x400000 and the value of `t1` is a product; with
`dereferenced`, the function also has the term `t3 := *t2`. -/
def largeImmediateExample (dereferenced : Bool) : TypeAnalyzer :=
  { dataflow :=
      { getMemoryLocation := fun _ => 0,
        getDefinitions := fun _ => [],
        getValue := fun t =>
          if t = 0 then ⟨true, 0x400000, 0x400000, 0x400000, false, false⟩
          else if t = 1 then ⟨false, 0, 0, 0, true, false⟩
          else ⟨false, 0, 0, 0, false, false⟩ },
    isUsed := fun _ => true,
    callsData := none,
    census := fun _ =>
      { statements := [],
        terms := [⟨0, true, .INT_CONST⟩, ⟨1, true, .MEMORY_LOCATION_ACCESS⟩,
                  ⟨2, true, .BINARY_OPERATOR .ADD 0 1⟩] ++
                 (if dereferenced then [⟨3, true, .DEREFERENCE 2⟩] else []) } }

end TypeAnalyzer

/-- Pieces of code made of the calls that set a bit or a factor, in sequence and
under conditions, in which `makeUnsigned` is called only on handles that
satisfy `D`; a condition that never holds may guard any code. -/
inductive Sparing (D : Nat → Prop) : Action → Prop where
  | skip : Sparing D (fun h => .ok h)
  | makeInteger (x : Nat) : Sparing D (lift (Type_.makeInteger x))
  | makePointer (x : Nat) : Sparing D (lift (Type_.makePointer x))
  | makeSigned (x : Nat) : Sparing D (lift (Type_.makeSigned x))
  | makeUnsigned {y : Nat} : D y → Sparing D (lift (Type_.makeUnsigned y))
  | updateFactor (x : Nat) (v : Heap → Nat) :
      Sparing D (fun h => .ok (Type_.updateFactor x (v h) h))
  | seqNil : Sparing D (seq [])
  | seqCons {a : Action} {rest : List Action} :
      Sparing D a → Sparing D (seq rest) → Sparing D (seq (a :: rest))
  | when (c : Heap → Bool) {a : Action} : Sparing D a → Sparing D (when c a)
  | whenNever (c : Heap → Bool) (a : Action) : (∀ h, c h = false) → Sparing D (when c a)
  | ifElse (c : Heap → Bool) {a b : Action} :
      Sparing D a → Sparing D b → Sparing D (ifElse c a b)

namespace TypeAnalyzer

open Type_ Action

/-- An analyzer for `t2 := ADD(t0, t1)`, where the value of `t0` is a product,
together with the terms `t3 := *t1`, `t4 := EQUAL(t0, t3)`, `t5 := *t2` and
`t6 := AND(t5, t5)`. -/
def pointeeMergeExample : TypeAnalyzer :=
  { dataflow :=
      { getMemoryLocation := fun _ => 0,
        getDefinitions := fun _ => [],
        getValue := fun t =>
          if t = 0 then ⟨false, 0, 0, 0, true, false⟩ else ⟨false, 0, 0, 0, false, false⟩ },
    isUsed := fun _ => true,
    callsData := none,
    census := fun _ =>
      { statements := [],
        terms := [⟨0, true, .MEMORY_LOCATION_ACCESS⟩, ⟨1, true, .MEMORY_LOCATION_ACCESS⟩,
                  ⟨2, true, .BINARY_OPERATOR .ADD 0 1⟩, ⟨3, true, .DEREFERENCE 1⟩,
                  ⟨4, true, .BINARY_OPERATOR .EQUAL 0 3⟩, ⟨5, true, .DEREFERENCE 2⟩,
                  ⟨6, true, .BINARY_OPERATOR .AND 5 5⟩] } }

/-- The store after the rules of `t3 := *t1`, `t4 := EQUAL(t0, t3)`, `t5 := *t2`
and `t6 := AND(t5, t5)`, in this order, on the empty store: `t1` points to the
class of `t0`, and `t2` points to `t5`, which is unsigned. -/
def pointeeMergeStore : Types :=
  resultStore (pointeeMergeExample.analyzeTerm 1
    (resultStore (pointeeMergeExample.analyzeTerm 1
      (resultStore (pointeeMergeExample.analyzeTerm 1
        (resultStore (pointeeMergeExample.analyzeTerm 1 Types.empty
          ⟨3, true, .DEREFERENCE 1⟩))
        ⟨4, true, .BINARY_OPERATOR .EQUAL 0 3⟩))
      ⟨5, true, .DEREFERENCE 2⟩))
    ⟨6, true, .BINARY_OPERATOR .AND 5 5⟩)

/-- An analyzer for `t2 := ADD(t0, t1)` and `t3 := AND(t2, t2)`, where no value
is a product. -/
def unsignedSumExample : TypeAnalyzer :=
  { dataflow := noDataflow,
    isUsed := fun _ => true,
    callsData := none,
    census := fun _ =>
      { statements := [],
        terms := [⟨0, true, .MEMORY_LOCATION_ACCESS⟩, ⟨1, true, .MEMORY_LOCATION_ACCESS⟩,
                  ⟨2, true, .BINARY_OPERATOR .ADD 0 1⟩, ⟨3, true, .BINARY_OPERATOR .AND 2 2⟩,
                  ⟨4, true, .UNARY_OPERATOR .SIGN_EXTEND 1⟩] } }

/-- The store after the rules of `t3 := AND(t2, t2)` and `t4 := SIGN_EXTEND(t1)`
on the empty store: `t2` is unsigned and `t1` is signed. -/
def unsignedSumStore : Types :=
  resultStore (unsignedSumExample.analyzeTerm 1
    (resultStore (unsignedSumExample.analyzeTerm 1 Types.empty
      ⟨3, true, .BINARY_OPERATOR .AND 2 2⟩))
    ⟨4, true, .UNARY_OPERATOR .SIGN_EXTEND 1⟩)

end TypeAnalyzer

namespace TypeAnalyzer

open Type_ Action

/-- Following the claim: the rule applications of one round, in order.  The
term rule on the enumerated terms that are used, in their order and then in
the reverse order; then the statement rule on all enumerated statements, in
their order and then in the reverse order. -/
def roundSchedule (a : TypeAnalyzer) (function : Function) : List (Term ⊕ Statement) :=
  ((a.census function).terms.filter (fun term => a.isUsed term.id)).map Sum.inl ++
    ((((a.census function).terms.filter (fun term => a.isUsed term.id)).reverse).map Sum.inl ++
      ((a.census function).statements.map Sum.inr ++
        (a.census function).statements.reverse.map Sum.inr))

/-- One rule application of a schedule: the term rule or the statement rule. -/
def applyRule (a : TypeAnalyzer) (fuel : Nat) (s : Types) :
    Term ⊕ Statement → Except Failure Types
  | .inl term => a.analyzeTerm fuel s term
  | .inr statement => analyzeStatement fuel s statement

/-- An analyzer for the used term `t2 := AND(t0, t1)`, a term `t9` of an unknown
kind that is not used, and the statement `t0 := t1`. -/
def unusedExample : TypeAnalyzer :=
  { dataflow := noDataflow,
    isUsed := fun t => decide (t ≠ 9),
    callsData := none,
    census := fun _ =>
      { statements := [⟨10, .ASSIGNMENT 0 1⟩],
        terms := [⟨0, true, .MEMORY_LOCATION_ACCESS⟩, ⟨9, true, .UNKNOWN 42⟩,
                  ⟨1, true, .MEMORY_LOCATION_ACCESS⟩, ⟨2, true, .BINARY_OPERATOR .AND 0 1⟩] } }

end TypeAnalyzer

namespace TypeAnalyzer

open Type_ Action

/-- An analyzer for the scenario S2 in a larger function: besides `t0` (base),
`t1` (the constant 16), `t2 := ADD(t0, t1)` and `t3 := *t2` there is a second
read `t6` of the location of `t0`, both reads having the one definition `t7`,
and the used term `t4 := MUL(t6, t8)`. -/
def sharedBaseExample : TypeAnalyzer :=
  { dataflow :=
      { getMemoryLocation := fun t => if t = 0 ∨ t = 6 ∨ t = 7 then 5 else 0,
        getDefinitions := fun t => if t = 0 ∨ t = 6 then [⟨5, [7]⟩] else [],
        getValue := fun t =>
          if t = 1 then ⟨true, 16, 16, 16, false, false⟩ else ⟨false, 0, 0, 0, false, false⟩ },
    isUsed := fun _ => true,
    callsData := none,
    census := fun _ =>
      { statements := [],
        terms := [⟨7, false, .MEMORY_LOCATION_ACCESS⟩, ⟨0, true, .MEMORY_LOCATION_ACCESS⟩,
                  ⟨1, true, .INT_CONST⟩, ⟨2, true, .BINARY_OPERATOR .ADD 0 1⟩,
                  ⟨3, true, .DEREFERENCE 2⟩, ⟨6, true, .MEMORY_LOCATION_ACCESS⟩,
                  ⟨8, true, .MEMORY_LOCATION_ACCESS⟩, ⟨4, true, .BINARY_OPERATOR .MUL 6 8⟩] } }

end TypeAnalyzer

namespace TypeAnalyzer

open Type_ Action

/-- An analyzer for the scenario S1 in a larger function: besides the used term
`t2 := t0 SHL t1`, where the value of `t1` is the concrete value 3, there are
the used term `t4 := t6 SHL t5`, where the value of `t5` is the concrete value
1, and the assignment `t2 := t4`. -/
def shlMergeExample : TypeAnalyzer :=
  { dataflow :=
      { getMemoryLocation := fun _ => 0,
        getDefinitions := fun _ => [],
        getValue := fun t =>
          if t = 1 then ⟨true, 3, 3, 3, false, false⟩
          else if t = 5 then ⟨true, 1, 1, 1, false, false⟩
          else ⟨false, 0, 0, 0, false, false⟩ },
    isUsed := fun _ => true,
    callsData := none,
    census := fun _ =>
      { statements := [⟨10, .ASSIGNMENT 2 4⟩],
        terms := [⟨0, true, .MEMORY_LOCATION_ACCESS⟩, ⟨1, true, .INT_CONST⟩,
                  ⟨2, true, .BINARY_OPERATOR .SHL 0 1⟩, ⟨6, true, .MEMORY_LOCATION_ACCESS⟩,
                  ⟨5, true, .INT_CONST⟩, ⟨4, true, .BINARY_OPERATOR .SHL 6 5⟩] } }

end TypeAnalyzer

/-! # Theorems -/

open Type_ Action

/-! ## Elementary facts on the objects -/

theorem findSet_set (h : Heap) (r : Nat) (c : Type_) (hp : c.parent_ = (h r).parent_) (x : Nat) :
    findSet (h.set r c) x = findSet h x := by
  unfold findSet Heap.set
  by_cases hx : x = r
  · simp [hx, hp]
  · simp [hx]

theorem set_same (h : Heap) (r : Nat) (c : Type_) : (h.set r c) r = c := by
  simp [Heap.set]

theorem set_other (h : Heap) (r j : Nat) (c : Type_) (hj : j ≠ r) : (h.set r c) j = h j := by
  simp [Heap.set, hj]

theorem link_parent (h : Heap) (s o : Nat) (bump : Bool) (j : Nat) :
    (link h s o bump j).parent_ = if (h j).parent_ = o then s else (h j).parent_ := rfl

theorem link_isInteger (h : Heap) (s o : Nat) (bump : Bool) (j : Nat) :
    (link h s o bump j).isInteger_ = (h j).isInteger_ := rfl

theorem link_isPointer (h : Heap) (s o : Nat) (bump : Bool) (j : Nat) :
    (link h s o bump j).isPointer_ = (h j).isPointer_ := rfl

theorem link_isSigned (h : Heap) (s o : Nat) (bump : Bool) (j : Nat) :
    (link h s o bump j).isSigned_ = (h j).isSigned_ := rfl

theorem link_isUnsigned (h : Heap) (s o : Nat) (bump : Bool) (j : Nat) :
    (link h s o bump j).isUnsigned_ = (h j).isUnsigned_ := rfl

theorem link_factor (h : Heap) (s o : Nat) (bump : Bool) (j : Nat) :
    (link h s o bump j).factor_ = (h j).factor_ := rfl

theorem link_pointee (h : Heap) (s o : Nat) (bump : Bool) (j : Nat) :
    (link h s o bump j).pointee_ = (h j).pointee_ := rfl

theorem link_changed (h : Heap) (s o : Nat) (bump : Bool) (j : Nat) :
    (link h s o bump j).changed_ = ((h j).changed_ || decide (j = o)) := rfl

theorem join_eq (h : Heap) (s o : Nat) :
    join h s o = if joined (h s) (h o) = h s then h
      else h.set s { joined (h s) (h o) with changed_ := true } := rfl

theorem join_other (h : Heap) (s o j : Nat) (hj : j ≠ s) : join h s o j = h j := by
  rw [join_eq]
  split
  · rfl
  · exact set_other h s j _ hj

theorem join_parent (h : Heap) (s o j : Nat) : (join h s o j).parent_ = (h j).parent_ := by
  by_cases hj : j = s
  · subst hj
    rw [join_eq]
    split
    · rfl
    · rw [set_same]; rfl
  · rw [join_other h s o j hj]

theorem join_pointee (h : Heap) (s o j : Nat) : (join h s o j).pointee_ = (h j).pointee_ := by
  by_cases hj : j = s
  · subst hj
    rw [join_eq]
    split
    · rfl
    · rw [set_same]; rfl
  · rw [join_other h s o j hj]

theorem join_isInteger (h : Heap) (s o : Nat) :
    (join h s o s).isInteger_ = ((h s).isInteger_ || (h o).isInteger_) := by
  rw [join_eq]
  split
  · next e => exact (congrArg Type_.isInteger_ e).symm
  · rw [set_same]; rfl

theorem join_isPointer (h : Heap) (s o : Nat) :
    (join h s o s).isPointer_ = ((h s).isPointer_ || (h o).isPointer_) := by
  rw [join_eq]
  split
  · next e => exact (congrArg Type_.isPointer_ e).symm
  · rw [set_same]; rfl

theorem join_isSigned (h : Heap) (s o : Nat) :
    (join h s o s).isSigned_ = ((h s).isSigned_ || (h o).isSigned_) := by
  rw [join_eq]
  split
  · next e => exact (congrArg Type_.isSigned_ e).symm
  · rw [set_same]; rfl

theorem join_isUnsigned (h : Heap) (s o : Nat) :
    (join h s o s).isUnsigned_ = ((h s).isUnsigned_ || (h o).isUnsigned_) := by
  rw [join_eq]
  split
  · next e => exact (congrArg Type_.isUnsigned_ e).symm
  · rw [set_same]; rfl

theorem join_factor (h : Heap) (s o : Nat) :
    (join h s o s).factor_ = Nat.gcd (h s).factor_ (h o).factor_ := by
  rw [join_eq]
  split
  · next e => exact (congrArg Type_.factor_ e).symm
  · rw [set_same]; rfl

theorem join_changed (h : Heap) (s o j : Nat) (hc : (h j).changed_ = true) :
    (join h s o j).changed_ = true := by
  by_cases hj : j = s
  · subst hj
    rw [join_eq]
    split
    · exact hc
    · rw [set_same]
  · rw [join_other h s o j hj]; exact hc

/-! ## What every piece of code preserves -/

theorem Grow.grow_refl (h : Heap) : Grow h h :=
  ⟨fun _ _ e => e, fun _ e => e, fun _ e => e, fun _ e => e, fun _ e => e⟩

theorem Grow.grow_trans {h1 h2 h3 : Heap} (a : Grow h1 h2) (b : Grow h2 h3) : Grow h1 h3 :=
  ⟨fun x y e => b.same x y (a.same x y e), fun x e => b.integer x (a.integer x e),
   fun x e => b.pointer x (a.pointer x e), fun x e => b.signed x (a.signed x e),
   fun x e => b.unsigned x (a.unsigned x e)⟩

/-- Overwriting a representative by a record with the same parent link and no
bit cleared extends the heap. -/
theorem Grow.grow_set (h : Heap) (r : Nat) (c : Type_) (hp : c.parent_ = (h r).parent_)
    (h1 : (h r).isInteger_ = true → c.isInteger_ = true)
    (h2 : (h r).isPointer_ = true → c.isPointer_ = true)
    (h3 : (h r).isSigned_ = true → c.isSigned_ = true)
    (h4 : (h r).isUnsigned_ = true → c.isUnsigned_ = true) : Grow h (h.set r c) := by
  have hf : ∀ x, findSet (h.set r c) x = findSet h x := findSet_set h r c hp
  refine ⟨fun x y e => by rw [hf, hf]; exact e, ?_, ?_, ?_, ?_⟩
  · intro x e
    unfold isInteger at *
    rw [hf]
    by_cases hx : findSet h x = r
    · rw [hx, set_same]; rw [hx] at e; exact h1 e
    · rw [set_other h r _ c hx]; exact e
  · intro x e
    unfold isPointer at *
    rw [hf]
    by_cases hx : findSet h x = r
    · rw [hx, set_same]; rw [hx] at e; exact h2 e
    · rw [set_other h r _ c hx]; exact e
  · intro x e
    unfold isSigned at *
    rw [hf]
    by_cases hx : findSet h x = r
    · rw [hx, set_same]; rw [hx] at e; exact h3 e
    · rw [set_other h r _ c hx]; exact e
  · intro x e
    unfold isUnsigned at *
    rw [hf]
    by_cases hx : findSet h x = r
    · rw [hx, set_same]; rw [hx] at e; exact h4 e
    · rw [set_other h r _ c hx]; exact e

theorem Grow.grow_makeInteger (x : Nat) (h : Heap) : Grow h (makeInteger x h) := by
  unfold Type_.makeInteger
  split
  · exact Grow.grow_refl h
  · exact Grow.grow_set h _ _ rfl (fun _ => rfl) (fun e => e) (fun e => e) (fun e => e)

theorem Grow.grow_makePointer (x : Nat) (h : Heap) : Grow h (makePointer x h) := by
  unfold Type_.makePointer
  split
  · exact Grow.grow_refl h
  · exact Grow.grow_set h _ _ rfl (fun e => e) (fun _ => rfl) (fun e => e) (fun e => e)

theorem Grow.grow_makeSigned (x : Nat) (h : Heap) : Grow h (makeSigned x h) := by
  unfold Type_.makeSigned
  split
  · exact Grow.grow_refl h
  · exact Grow.grow_set h _ _ rfl (fun e => e) (fun e => e) (fun _ => rfl) (fun e => e)

theorem Grow.grow_makeUnsigned (x : Nat) (h : Heap) : Grow h (makeUnsigned x h) := by
  unfold Type_.makeUnsigned
  split
  · exact Grow.grow_refl h
  · exact Grow.grow_set h _ _ rfl (fun e => e) (fun e => e) (fun e => e) (fun _ => rfl)

theorem Grow.grow_updateFactor (x v : Nat) (h : Heap) : Grow h (updateFactor x v h) := by
  unfold Type_.updateFactor
  split
  · exact Grow.grow_refl h
  · exact Grow.grow_set h _ _ rfl (fun e => e) (fun e => e) (fun e => e) (fun e => e)

/-- Linking two representatives and joining the attributes extends the heap. -/
theorem Grow.grow_linkJoin (h : Heap) (s o : Nat) (bump : Bool) :
    Grow h (join (link h s o bump) s o) := by
  have hf : ∀ x, findSet (join (link h s o bump) s o) x
      = if findSet h x = o then s else findSet h x := by
    intro x
    unfold findSet
    rw [join_parent, link_parent]
  have hbit : ∀ (f : Type_ → Bool),
      (∀ j, f (link h s o bump j) = f (h j)) →
      (f (join (link h s o bump) s o s) = (f (link h s o bump s) || f (link h s o bump o))) →
      ∀ x, f (h (findSet h x)) = true →
        f (join (link h s o bump) s o (findSet (join (link h s o bump) s o) x)) = true := by
    intro f hl hj x e
    rw [hf]
    split
    · next hx =>
      rw [hj, hl, hl]
      rw [hx] at e
      simp [e]
    · next hx =>
      by_cases hs : findSet h x = s
      · rw [hs, hj, hl, hl]
        rw [hs] at e
        simp [e]
      · rw [join_other _ s o _ hs, hl]; exact e
  refine ⟨?_, ?_, ?_, ?_, ?_⟩
  · intro x y e
    rw [hf, hf, e]
  · exact hbit Type_.isInteger_ (fun j => link_isInteger h s o bump j) (join_isInteger _ s o)
  · exact hbit Type_.isPointer_ (fun j => link_isPointer h s o bump j) (join_isPointer _ s o)
  · exact hbit Type_.isSigned_ (fun j => link_isSigned h s o bump j) (join_isSigned _ s o)
  · exact hbit Type_.isUnsigned_ (fun j => link_isUnsigned h s o bump j) (join_isUnsigned _ s o)

/-- After linking and joining, both representatives are in the class of the survivor. -/
theorem findSet_linkJoin (h : Heap) (s o : Nat) (bump : Bool) (x : Nat) :
    findSet (join (link h s o bump) s o) x = if findSet h x = o then s else findSet h x := by
  unfold findSet
  rw [join_parent, link_parent]

theorem Grow.grow_setPointee {unify : Heap → Nat → Nat → Except Failure Heap}
    (hu : ∀ h a b h2, unify h a b = .ok h2 → Grow h h2)
    (h : Heap) (r p : Nat) (h2 : Heap) (e : setPointee unify h r p = .ok h2) : Grow h h2 := by
  unfold Type_.setPointee at e
  split at e
  · exact hu _ _ _ _ e
  · injection e with e
    subst e
    exact Grow.grow_set h _ _ rfl (fun e => e) (fun e => e) (fun e => e) (fun e => e)

/-- A union extends the heap and puts both sides in one class. -/
theorem unionSet_spec (fuel : Nat) : ∀ (h : Heap) (a b : Nat) (h2 : Heap),
    unionSet fuel h a b = .ok h2 → Grow h h2 ∧ findSet h2 a = findSet h2 b := by
  induction fuel with
  | zero =>
    intro h a b h2 e
    unfold unionSet at e
    split at e
    · next hab =>
      injection e with e
      subst e
      exact ⟨Grow.grow_refl h, hab⟩
    · cases e
  | succ n ih =>
    intro h a b h2 e
    unfold unionSet at e
    split at e
    · next hab =>
      injection e with e
      subst e
      exact ⟨Grow.grow_refl h, hab⟩
    · next hab =>
      simp only at e
      have key : ∀ (s o : Nat) (bump : Bool) (h3 : Heap),
          ((s = findSet h a ∧ o = findSet h b) ∨ (s = findSet h b ∧ o = findSet h a)) →
          Grow (join (link h s o bump) s o) h3 → Grow h h3 ∧ findSet h3 a = findSet h3 b := by
        intro s o bump h3 hso g
        refine ⟨(Grow.grow_linkJoin h s o bump).grow_trans g, ?_⟩
        apply g.same
        rw [findSet_linkJoin, findSet_linkJoin]
        rcases hso with ⟨hs, ho⟩ | ⟨hs, ho⟩
        · subst hs; subst ho
          simp [hab]
        · subst hs; subst ho
          have : ¬ findSet h b = findSet h a := fun e => hab e.symm
          simp [this]
      have hso : ((if (h (findSet h a)).rank_ < (h (findSet h b)).rank_ then findSet h b
            else findSet h a) = findSet h a ∧
          (if (h (findSet h a)).rank_ < (h (findSet h b)).rank_ then findSet h a
            else findSet h b) = findSet h b) ∨
          ((if (h (findSet h a)).rank_ < (h (findSet h b)).rank_ then findSet h b
            else findSet h a) = findSet h b ∧
          (if (h (findSet h a)).rank_ < (h (findSet h b)).rank_ then findSet h a
            else findSet h b) = findSet h a) := by
        split
        · exact Or.inr ⟨rfl, rfl⟩
        · exact Or.inl ⟨rfl, rfl⟩
      split at e
      · injection e with e
        subst e
        exact key _ _ _ _ hso (Grow.grow_refl _)
      · exact key _ _ _ _ hso (Grow.grow_setPointee (fun h a b h2 e => (ih h a b h2 e).1) _ _ _ _ e)

theorem Grow.grow_unionSet {fuel : Nat} {h : Heap} {a b : Nat} {h2 : Heap}
    (e : unionSet fuel h a b = .ok h2) : Grow h h2 :=
  (unionSet_spec fuel h a b h2 e).1

theorem Grow.grow_makePointerTo {fuel : Nat} {x : Nat} {p : Option Nat} {h h2 : Heap}
    (e : makePointerTo fuel x p h = .ok h2) : Grow h h2 := by
  unfold Type_.makePointerTo at e
  split at e
  · injection e with e
    subst e
    exact Grow.grow_makePointer x h
  · exact (Grow.grow_makePointer x h).grow_trans
      (Grow.grow_setPointee (fun _ _ _ _ e => Grow.grow_unionSet e) _ _ _ _ e)

/-! ## The shape of the code of the rules -/

theorem Wired.updateFactorConst {fuel : Nat} {K : Nat → Prop} {x : Nat} (v : Nat) (hx : K x) :
    Wired fuel K (lift (Type_.updateFactor x v)) :=
  Wired.updateFactor (fun _ => v) hx

theorem seq_cons_ok {a : Action} {rest : List Action} {h h2 : Heap}
    (e : seq (a :: rest) h = .ok h2) : ∃ h1, a h = .ok h1 ∧ seq rest h1 = .ok h2 := by
  unfold seq at e
  split at e
  · next h1 e1 => exact ⟨h1, e1, e⟩
  · cases e

/-- Every piece of code of the rules extends the heap. -/
theorem Wired.grow {fuel : Nat} {K : Nat → Prop} {a : Action} (w : Wired fuel K a) :
    ∀ h h2, a h = .ok h2 → Grow h h2 := by
  induction w with
  | skip => intro h h2 e; injection e with e; subst e; exact Grow.grow_refl h
  | fail => intro h h2 e; cases e
  | makeInteger _ => intro h h2 e; injection e with e; subst e; exact Grow.grow_makeInteger _ h
  | makePointer _ => intro h h2 e; injection e with e; subst e; exact Grow.grow_makePointer _ h
  | makeSigned _ => intro h h2 e; injection e with e; subst e; exact Grow.grow_makeSigned _ h
  | makeUnsigned _ => intro h h2 e; injection e with e; subst e; exact Grow.grow_makeUnsigned _ h
  | updateFactor v _ => intro h h2 e; injection e with e; subst e; exact Grow.grow_updateFactor _ _ h
  | makePointerTo _ _ => intro h h2 e; exact Grow.grow_makePointerTo e
  | makePointerSome _ _ => intro h h2 e; exact Grow.grow_makePointerTo e
  | unionSet _ _ => intro h h2 e; exact Grow.grow_unionSet e
  | seqNil => intro h h2 e; injection e with e; subst e; exact Grow.grow_refl h
  | seqCons _ _ iha ihr =>
    intro h h2 e
    obtain ⟨h1, e1, e2⟩ := seq_cons_ok e
    exact (iha h h1 e1).grow_trans (ihr h1 h2 e2)
  | when c _ iha =>
    intro h h2 e
    unfold Action.when at e
    split at e
    · exact iha h h2 e
    · injection e with e; subst e; exact Grow.grow_refl h
  | ifElse c _ _ iha ihb =>
    intro h h2 e
    unfold Action.ifElse at e
    split at e
    · exact iha h h2 e
    · exact ihb h h2 e

namespace TypeAnalyzer

open Type_ Action

theorem binaryAction_wired (fuel : Nat) (K : Nat → Prop) (operatorKind : BinaryOperatorKind)
    (type leftType rightType : Nat) (leftValue rightValue : Value)
    (hT : K type) (hL : K leftType) (hR : K rightType) :
    Wired fuel K (binaryAction fuel operatorKind type leftType rightType leftValue rightValue) := by
  cases operatorKind <;>
    simp only [binaryAction, signednessBlock, List.cons_append, List.nil_append] <;>
    repeat first
      | exact Wired.skip
      | exact Wired.fail
      | exact Wired.seqNil
      | exact Wired.makeInteger (by assumption)
      | exact Wired.makePointer (by assumption)
      | exact Wired.makeSigned (by assumption)
      | exact Wired.makeUnsigned (by assumption)
      | exact Wired.updateFactorConst _ (by assumption)
      | exact Wired.updateFactor _ (by assumption)
      | exact Wired.makePointerTo (by assumption) (by assumption)
      | exact Wired.unionSet (by assumption) (by assumption)
      | apply Wired.seqCons
      | apply Wired.when
      | apply Wired.ifElse

theorem unaryAction_wired (fuel : Nat) (K : Nat → Prop) (operatorKind : UnaryOperatorKind)
    (type operandType : Nat) (hT : K type) (hO : K operandType) :
    Wired fuel K (unaryAction operatorKind type operandType) := by
  cases operatorKind <;>
    simp only [unaryAction] <;>
    repeat first
      | exact Wired.skip
      | exact Wired.fail
      | exact Wired.seqNil
      | exact Wired.makeInteger (by assumption)
      | exact Wired.makeSigned (by assumption)
      | exact Wired.makeUnsigned (by assumption)
      | apply Wired.seqCons
      | apply Wired.when

end TypeAnalyzer

/-! ## The rules on the store -/

theorem Types.touch_heap (s : Types) (t : Nat) : (s.touch t).heap = s.heap := by
  unfold Types.touch; split <;> rfl

theorem Types.touchAll_heap (s : Types) (ids : List Nat) : (s.touchAll ids).heap = s.heap := by
  unfold Types.touchAll
  induction ids generalizing s with
  | nil => rfl
  | cons t rest ih => rw [List.foldl_cons, ih, Types.touch_heap]

theorem Types.mem_touch (s : Types) (t k : Nat) : k ∈ (s.touch t).keys ↔ k ∈ s.keys ∨ k = t := by
  unfold Types.touch
  split
  · next ht =>
    constructor
    · exact fun hk => Or.inl hk
    · rintro (hk | hk)
      · exact hk
      · rw [hk]; exact ht
  · simp

theorem Types.mem_touchAll (s : Types) (ids : List Nat) (k : Nat) :
    k ∈ (s.touchAll ids).keys ↔ k ∈ s.keys ∨ k ∈ ids := by
  unfold Types.touchAll
  induction ids generalizing s with
  | nil => simp
  | cons t rest ih =>
    rw [List.foldl_cons, ih, Types.mem_touch]
    simp only [List.mem_cons]
    tauto

theorem Types.run_ok {s s2 : Types} {a : Action} (e : s.run a = .ok s2) :
    a s.heap = .ok s2.heap ∧ s2.keys = s.keys := by
  unfold Types.run at e
  split at e
  · next h eh =>
    injection e with e
    subst e
    exact ⟨eh, rfl⟩
  · cases e

namespace TypeAnalyzer

open Type_ Action

theorem analyzeTerm_eq (a : TypeAnalyzer) (fuel : Nat) (s : Types) (term : Term) :
    a.analyzeTerm fuel s term = (s.touchAll (termIds term)).run (termAction a fuel s.heap term) := by
  obtain ⟨id, rd, kind⟩ := term
  cases kind <;> simp only [analyzeTerm, termIds, termAction] <;>
    first
      | rfl
      | (simp only [analyzeDereference, analyzeUnary, analyzeBinary, Types.getType,
          Types.touchAll, List.foldl, Types.touch_heap])

theorem termAction_wired (a : TypeAnalyzer) (fuel : Nat) (K : Nat → Prop) (h0 : Heap) (term : Term)
    (hK : ∀ i ∈ termIds term, K (findSet h0 i)) : Wired fuel K (termAction a fuel h0 term) := by
  obtain ⟨id, rd, kind⟩ := term
  cases kind <;> simp only [termIds, termAction] at hK ⊢ <;>
    first
      | exact Wired.skip
      | exact Wired.fail
      | exact Wired.makePointerSome (hK _ (by simp)) (hK _ (by simp))
      | exact unaryAction_wired fuel K _ _ _ (hK _ (by simp)) (hK _ (by simp))
      | exact binaryAction_wired fuel K _ _ _ _ _ _ (hK _ (by simp)) (hK _ (by simp)) (hK _ (by simp))

theorem analyzeStatement_eq (fuel : Nat) (s : Types) (statement : Statement) :
    analyzeStatement fuel s statement
      = (s.touchAll (statementIds statement)).run (statementAction fuel s.heap statement) := by
  obtain ⟨id, kind⟩ := statement
  cases kind <;> simp only [analyzeStatement, statementIds, statementAction] <;>
    first
      | rfl
      | (simp only [Types.getType, Types.touchAll, List.foldl, Types.touch_heap])

theorem statementAction_wired (fuel : Nat) (K : Nat → Prop) (h0 : Heap) (statement : Statement)
    (hK : ∀ i ∈ statementIds statement, K (findSet h0 i)) :
    Wired fuel K (statementAction fuel h0 statement) := by
  obtain ⟨id, kind⟩ := statement
  cases kind <;> simp only [statementIds, statementAction] at hK ⊢ <;>
    first
      | exact Wired.skip
      | exact Wired.unionSet (hK _ (by simp)) (hK _ (by simp))

theorem unifyTerms_eq (fuel : Nat) (s : Types) (x y : Nat) :
    unifyTerms fuel s x y
      = (s.touchAll [x, y]).run (fun h => unionSet fuel h (findSet s.heap x) (findSet s.heap y)) := by
  simp only [unifyTerms, Types.getType, Types.touchAll, List.foldl, Types.touch_heap]

end TypeAnalyzer

/-! ## Well-formed heaps -/

theorem HeapWF.wf_set {K : Nat → Prop} {h : Heap} (w : HeapWF K h) (r : Nat) (hr : K r) (c : Type_)
    (hp : c.parent_ = (h r).parent_) (hq : ∀ p, c.pointee_ = some p → K p) :
    HeapWF K (h.set r c) := by
  have hf : ∀ x, findSet (h.set r c) x = findSet h x := findSet_set h r c hp
  refine ⟨fun x => by rw [hf, hf]; exact w.idem x, fun k hk => by rw [hf]; exact w.parent_mem k hk,
    ?_, ?_⟩
  · intro k p hk e
    by_cases hkr : k = r
    · rw [hkr, set_same] at e; exact hq p e
    · rw [set_other h r k c hkr] at e; exact w.pointee_mem k p hk e
  · intro k hk
    have hkr : k ≠ r := fun e => hk (e ▸ hr)
    rw [set_other h r k c hkr]
    exact w.fresh k hk

theorem HeapWF.wf_makeInteger {K : Nat → Prop} {h : Heap} (w : HeapWF K h) (x : Nat) (hx : K x) :
    HeapWF K (makeInteger x h) := by
  unfold Type_.makeInteger
  split
  · exact w
  · exact w.wf_set _ (w.parent_mem x hx) _ rfl (fun p e => w.pointee_mem _ p (w.parent_mem x hx) e)

theorem HeapWF.wf_makePointer {K : Nat → Prop} {h : Heap} (w : HeapWF K h) (x : Nat) (hx : K x) :
    HeapWF K (makePointer x h) := by
  unfold Type_.makePointer
  split
  · exact w
  · exact w.wf_set _ (w.parent_mem x hx) _ rfl (fun p e => w.pointee_mem _ p (w.parent_mem x hx) e)

theorem HeapWF.wf_makeSigned {K : Nat → Prop} {h : Heap} (w : HeapWF K h) (x : Nat) (hx : K x) :
    HeapWF K (makeSigned x h) := by
  unfold Type_.makeSigned
  split
  · exact w
  · exact w.wf_set _ (w.parent_mem x hx) _ rfl (fun p e => w.pointee_mem _ p (w.parent_mem x hx) e)

theorem HeapWF.wf_makeUnsigned {K : Nat → Prop} {h : Heap} (w : HeapWF K h) (x : Nat) (hx : K x) :
    HeapWF K (makeUnsigned x h) := by
  unfold Type_.makeUnsigned
  split
  · exact w
  · exact w.wf_set _ (w.parent_mem x hx) _ rfl (fun p e => w.pointee_mem _ p (w.parent_mem x hx) e)

theorem HeapWF.wf_updateFactor {K : Nat → Prop} {h : Heap} (w : HeapWF K h) (x v : Nat) (hx : K x) :
    HeapWF K (updateFactor x v h) := by
  unfold Type_.updateFactor
  split
  · exact w
  · exact w.wf_set _ (w.parent_mem x hx) _ rfl (fun p e => w.pointee_mem _ p (w.parent_mem x hx) e)

theorem link_fresh {K : Nat → Prop} {h : Heap} (w : HeapWF K h) (s o : Nat) (bump : Bool)
    (hs : K s) (ho : K o) (k : Nat) (hk : ¬ K k) : link h s o bump k = h k := by
  have hks : k ≠ s := fun e => hk (e ▸ hs)
  have hko : k ≠ o := fun e => hk (e ▸ ho)
  have e := w.fresh k hk
  unfold link
  rw [e]
  simp [Type_.bottom, hks, hko]

theorem HeapWF.wf_linkJoin {K : Nat → Prop} {h : Heap} (w : HeapWF K h) (s o : Nat) (bump : Bool)
    (hs : K s) (ho : K o) (hroot : findSet h s = s) :
    HeapWF K (join (link h s o bump) s o) := by
  have hf := findSet_linkJoin h s o bump
  refine ⟨?_, ?_, ?_, ?_⟩
  · intro x
    rw [hf x]
    split
    · rw [hf, hroot]; simp
    · next hx =>
      rw [hf, w.idem]; simp [hx]
  · intro k hk
    rw [hf]
    split
    · exact hs
    · exact w.parent_mem k hk
  · intro k p hk e
    rw [join_pointee, link_pointee] at e
    exact w.pointee_mem k p hk e
  · intro k hk
    have hks : k ≠ s := fun e => hk (e ▸ hs)
    rw [join_other _ s o k hks, link_fresh w s o bump hs ho k hk]
    exact w.fresh k hk

theorem HeapWF.wf_setPointee {K : Nat → Prop} {unify : Heap → Nat → Nat → Except Failure Heap}
    (hu : ∀ h a b h2, HeapWF K h → K a → K b → unify h a b = .ok h2 → HeapWF K h2)
    {h : Heap} (w : HeapWF K h) (r p : Nat) (hr : K r) (hp : K p) (h2 : Heap)
    (e : setPointee unify h r p = .ok h2) : HeapWF K h2 := by
  unfold Type_.setPointee at e
  split at e
  · next q hq => exact hu _ _ _ _ w (w.pointee_mem r q hr hq) hp e
  · injection e with e
    subst e
    exact w.wf_set r hr _ rfl (fun p2 e2 => by simp at e2; rw [← e2]; exact hp)

theorem HeapWF.wf_unionSet {K : Nat → Prop} (fuel : Nat) : ∀ (h : Heap) (a b : Nat) (h2 : Heap),
    HeapWF K h → K a → K b → unionSet fuel h a b = .ok h2 → HeapWF K h2 := by
  induction fuel with
  | zero =>
    intro h a b h2 w _ _ e
    unfold Type_.unionSet at e
    split at e
    · injection e with e; subst e; exact w
    · cases e
  | succ n ih =>
    intro h a b h2 w ha hb e
    unfold Type_.unionSet at e
    split at e
    · injection e with e; subst e; exact w
    · simp only at e
      have hA := w.parent_mem a ha
      have hB := w.parent_mem b hb
      have key : ∀ (s o : Nat) (bump : Bool), K s → K o → findSet h s = s →
          (match (join (link h s o bump) s o o).pointee_ with
            | none => Except.ok (join (link h s o bump) s o)
            | some po => Type_.setPointee (Type_.unionSet n) (join (link h s o bump) s o) s po)
            = .ok h2 → HeapWF K h2 := by
        intro s o bump hs ho hroot e
        have w1 := w.wf_linkJoin s o bump hs ho hroot
        split at e
        · injection e with e; subst e; exact w1
        · next po hpo => exact w1.wf_setPointee ih s po hs (w1.pointee_mem o po ho hpo) h2 e
      by_cases hlt : (h (findSet h a)).rank_ < (h (findSet h b)).rank_
      · simp only [hlt, if_true] at e
        exact key _ _ _ hB hA (w.idem b) e
      · simp only [hlt, if_false] at e
        exact key _ _ _ hA hB (w.idem a) e

theorem HeapWF.wf_makePointerTo {K : Nat → Prop} {fuel : Nat} {x : Nat} {p : Option Nat} {h h2 : Heap}
    (w : HeapWF K h) (hx : K x) (hp : ∀ q, p = some q → K q)
    (e : makePointerTo fuel x p h = .ok h2) : HeapWF K h2 := by
  unfold Type_.makePointerTo at e
  split at e
  · injection e with e
    subst e
    exact w.wf_makePointer x hx
  · next q =>
    exact (w.wf_makePointer x hx).wf_setPointee (HeapWF.wf_unionSet fuel) _ q (w.parent_mem x hx)
      (hp q rfl) h2 e

/-- Every piece of code of the rules keeps the heap well formed. -/
theorem Wired.wf {fuel : Nat} {K : Nat → Prop} {a : Action} (w : Wired fuel K a) :
    ∀ h h2, HeapWF K h → a h = .ok h2 → HeapWF K h2 := by
  induction w with
  | skip => intro h h2 hw e; injection e with e; subst e; exact hw
  | fail => intro h h2 _ e; cases e
  | makeInteger hx => intro h h2 hw e; injection e with e; subst e; exact hw.wf_makeInteger _ hx
  | makePointer hx => intro h h2 hw e; injection e with e; subst e; exact hw.wf_makePointer _ hx
  | makeSigned hx => intro h h2 hw e; injection e with e; subst e; exact hw.wf_makeSigned _ hx
  | makeUnsigned hx => intro h h2 hw e; injection e with e; subst e; exact hw.wf_makeUnsigned _ hx
  | updateFactor v hx => intro h h2 hw e; injection e with e; subst e; exact hw.wf_updateFactor _ _ hx
  | makePointerTo hx hl =>
    intro h h2 hw e
    exact hw.wf_makePointerTo hx (fun q hq => hw.pointee_mem _ q (hw.parent_mem _ hl) hq) e
  | makePointerSome hx hp =>
    intro h h2 hw e
    exact hw.wf_makePointerTo hx (fun q hq => by injection hq with hq; rw [← hq]; exact hp) e
  | unionSet ha hb => intro h h2 hw e; exact HeapWF.wf_unionSet _ h _ _ h2 hw ha hb e
  | seqNil => intro h h2 hw e; injection e with e; subst e; exact hw
  | seqCons _ _ iha ihr =>
    intro h h2 hw e
    obtain ⟨h1, e1, e2⟩ := seq_cons_ok e
    exact ihr h1 h2 (iha h h1 hw e1) e2
  | when c _ iha =>
    intro h h2 hw e
    unfold Action.when at e
    split at e
    · exact iha h h2 hw e
    · injection e with e; subst e; exact hw
  | ifElse c _ _ iha ihb =>
    intro h h2 hw e
    unfold Action.ifElse at e
    split at e
    · exact iha h h2 hw e
    · exact ihb h h2 hw e

/-- In a well-formed heap that is extended, the class of a term is the class
of its former representative. -/
theorem Grow.findSet_handle {K : Nat → Prop} {h h2 : Heap} (g : Grow h h2) (w : HeapWF K h)
    (x : Nat) : findSet h2 (findSet h x) = findSet h2 x :=
  g.same _ _ (w.idem x)

/-! ## Well-formed stores -/

theorem Types.empty_wf : Types.empty.WF :=
  ⟨fun _ => rfl, fun _ hk => absurd hk (List.not_mem_nil _),
   fun _ _ hk => absurd hk (List.not_mem_nil _), fun _ _ => rfl⟩

theorem Types.WF.touch {s : Types} (w : s.WF) (t : Nat) : (s.touch t).WF := by
  by_cases ht : t ∈ s.keys
  · have : s.touch t = s := by unfold Types.touch; simp [ht]
    rw [this]; exact w
  · have hb := w.fresh t ht
    unfold Types.WF
    rw [Types.touch_heap]
    refine ⟨w.idem, ?_, ?_, ?_⟩
    · intro k hk
      rw [Types.mem_touch] at hk ⊢
      rcases hk with hk | hk
      · exact Or.inl (w.parent_mem k hk)
      · right
        rw [hk]
        unfold findSet
        rw [hb]
        rfl
    · intro k p hk e
      rw [Types.mem_touch] at hk ⊢
      rcases hk with hk | hk
      · exact Or.inl (w.pointee_mem k p hk e)
      · rw [hk, hb] at e
        cases e
    · intro k hk
      rw [Types.mem_touch] at hk
      exact w.fresh k (fun hk2 => hk (Or.inl hk2))

theorem Types.WF.touchAll {s : Types} (w : s.WF) (ids : List Nat) : (s.touchAll ids).WF := by
  unfold Types.touchAll
  induction ids generalizing s with
  | nil => exact w
  | cons t rest ih => rw [List.foldl_cons]; exact ih (w.touch t)

theorem Ext.ext_refl {s : Types} (w : s.WF) : Ext s s := ⟨w, Grow.grow_refl _, fun _ hk => hk⟩

theorem Ext.ext_trans {s1 s2 s3 : Types} (a : Ext s1 s2) (b : Ext s2 s3) : Ext s1 s3 :=
  ⟨b.wf, a.grow.grow_trans b.grow, fun k hk => b.keys k (a.keys k hk)⟩

/-- Requesting the types of `ids` and running on them a piece of code of the
rules extends the store. -/
theorem Ext.run {fuel : Nat} {s s2 : Types} {ids : List Nat} {act : Action} (w : s.WF)
    (hw : ∀ K : Nat → Prop, (∀ i ∈ ids, K (findSet s.heap i)) → Wired fuel K act)
    (e : (s.touchAll ids).run act = .ok s2) : Ext s s2 := by
  obtain ⟨e1, e2⟩ := Types.run_ok e
  rw [Types.touchAll_heap] at e1
  have wt := w.touchAll ids
  have hK : ∀ i ∈ ids, findSet s.heap i ∈ (s.touchAll ids).keys := by
    intro i hi
    have := wt.parent_mem i ((Types.mem_touchAll s ids i).2 (Or.inr hi))
    rw [Types.touchAll_heap] at this
    exact this
  have hwired := hw (fun k => k ∈ (s.touchAll ids).keys) hK
  refine ⟨?_, hwired.grow _ _ e1, ?_⟩
  · unfold Types.WF
    rw [e2]
    refine hwired.wf _ _ ?_ e1
    have := wt
    unfold Types.WF at this
    rw [Types.touchAll_heap] at this
    exact this
  · intro k hk
    rw [e2]
    exact (Types.mem_touchAll s ids k).2 (Or.inl hk)

theorem sweep_cons_ok {α : Type} {f : Types → α → Except Failure Types} {x : α} {rest : List α}
    {s s2 : Types} (e : sweep f (x :: rest) s = .ok s2) :
    ∃ s1, f s x = .ok s1 ∧ sweep f rest s1 = .ok s2 := by
  unfold sweep at e
  split at e
  · next s1 e1 => exact ⟨s1, e1, e⟩
  · cases e

/-- A sweep of extending steps extends the store. -/
theorem sweep_ext {α : Type} {f : Types → α → Except Failure Types} (l : List α)
    (hf : ∀ x ∈ l, ∀ s s2, s.WF → f s x = .ok s2 → Ext s s2) :
    ∀ s s2, s.WF → sweep f l s = .ok s2 → Ext s s2 := by
  induction l with
  | nil => intro s s2 w e; injection e with e; subst e; exact Ext.ext_refl w
  | cons x rest ih =>
    intro s s2 w e
    obtain ⟨s1, e1, e2⟩ := sweep_cons_ok e
    have x1 := hf x (List.mem_cons_self _ _) s s1 w e1
    exact x1.ext_trans (ih (fun y hy => hf y (List.mem_cons_of_mem _ hy)) s1 s2 x1.wf e2)

/-- In a sweep of extending steps, the step of each element of the list is
taken in a store that extends the first and is extended by the last. -/
theorem sweep_ext_at {α : Type} {f : Types → α → Except Failure Types} (l : List α)
    (hf : ∀ x ∈ l, ∀ s s2, s.WF → f s x = .ok s2 → Ext s s2) (x : α) (hx : x ∈ l) :
    ∀ s s2, s.WF → sweep f l s = .ok s2 →
      ∃ t1 t2, Ext s t1 ∧ f t1 x = .ok t2 ∧ Ext t2 s2 := by
  induction l with
  | nil => cases hx
  | cons y rest ih =>
    intro s s2 w e
    obtain ⟨s1, e1, e2⟩ := sweep_cons_ok e
    have x1 := hf y (List.mem_cons_self _ _) s s1 w e1
    have hrest : ∀ z ∈ rest, ∀ s s2, s.WF → f s z = .ok s2 → Ext s s2 :=
      fun z hz => hf z (List.mem_cons_of_mem _ hz)
    rcases List.mem_cons.1 hx with hxy | hxr
    · subst hxy
      exact ⟨s, s1, Ext.ext_refl w, e1, sweep_ext rest hrest s1 s2 x1.wf e2⟩
    · obtain ⟨t1, t2, a1, a2, a3⟩ := ih hrest hxr s1 s2 x1.wf e2
      exact ⟨t1, t2, x1.ext_trans a1, a2, a3⟩

namespace TypeAnalyzer

open Type_ Action

theorem analyzeTerm_ext {a : TypeAnalyzer} {fuel : Nat} {s s2 : Types} {term : Term} (w : s.WF)
    (e : a.analyzeTerm fuel s term = .ok s2) : Ext s s2 := by
  rw [analyzeTerm_eq] at e
  exact Ext.run w (fun K hK => termAction_wired a fuel K s.heap term hK) e

theorem analyzeStatement_ext {fuel : Nat} {s s2 : Types} {statement : Statement} (w : s.WF)
    (e : analyzeStatement fuel s statement = .ok s2) : Ext s s2 := by
  rw [analyzeStatement_eq] at e
  exact Ext.run w (fun K hK => statementAction_wired fuel K s.heap statement hK) e

theorem unifyTerms_ext {fuel : Nat} {s s2 : Types} {x y : Nat} (w : s.WF)
    (e : unifyTerms fuel s x y = .ok s2) : Ext s s2 := by
  rw [unifyTerms_eq] at e
  exact Ext.run w (fun K hK => Wired.unionSet (hK x (by simp)) (hK y (by simp))) e

/-- After `getType(x)->unionSet(getType(y))` the two terms are in one class. -/
theorem unifyTerms_same {fuel : Nat} {s s2 : Types} {x y : Nat} (w : s.WF)
    (e : unifyTerms fuel s x y = .ok s2) : findSet s2.heap x = findSet s2.heap y := by
  have x1 := unifyTerms_ext w e
  rw [unifyTerms_eq] at e
  obtain ⟨e1, _⟩ := Types.run_ok e
  rw [Types.touchAll_heap] at e1
  have := (unionSet_spec fuel _ _ _ _ e1).2
  rw [x1.grow.findSet_handle w x, x1.grow.findSet_handle w y] at this
  exact this

end TypeAnalyzer

/-! ## The driver extends the store -/

theorem Types.probe_heap_parent (s : Types) (j : Nat) :
    (s.probe.2.heap j).parent_ = (s.heap j).parent_ := by
  simp only [Types.probe]
  split <;> rfl

theorem Types.probe_keys (s : Types) : s.probe.2.keys = s.keys := rfl

theorem Types.probe_ext {s : Types} (w : s.WF) : Ext s s.probe.2 := by
  have hcell : ∀ j, s.probe.2.heap j = { s.heap j with changed_ := false } ∨
      s.probe.2.heap j = s.heap j := by
    intro j
    simp only [Types.probe]
    split
    · exact Or.inl rfl
    · exact Or.inr rfl
  have hf : ∀ x, findSet s.probe.2.heap x = findSet s.heap x := fun x => s.probe_heap_parent x
  have hbit : ∀ (f : Type_ → Bool), (∀ c : Type_, f { c with changed_ := false } = f c) →
      ∀ x, f (s.probe.2.heap (findSet s.probe.2.heap x)) = f (s.heap (findSet s.heap x)) := by
    intro f hfc x
    rw [hf]
    rcases hcell (findSet s.heap x) with e | e <;> rw [e]
    exact hfc _
  refine ⟨⟨?_, ?_, ?_, ?_⟩, ⟨?_, ?_, ?_, ?_, ?_⟩, fun k hk => hk⟩
  · intro x; rw [hf, hf]; exact w.idem x
  · intro k hk; rw [hf]; exact w.parent_mem k hk
  · intro k p hk e
    refine w.pointee_mem k p hk ?_
    rcases hcell k with e2 | e2 <;> rw [e2] at e <;> exact e
  · intro k hk
    have : s.probe.2.heap k = s.heap k := by
      simp only [Types.probe]
      exact if_neg hk
    rw [this]
    exact w.fresh k hk
  · intro x y e; rw [hf, hf]; exact e
  · intro x e; unfold isInteger at *; rw [hbit Type_.isInteger_ (fun _ => rfl)]; exact e
  · intro x e; unfold isPointer at *; rw [hbit Type_.isPointer_ (fun _ => rfl)]; exact e
  · intro x e; unfold isSigned at *; rw [hbit Type_.isSigned_ (fun _ => rfl)]; exact e
  · intro x e; unfold isUnsigned at *; rw [hbit Type_.isUnsigned_ (fun _ => rfl)]; exact e

namespace TypeAnalyzer

open Type_ Action

theorem seedTerm_ok {a : TypeAnalyzer} {fuel : Nat} {s s2 : Types} {term : Term}
    (e : a.seedTerm fuel s term = .ok s2) :
    s2 = s ∨ ∃ chunk, term.isRead = true ∧ a.dataflow.getDefinitions term.id = [chunk] ∧
      chunk.location = a.dataflow.getMemoryLocation term.id ∧
      sweep (fun s definition => unifyTerms fuel s term.id definition) chunk.definitions s
        = .ok s2 := by
  unfold seedTerm at e
  split at e
  · next hr =>
    split at e
    · next chunk hc =>
      split at e
      · next hl => exact Or.inr ⟨chunk, hr, hc, hl, e⟩
      · injection e with e; exact Or.inl e.symm
    · injection e with e; exact Or.inl e.symm
  · injection e with e; exact Or.inl e.symm

theorem seedTerm_ext {a : TypeAnalyzer} {fuel : Nat} {s s2 : Types} {term : Term} (w : s.WF)
    (e : a.seedTerm fuel s term = .ok s2) : Ext s s2 := by
  rcases seedTerm_ok e with e1 | ⟨chunk, _, _, _, e1⟩
  · rw [e1]; exact Ext.ext_refl w
  · exact sweep_ext _ (fun d _ s s2 w e => unifyTerms_ext w e) s s2 w e1

/-- The loop over the returns extends the store and leaves the return-value
terms of all returns with an analyzer in one class, that of the first one. -/
theorem unifyReturnsLoop_spec (callsData : CallsData) (fuel : Nat) (function : Function)
    (returnValue : Nat) (l : List Statement) :
    ∀ (first : Option Nat) (s s2 : Types), s.WF →
      unifyReturnsLoop callsData fuel function returnValue l first s = .ok s2 →
      Ext s s2 ∧ ∃ t0, (∀ f0, first = some f0 → t0 = f0) ∧
        ∀ ret ∈ l, ∀ ra, callsData.getReturnAnalyzer function ret = some ra →
          findSet s2.heap t0 = findSet s2.heap (ra.getReturnValueTerm returnValue) := by
  induction l with
  | nil =>
    intro first s s2 w e
    injection e with e
    subst e
    refine ⟨Ext.ext_refl w, first.getD 0, ?_, ?_⟩
    · intro f0 hf; rw [hf]; rfl
    · intro ret hret; cases hret
  | cons ret rest ih =>
    intro first s s2 w e
    unfold unifyReturnsLoop at e
    split at e
    · next hnone =>
      obtain ⟨x1, t0, ht0, hall⟩ := ih first s s2 w e
      refine ⟨x1, t0, ht0, ?_⟩
      intro r hr ra hra
      rcases List.mem_cons.1 hr with hr | hr
      · rw [hr, hnone] at hra; cases hra
      · exact hall r hr ra hra
    · next ra0 hsome =>
      split at e
      · obtain ⟨x1, t0, ht0, hall⟩ := ih _ s s2 w e
        refine ⟨x1, t0, fun f0 hf => Option.noConfusion hf, ?_⟩
        intro r hr ra hra
        rcases List.mem_cons.1 hr with hr | hr
        · rw [hr, hsome] at hra
          injection hra with hra
          rw [← hra, ht0 _ rfl]
        · exact hall r hr ra hra
      · next f0 =>
        split at e
        · next s1 e1 =>
          have x0 := unifyTerms_ext w e1
          have hsame := unifyTerms_same w e1
          obtain ⟨x1, t0, ht0, hall⟩ := ih _ s1 s2 x0.wf e
          refine ⟨x0.ext_trans x1, t0, fun f1 hf => by rw [ht0 f0 rfl]; injection hf, ?_⟩
          intro r hr ra hra
          rcases List.mem_cons.1 hr with hr | hr
          · rw [hr, hsome] at hra
            injection hra with hra
            rw [← hra, ht0 f0 rfl]
            exact x1.grow.same _ _ hsame
          · exact hall r hr ra hra
        · cases e

theorem unifyReturns_ext {a : TypeAnalyzer} {fuel : Nat} {function : Function} {s s2 : Types}
    (w : s.WF) (e : a.unifyReturns fuel function s = .ok s2) : Ext s s2 := by
  unfold unifyReturns at e
  split at e
  · injection e with e; rw [← e]; exact Ext.ext_refl w
  · split at e
    · injection e with e; rw [← e]; exact Ext.ext_refl w
    · split at e
      · injection e with e; rw [← e]; exact Ext.ext_refl w
      · exact (unifyReturnsLoop_spec _ _ _ _ _ _ _ _ w e).1

theorem round_ok {a : TypeAnalyzer} {fuel : Nat} {terms : List Term} {statements : List Statement}
    {s s2 : Types} (e : a.round fuel terms statements s = .ok s2) :
    ∃ s1 s3 s4, sweep (a.analyzeTerm fuel) terms s = .ok s1 ∧
      sweep (a.analyzeTerm fuel) terms.reverse s1 = .ok s3 ∧
      sweep (analyzeStatement fuel) statements s3 = .ok s4 ∧
      sweep (analyzeStatement fuel) statements.reverse s4 = .ok s2 := by
  unfold round at e
  split at e
  · cases e
  · next s1 e1 =>
    split at e
    · cases e
    · next s3 e3 =>
      split at e
      · cases e
      · next s4 e4 => exact ⟨s1, s3, s4, e1, e3, e4, e⟩

theorem round_ext {a : TypeAnalyzer} {fuel : Nat} {terms : List Term}
    {statements : List Statement} {s s2 : Types} (w : s.WF)
    (e : a.round fuel terms statements s = .ok s2) : Ext s s2 := by
  obtain ⟨s1, s3, s4, e1, e3, e4, e5⟩ := round_ok e
  have x1 := sweep_ext terms (fun t _ s s2 w e => analyzeTerm_ext w e) s s1 w e1
  have x3 := sweep_ext terms.reverse (fun t _ s s2 w e => analyzeTerm_ext w e) s1 s3 x1.wf e3
  have x4 := sweep_ext statements (fun t _ s s2 w e => analyzeStatement_ext w e) s3 s4 x3.wf e4
  have x5 := sweep_ext statements.reverse (fun t _ s s2 w e => analyzeStatement_ext w e)
    s4 s2 x4.wf e5
  exact ((x1.ext_trans x3).ext_trans x4).ext_trans x5

theorem iterate_ok {a : TypeAnalyzer} {fuel : Nat} {canceled : Nat → Bool} {terms : List Term}
    {statements : List Statement} {rounds k : Nat} {s s2 : Types}
    (e : a.iterate fuel canceled terms statements rounds k s = .ok s2) :
    ∃ n s1, rounds = n + 1 ∧ a.round fuel terms statements s = .ok s1 ∧
      (((s1.probe.1 && !canceled k) = true ∧
          a.iterate fuel canceled terms statements n (k + 1) s1.probe.2 = .ok s2) ∨
       ((s1.probe.1 && !canceled k) = false ∧ s2 = s1.probe.2)) := by
  cases rounds with
  | zero => cases e
  | succ n =>
    unfold iterate at e
    split at e
    · cases e
    · next s1 e1 =>
      refine ⟨n, s1, rfl, e1, ?_⟩
      split at e
      · next hc => exact Or.inl ⟨hc, e⟩
      · next hc =>
        injection e with e
        exact Or.inr ⟨by simpa using hc, e.symm⟩

/-- The loop performs a first round and extends the store this round leaves. -/
theorem iterate_ext {a : TypeAnalyzer} {fuel : Nat} {canceled : Nat → Bool} {terms : List Term}
    {statements : List Statement} (rounds : Nat) :
    ∀ (k : Nat) (s s2 : Types), s.WF →
      a.iterate fuel canceled terms statements rounds k s = .ok s2 →
      ∃ s1, a.round fuel terms statements s = .ok s1 ∧ Ext s s1 ∧ Ext s1 s2 := by
  induction rounds with
  | zero => intro k s s2 _ e; cases e
  | succ n ih =>
    intro k s s2 w e
    obtain ⟨m, s1, hm, e1, hrest⟩ := iterate_ok e
    have x1 := round_ext w e1
    have xp := Types.probe_ext x1.wf
    refine ⟨s1, e1, x1, ?_⟩
    rcases hrest with ⟨_, e2⟩ | ⟨_, e2⟩
    · have hmn : m = n := by omega
      rw [hmn] at e2
      obtain ⟨s3, _, y1, y2⟩ := ih (k + 1) _ s2 xp.wf e2
      exact xp.ext_trans (y1.ext_trans y2)
    · rw [e2]; exact xp

theorem analyze_ok {a : TypeAnalyzer} {fuel rounds : Nat} {function : Function}
    {canceled : Nat → Bool} {s s2 : Types} (e : a.analyze fuel rounds function canceled s = .ok s2) :
    ∃ s1 s3, sweep (a.seedTerm fuel) (a.census function).terms s = .ok s1 ∧
      a.unifyReturns fuel function s1 = .ok s3 ∧
      a.iterate fuel canceled (a.usedTerms function) (a.census function).statements rounds 0 s3
        = .ok s2 := by
  unfold analyze at e
  split at e
  · cases e
  · next s1 e1 =>
    split at e
    · cases e
    · next s3 e3 => exact ⟨s1, s3, e1, e3, e⟩

end TypeAnalyzer

/-! ## Concrete inputs -/

theorem eq_ok_of_returned {r : Except Failure Types} (h : returned r = true) :
    r = .ok (resultStore r) := by
  cases r with
  | ok s => rfl
  | error e => cases h

namespace TypeAnalyzer

open Type_ Action

/-! ## Claims on the classes after the analysis -/

theorem analyzeStatement_assignment (fuel : Nat) (s : Types) (statement : Statement)
    (left right : Nat) (hk : statement.kind = .ASSIGNMENT left right) :
    analyzeStatement fuel s statement = unifyTerms fuel s left right := by
  unfold analyzeStatement
  rw [hk]
  rfl

theorem analyzeTerm_equal (a : TypeAnalyzer) (fuel : Nat) (s : Types) (term : Term)
    (left right : Nat) (hk : term.kind = .BINARY_OPERATOR .EQUAL left right) :
    a.analyzeTerm fuel s term = unifyTerms fuel (s.touch term.id) left right := by
  unfold analyzeTerm
  rw [hk]
  simp only [analyzeBinary, unifyTerms, Types.getType, binaryAction, Types.touch_heap]

/-- The stages of `analyze`: the store after the seeding, after the unification
of the returns, after the first round, and at the end. -/
theorem analyze_stages {a : TypeAnalyzer} {fuel rounds : Nat} {function : Function}
    {canceled : Nat → Bool} {s s2 : Types} (w : s.WF)
    (e : a.analyze fuel rounds function canceled s = .ok s2) :
    ∃ s1 s3 s4, sweep (a.seedTerm fuel) (a.census function).terms s = .ok s1 ∧
      a.unifyReturns fuel function s1 = .ok s3 ∧
      a.round fuel (a.usedTerms function) (a.census function).statements s3 = .ok s4 ∧
      Ext s s1 ∧ Ext s1 s3 ∧ Ext s3 s4 ∧ Ext s4 s2 := by
  obtain ⟨s1, s3, e1, e3, e4⟩ := analyze_ok e
  have x1 := sweep_ext _ (fun t _ s s2 w e => seedTerm_ext w e) s s1 w e1
  have x3 := unifyReturns_ext x1.wf e3
  obtain ⟨s4, e5, x4, x5⟩ := iterate_ext rounds 0 s3 s2 x3.wf e4
  exact ⟨s1, s3, s4, e1, e3, e5, x1, x3, x4, x5⟩

/-- In a round, the rule of each statement is applied in a well-formed store,
and the store it leaves is extended by the store after the round. -/
theorem round_statement_at {a : TypeAnalyzer} {fuel : Nat} {terms : List Term}
    {statements : List Statement} {s s2 : Types} (w : s.WF)
    (e : a.round fuel terms statements s = .ok s2) (statement : Statement)
    (hm : statement ∈ statements) :
    ∃ u1 u2, u1.WF ∧ analyzeStatement fuel u1 statement = .ok u2 ∧ Ext u2 s2 := by
  obtain ⟨t1, t3, t4, e6, e7, e8, e9⟩ := round_ok e
  have y1 := sweep_ext _ (fun t _ s s2 w e => analyzeTerm_ext w e) s t1 w e6
  have y3 := sweep_ext _ (fun t _ s s2 w e => analyzeTerm_ext w e) t1 t3 y1.wf e7
  obtain ⟨u1, u2, z1, z2, z3⟩ := sweep_ext_at _
    (fun t _ s s2 w e => analyzeStatement_ext w e) statement hm t3 t4 y3.wf e8
  have y5 := sweep_ext _ (fun t _ s s2 w e => analyzeStatement_ext w e) t4 s2 z3.wf e9
  exact ⟨u1, u2, z1.wf, z2, z3.ext_trans y5⟩

/-- In a round, the rule of each term of the working sequence is applied in a
well-formed store, and the store it leaves is extended by the store after the
round. -/
theorem round_term_at {a : TypeAnalyzer} {fuel : Nat} {terms : List Term}
    {statements : List Statement} {s s2 : Types} (w : s.WF)
    (e : a.round fuel terms statements s = .ok s2) (term : Term) (hm : term ∈ terms) :
    ∃ u1 u2, u1.WF ∧ a.analyzeTerm fuel u1 term = .ok u2 ∧ Ext u2 s2 := by
  obtain ⟨t1, t3, t4, e6, e7, e8, e9⟩ := round_ok e
  obtain ⟨u1, u2, z1, z2, z3⟩ := sweep_ext_at _
    (fun t _ s s2 w e => analyzeTerm_ext w e) term hm s t1 w e6
  have y3 := sweep_ext _ (fun t _ s s2 w e => analyzeTerm_ext w e) t1 t3 z3.wf e7
  have y4 := sweep_ext _ (fun t _ s s2 w e => analyzeStatement_ext w e) t3 t4 y3.wf e8
  have y5 := sweep_ext _ (fun t _ s s2 w e => analyzeStatement_ext w e) t4 s2 y4.wf e9
  exact ⟨u1, u2, z1.wf, z2, ((z3.ext_trans y3).ext_trans y4).ext_trans y5⟩

/-- C1: after `analyze(function, canceled)` returns, canceled or not, the types
of the left and of the right term of every assignment statement of the census
have the same representative. -/
theorem assignment_sides_unified (a : TypeAnalyzer) (fuel rounds : Nat) (function : Function)
    (canceled : Nat → Bool) (s s2 : Types) (w : s.WF)
    (e : a.analyze fuel rounds function canceled s = .ok s2)
    (statement : Statement) (hm : statement ∈ (a.census function).statements)
    (left right : Nat) (hk : statement.kind = .ASSIGNMENT left right) :
    findSet s2.heap (s2.getType left).2 = findSet s2.heap (s2.getType right).2 := by
  obtain ⟨s1, s3, s4, _, _, e5, _, x3, _, x5⟩ := analyze_stages w e
  obtain ⟨u1, u2, wu, z2, z3⟩ := round_statement_at x3.wf e5 statement hm
  rw [analyzeStatement_assignment _ _ _ _ _ hk] at z2
  have hfin := x5.grow.same _ _ (z3.grow.same _ _ (unifyTerms_same wu z2))
  show findSet s2.heap (findSet s2.heap left) = findSet s2.heap (findSet s2.heap right)
  rw [x5.wf.idem, x5.wf.idem]
  exact hfin

/-- The analysis of `assignExample` returns. -/
theorem assignExample_returned :
    returned (assignExample.analyze 1 2 (blockOf []) (fun _ => false) Types.empty) = true := by
  decide!

/-- Witness of C1: the assignment `t0 := t1` of `assignExample`, on the empty store. -/
theorem assignment_sides_unified_witness :
    findSet (resultStore (assignExample.analyze 1 2 (blockOf []) (fun _ => false)
        Types.empty)).heap
      ((resultStore (assignExample.analyze 1 2 (blockOf []) (fun _ => false)
        Types.empty)).getType 0).2
    = findSet (resultStore (assignExample.analyze 1 2 (blockOf []) (fun _ => false)
        Types.empty)).heap
      ((resultStore (assignExample.analyze 1 2 (blockOf []) (fun _ => false)
        Types.empty)).getType 1).2 :=
  assignment_sides_unified assignExample 1 2 (blockOf []) (fun _ => false) Types.empty _
    Types.empty_wf (eq_ok_of_returned assignExample_returned) ⟨10, .ASSIGNMENT 0 1⟩
    (List.mem_singleton.2 rfl) 0 1 rfl

/-- The classes of two terms agree through `getType` as soon as they agree on
the terms, in a well-formed store. -/
theorem getType_same {s : Types} (w : s.WF) {x y : Nat}
    (h : findSet s.heap x = findSet s.heap y) :
    findSet s.heap (s.getType x).2 = findSet s.heap (s.getType y).2 := by
  show findSet s.heap (findSet s.heap x) = findSet s.heap (findSet s.heap y)
  rw [w.idem, w.idem]
  exact h

/-- C2, as amended: after `analyze` returns, the types of the operands of every
EQUAL term of the census that is used (per the usage oracle) have the same
representative; the rule of an EQUAL term requests the type of the term and
only unifies the types of the operands. -/
theorem used_equal_operands_unified (a : TypeAnalyzer) (fuel rounds : Nat) (function : Function)
    (canceled : Nat → Bool) (s s2 : Types) (w : s.WF)
    (e : a.analyze fuel rounds function canceled s = .ok s2)
    (term : Term) (hm : term ∈ (a.census function).terms) (hu : a.isUsed term.id = true)
    (left right : Nat) (hk : term.kind = .BINARY_OPERATOR .EQUAL left right) :
    findSet s2.heap (s2.getType left).2 = findSet s2.heap (s2.getType right).2 ∧
    ∀ (fuel0 : Nat) (s0 : Types),
      a.analyzeTerm fuel0 s0 term = unifyTerms fuel0 (s0.touch term.id) left right := by
  refine ⟨?_, fun fuel0 s0 => analyzeTerm_equal a fuel0 s0 term left right hk⟩
  obtain ⟨s1, s3, s4, _, _, e5, _, x3, _, x5⟩ := analyze_stages w e
  have hmem : term ∈ a.usedTerms function := by
    unfold usedTerms
    exact List.mem_filter.2 ⟨hm, hu⟩
  obtain ⟨u1, u2, wu, z2, z3⟩ := round_term_at x3.wf e5 term hmem
  rw [analyzeTerm_equal a fuel u1 term left right hk] at z2
  exact getType_same x5.wf
    (x5.grow.same _ _ (z3.grow.same _ _ (unifyTerms_same (wu.touch term.id) z2)))

/-- The analysis of `equalExample true` returns. -/
theorem equalExample_returned :
    returned ((equalExample true).analyze 1 2 (blockOf []) (fun _ => false) Types.empty)
      = true := by
  decide!

/-- Witness of C2 as amended: the used term `EQUAL(t0, t1)` of `equalExample true`. -/
theorem used_equal_operands_unified_witness :
    findSet (resultStore ((equalExample true).analyze 1 2 (blockOf []) (fun _ => false)
        Types.empty)).heap
      ((resultStore ((equalExample true).analyze 1 2 (blockOf []) (fun _ => false)
        Types.empty)).getType 0).2
    = findSet (resultStore ((equalExample true).analyze 1 2 (blockOf []) (fun _ => false)
        Types.empty)).heap
      ((resultStore ((equalExample true).analyze 1 2 (blockOf []) (fun _ => false)
        Types.empty)).getType 1).2 :=
  (used_equal_operands_unified (equalExample true) 1 2 (blockOf []) (fun _ => false)
    Types.empty _ Types.empty_wf (eq_ok_of_returned equalExample_returned)
    ⟨2, true, .BINARY_OPERATOR .EQUAL 0 1⟩ (by simp [equalExample]) rfl 0 1 rfl).1

/-- C2 as stated fails: the census of `equalExample false` has the term
`EQUAL(t0, t1)`, which is not used; the analysis of the empty store returns,
and the types of `t0` and `t1` have different representatives. -/
theorem equal_operands_unified_counterexample :
    (⟨2, true, .BINARY_OPERATOR .EQUAL 0 1⟩ : Term) ∈
        ((equalExample false).census (blockOf [])).terms ∧
    returned ((equalExample false).analyze 1 2 (blockOf []) (fun _ => false) Types.empty)
      = true ∧
    findSet (resultStore ((equalExample false).analyze 1 2 (blockOf []) (fun _ => false)
        Types.empty)).heap
      ((resultStore ((equalExample false).analyze 1 2 (blockOf []) (fun _ => false)
        Types.empty)).getType 0).2
    ≠ findSet (resultStore ((equalExample false).analyze 1 2 (blockOf []) (fun _ => false)
        Types.empty)).heap
      ((resultStore ((equalExample false).analyze 1 2 (blockOf []) (fun _ => false)
        Types.empty)).getType 1).2 := by
  refine ⟨by simp [equalExample], by decide!, by decide!⟩

theorem seedTerm_eq_of {a : TypeAnalyzer} (fuel : Nat) (s : Types) {term : Term} {chunk : Chunk}
    (hr : term.isRead = true) (hc : a.dataflow.getDefinitions term.id = [chunk])
    (hl : chunk.location = a.dataflow.getMemoryLocation term.id) :
    a.seedTerm fuel s term
      = sweep (fun s definition => unifyTerms fuel s term.id definition) chunk.definitions s := by
  unfold seedTerm
  rw [if_pos hr, hc]
  simp only
  rw [if_pos hl]

/-- C3: after `analyze` returns, the type of every read term of the census
whose definitions are one chunk at the memory location of the term has the
representative of the type of each defining term of the chunk, used or not;
for a term that is not read, or whose definitions are not one chunk at its
location, the seeding step leaves the store as it is. -/
theorem read_term_joined_with_definitions (a : TypeAnalyzer) (fuel rounds : Nat)
    (function : Function) (canceled : Nat → Bool) (s s2 : Types) (w : s.WF)
    (e : a.analyze fuel rounds function canceled s = .ok s2) :
    (∀ term ∈ (a.census function).terms, term.isRead = true →
      ∀ chunk, a.dataflow.getDefinitions term.id = [chunk] →
        chunk.location = a.dataflow.getMemoryLocation term.id →
        ∀ d ∈ chunk.definitions,
          findSet s2.heap (s2.getType term.id).2 = findSet s2.heap (s2.getType d).2) ∧
    (∀ (term : Term) (fuel0 : Nat) (s0 : Types),
      ¬ (term.isRead = true ∧ ∃ chunk, a.dataflow.getDefinitions term.id = [chunk] ∧
          chunk.location = a.dataflow.getMemoryLocation term.id) →
      a.seedTerm fuel0 s0 term = .ok s0) := by
  constructor
  · intro term hm hr chunk hc hl d hd
    obtain ⟨s1, s3, s4, e1, _, _, _, x3, x4, x5⟩ := analyze_stages w e
    obtain ⟨u1, u2, z1, z2, z3⟩ := sweep_ext_at _ (fun t _ s s2 w e => seedTerm_ext w e)
      term hm s s1 w e1
    rw [seedTerm_eq_of fuel u1 hr hc hl] at z2
    obtain ⟨v1, v2, y1, y2, y3⟩ := sweep_ext_at _ (fun t _ s s2 w e => unifyTerms_ext w e)
      d hd u1 u2 z1.wf z2
    have hs := unifyTerms_same y1.wf y2
    exact getType_same x5.wf (x5.grow.same _ _ (x4.grow.same _ _ (x3.grow.same _ _
      (z3.grow.same _ _ (y3.grow.same _ _ hs)))))
  · intro term fuel0 s0 hn
    unfold seedTerm
    split
    · next hr =>
      split
      · next chunk hc =>
        split
        · next hl => exact absurd ⟨hr, chunk, hc, hl⟩ hn
        · rfl
      · rfl
    · rfl

/-- The analysis of `seedExample` returns. -/
theorem seedExample_returned :
    returned (seedExample.analyze 1 2 (blockOf []) (fun _ => false) Types.empty) = true := by
  decide!

/-- Witness of C3: in `seedExample` the read, unused term `t1` is joined with
its definition `t0`, and the seeding step of `t2`, whose chunk is at another
location, leaves the empty store as it is. -/
theorem read_term_joined_with_definitions_witness :
    findSet (resultStore (seedExample.analyze 1 2 (blockOf []) (fun _ => false)
        Types.empty)).heap
      ((resultStore (seedExample.analyze 1 2 (blockOf []) (fun _ => false)
        Types.empty)).getType 1).2
    = findSet (resultStore (seedExample.analyze 1 2 (blockOf []) (fun _ => false)
        Types.empty)).heap
      ((resultStore (seedExample.analyze 1 2 (blockOf []) (fun _ => false)
        Types.empty)).getType 0).2 ∧
    seedExample.seedTerm 1 Types.empty ⟨2, true, .MEMORY_LOCATION_ACCESS⟩ = .ok Types.empty :=
  ⟨(read_term_joined_with_definitions seedExample 1 2 (blockOf []) (fun _ => false)
      Types.empty _ Types.empty_wf (eq_ok_of_returned seedExample_returned)).1
      ⟨1, true, .MEMORY_LOCATION_ACCESS⟩ (by simp [seedExample]) rfl ⟨7, [0]⟩ rfl rfl 0
      (List.mem_singleton.2 rfl),
   (read_term_joined_with_definitions seedExample 1 2 (blockOf []) (fun _ => false)
      Types.empty _ Types.empty_wf (eq_ok_of_returned seedExample_returned)).2
      ⟨2, true, .MEMORY_LOCATION_ACCESS⟩ 1 Types.empty (by simp [seedExample])⟩

/-- C4: if the calls data give the function a signature with a return value,
then after `analyze` returns the return-value terms of all returns of the
function that have a return analyzer have the same representative. -/
theorem return_value_terms_unified (a : TypeAnalyzer) (fuel rounds : Nat) (function : Function)
    (canceled : Nat → Bool) (s s2 : Types) (w : s.WF)
    (e : a.analyze fuel rounds function canceled s = .ok s2)
    (callsData : CallsData) (hc : a.callsData = some callsData)
    (signature : FunctionSignature)
    (hs : callsData.getFunctionSignature function = some signature)
    (returnValue : Nat) (hv : signature.returnValue = some returnValue)
    (ret1 ret2 : Statement) (h1 : ret1 ∈ function.getReturns) (h2 : ret2 ∈ function.getReturns)
    (ra1 ra2 : ReturnAnalyzer) (g1 : callsData.getReturnAnalyzer function ret1 = some ra1)
    (g2 : callsData.getReturnAnalyzer function ret2 = some ra2) :
    findSet s2.heap (s2.getType (ra1.getReturnValueTerm returnValue)).2
      = findSet s2.heap (s2.getType (ra2.getReturnValueTerm returnValue)).2 := by
  obtain ⟨s1, s3, s4, _, e3, _, x1, _, x4, x5⟩ := analyze_stages w e
  unfold unifyReturns at e3
  rw [hc] at e3
  simp only at e3
  rw [hs] at e3
  simp only at e3
  rw [hv] at e3
  simp only at e3
  obtain ⟨_, t0, _, hall⟩ := unifyReturnsLoop_spec _ _ _ _ _ _ _ _ x1.wf e3
  have hs3 := (hall ret1 h1 ra1 g1).symm.trans (hall ret2 h2 ra2 g2)
  exact getType_same x5.wf (x5.grow.same _ _ (x4.grow.same _ _ hs3))

/-- The analysis of `returnExample` returns. -/
theorem returnExample_returned :
    returned (returnExample.analyze 1 2 returnFunction (fun _ => false) Types.empty) = true := by
  decide!

/-- Witness of C4: the two returns of `returnFunction`, whose return-value
terms are `t1` and `t2`. -/
theorem return_value_terms_unified_witness :
    findSet (resultStore (returnExample.analyze 1 2 returnFunction (fun _ => false)
        Types.empty)).heap
      ((resultStore (returnExample.analyze 1 2 returnFunction (fun _ => false)
        Types.empty)).getType 1).2
    = findSet (resultStore (returnExample.analyze 1 2 returnFunction (fun _ => false)
        Types.empty)).heap
      ((resultStore (returnExample.analyze 1 2 returnFunction (fun _ => false)
        Types.empty)).getType 2).2 :=
  return_value_terms_unified returnExample 1 2 returnFunction (fun _ => false) Types.empty _
    Types.empty_wf (eq_ok_of_returned returnExample_returned) returnCallsData rfl
    ⟨some 0⟩ rfl 0 rfl ⟨1, .RETURN⟩ ⟨2, .RETURN⟩ (by decide) (by decide)
    ⟨fun _ => 1⟩ ⟨fun _ => 2⟩ rfl rfl

/-! ## Monotonicity of the attribute bits -/

theorem bitsKept_of_ext {s s2 : Types} (w : s.WF) (x : Ext s s2) : BitsKept s s2 := by
  intro t
  have h1 : findSet s.heap (s.getType t).2 = findSet s.heap t := w.idem t
  have h2 : findSet s2.heap (s2.getType t).2 = findSet s2.heap t := x.wf.idem t
  refine ⟨?_, ?_, ?_, ?_⟩
  · intro e
    have := x.grow.integer t (by unfold isInteger at e ⊢; rw [← h1]; exact e)
    unfold isInteger at this ⊢
    rw [h2]; exact this
  · intro e
    have := x.grow.pointer t (by unfold isPointer at e ⊢; rw [← h1]; exact e)
    unfold isPointer at this ⊢
    rw [h2]; exact this
  · intro e
    have := x.grow.signed t (by unfold isSigned at e ⊢; rw [← h1]; exact e)
    unfold isSigned at this ⊢
    rw [h2]; exact this
  · intro e
    have := x.grow.unsigned t (by unfold isUnsigned at e ⊢; rw [← h1]; exact e)
    unfold isUnsigned at this ⊢
    rw [h2]; exact this

theorem analyze_ext {a : TypeAnalyzer} {fuel rounds : Nat} {function : Function}
    {canceled : Nat → Bool} {s s2 : Types} (w : s.WF)
    (e : a.analyze fuel rounds function canceled s = .ok s2) : Ext s s2 := by
  obtain ⟨s1, s3, s4, _, _, _, x1, x3, x4, x5⟩ := analyze_stages w e
  exact ((x1.ext_trans x3).ext_trans x4).ext_trans x5

/-- C5: no rule ever clears an attribute bit that is set on the representative
of a term: every application of a term rule or of a statement rule keeps the
bits integer, pointer, signed and unsigned of the type of every term, and so do
a round of the driver, the seeding step, the unification of the returns and
the whole analysis. -/
theorem attribute_bits_never_cleared (a : TypeAnalyzer) (fuel : Nat) (s s2 : Types) (w : s.WF) :
    (∀ term, a.analyzeTerm fuel s term = .ok s2 → BitsKept s s2) ∧
    (∀ statement, analyzeStatement fuel s statement = .ok s2 → BitsKept s s2) ∧
    (∀ terms statements, a.round fuel terms statements s = .ok s2 → BitsKept s s2) ∧
    (∀ terms, sweep (a.seedTerm fuel) terms s = .ok s2 → BitsKept s s2) ∧
    (∀ function, a.unifyReturns fuel function s = .ok s2 → BitsKept s s2) ∧
    (∀ rounds function canceled,
      a.analyze fuel rounds function canceled s = .ok s2 → BitsKept s s2) :=
  ⟨fun _ e => bitsKept_of_ext w (analyzeTerm_ext w e),
   fun _ e => bitsKept_of_ext w (analyzeStatement_ext w e),
   fun _ _ e => bitsKept_of_ext w (round_ext w e),
   fun _ e => bitsKept_of_ext w (sweep_ext _ (fun _ _ _ _ w e => seedTerm_ext w e) s s2 w e),
   fun _ e => bitsKept_of_ext w (unifyReturns_ext w e),
   fun _ _ _ e => bitsKept_of_ext w (analyze_ext w e)⟩

/-- The analysis of `andExample` returns. -/
theorem andExample_returned :
    returned (andExample.analyze 1 3 (blockOf []) (fun _ => false) Types.empty) = true := by
  decide!

/-- After the analysis of `andExample`, the rule of the term `NEGATION(t0)` returns. -/
theorem andExample_negation_returned :
    returned (andExample.analyzeTerm 1
      (resultStore (andExample.analyze 1 3 (blockOf []) (fun _ => false) Types.empty))
      ⟨3, true, .UNARY_OPERATOR .NEGATION 0⟩) = true := by
  decide!

/-- Witness of C5: on the store the analysis of `andExample` leaves, where `t0`
is an unsigned integer, the rule of `NEGATION(t0)` keeps the bits. -/
theorem attribute_bits_never_cleared_witness :
    isUnsigned (resultStore (andExample.analyze 1 3 (blockOf []) (fun _ => false)
      Types.empty)).heap 0 = true ∧
    BitsKept (resultStore (andExample.analyze 1 3 (blockOf []) (fun _ => false) Types.empty))
      (resultStore (andExample.analyzeTerm 1
        (resultStore (andExample.analyze 1 3 (blockOf []) (fun _ => false) Types.empty))
        ⟨3, true, .UNARY_OPERATOR .NEGATION 0⟩)) :=
  ⟨by decide!,
   (attribute_bits_never_cleared andExample 1 _ _
      (analyze_ext Types.empty_wf (eq_ok_of_returned andExample_returned)).wf).1
      ⟨3, true, .UNARY_OPERATOR .NEGATION 0⟩ (eq_ok_of_returned andExample_negation_returned)⟩

/-! ## Cancellation -/

/-- C8: the cancellation token is read once per round, after the sweeps and the
probe.  If it reads canceled at the end of round `k`, the loop returns the
store of this round (after the probe), whether the round changed a type or
not; if it does not and the probe reads true, round `k + 1` is started on that
store.  If the token reads canceled at the end of the first round, `analyze`
returns after the seeding, the unification of the returns and exactly one
round, whenever these three return. -/
theorem cancellation_polled_once_per_round (a : TypeAnalyzer) (fuel : Nat) (canceled : Nat → Bool) :
    (∀ terms statements rounds k s s1,
      a.round fuel terms statements s = .ok s1 → canceled k = true →
      a.iterate fuel canceled terms statements (rounds + 1) k s = .ok s1.probe.2) ∧
    (∀ terms statements rounds k s s1,
      a.round fuel terms statements s = .ok s1 → canceled k = false → s1.probe.1 = true →
      a.iterate fuel canceled terms statements (rounds + 1) k s
        = a.iterate fuel canceled terms statements rounds (k + 1) s1.probe.2) ∧
    (∀ function rounds s s1 s2 s3,
      canceled 0 = true →
      sweep (a.seedTerm fuel) (a.census function).terms s = .ok s1 →
      a.unifyReturns fuel function s1 = .ok s2 →
      a.round fuel (a.usedTerms function) (a.census function).statements s2 = .ok s3 →
      a.analyze fuel (rounds + 1) function canceled s = .ok s3.probe.2) := by
  have h1 : ∀ terms statements rounds k s s1,
      a.round fuel terms statements s = .ok s1 → canceled k = true →
      a.iterate fuel canceled terms statements (rounds + 1) k s = .ok s1.probe.2 := by
    intro terms statements rounds k s s1 e hc
    unfold iterate
    rw [e]
    simp [hc]
  refine ⟨h1, ?_, ?_⟩
  · intro terms statements rounds k s s1 e hc hp
    conv => lhs; unfold iterate
    rw [e]
    simp [hc, hp]
  · intro function rounds s s1 s2 s3 hc e1 e2 e3
    unfold analyze
    rw [e1]
    simp only
    rw [e2]
    simp only
    exact h1 _ _ _ _ _ _ e3 hc

/-- The first round of `andExample` on the empty store returns. -/
theorem andExample_round_returned :
    returned (andExample.round 1 (andExample.usedTerms (blockOf []))
      (andExample.census (blockOf [])).statements Types.empty) = true := by
  decide!

/-- Witness of C8: `andExample` with a token that is canceled from the start:
the analysis returns the store of the first round, although this round changed
types. -/
theorem cancellation_polled_once_per_round_witness :
    (resultStore (andExample.round 1 (andExample.usedTerms (blockOf []))
      (andExample.census (blockOf [])).statements Types.empty)).probe.1 = true ∧
    andExample.analyze 1 1 (blockOf []) (fun _ => true) Types.empty
      = .ok (resultStore (andExample.round 1 (andExample.usedTerms (blockOf []))
          (andExample.census (blockOf [])).statements Types.empty)).probe.2 :=
  ⟨by decide!,
   (cancellation_polled_once_per_round andExample 1 (fun _ => true)).2.2 (blockOf []) 0
      Types.empty Types.empty Types.empty _ rfl rfl rfl
      (eq_ok_of_returned andExample_round_returned)⟩

end TypeAnalyzer

/-! ## Reading the attributes after a call -/

theorem bit_set (f : Type_ → Bool) (h : Heap) (r : Nat) (c : Type_)
    (hp : c.parent_ = (h r).parent_) (y : Nat) :
    f ((h.set r c) (findSet (h.set r c) y))
      = if findSet h y = r then f c else f (h (findSet h y)) := by
  rw [findSet_set h r c hp]
  split
  · next e => rw [e, set_same]
  · next e => rw [set_other h r _ c e]

@[simp] theorem findSet_makeInteger (x : Nat) (h : Heap) (y : Nat) :
    findSet (makeInteger x h) y = findSet h y := by
  unfold makeInteger; split
  · rfl
  · apply findSet_set; rfl

@[simp] theorem findSet_makePointer (x : Nat) (h : Heap) (y : Nat) :
    findSet (makePointer x h) y = findSet h y := by
  unfold makePointer; split
  · rfl
  · apply findSet_set; rfl

@[simp] theorem findSet_makeSigned (x : Nat) (h : Heap) (y : Nat) :
    findSet (makeSigned x h) y = findSet h y := by
  unfold makeSigned; split
  · rfl
  · apply findSet_set; rfl

@[simp] theorem findSet_makeUnsigned (x : Nat) (h : Heap) (y : Nat) :
    findSet (makeUnsigned x h) y = findSet h y := by
  unfold makeUnsigned; split
  · rfl
  · apply findSet_set; rfl

@[simp] theorem findSet_updateFactor (x v : Nat) (h : Heap) (y : Nat) :
    findSet (updateFactor x v h) y = findSet h y := by
  unfold updateFactor; split
  · rfl
  · apply findSet_set; rfl

/-- What a bit reads after a call that sets the bit `g` on the representative
of `x` and leaves the bit `f` alone, or sets `f` itself. -/
theorem bit_after (f : Type_ → Bool) (op : Nat → Heap → Heap) (upd : Type_ → Type_)
    (test : Type_ → Prop) [∀ c, Decidable (test c)]
    (hop : ∀ x h, op x h = if test (h (findSet h x)) then h
      else h.set (findSet h x) (upd (h (findSet h x))))
    (hpar : ∀ c, (upd c).parent_ = c.parent_)
    (val : Bool) (hval : ∀ c, ¬ test c → f (upd c) = (f c || val))
    (htest : ∀ c, test c → (f c || val) = f c)
    (x : Nat) (h : Heap) (y : Nat) :
    f ((op x h) (findSet (op x h) y))
      = (f (h (findSet h y)) || (val && decide (findSet h y = findSet h x))) := by
  rw [hop]
  split
  · next ht =>
    by_cases e : findSet h y = findSet h x
    · rw [e]; simp only [decide_True, Bool.and_true]; exact (htest _ ht).symm
    · simp [e]
  · next ht =>
    rw [bit_set f h _ _ (hpar _)]
    split
    · next e => rw [hval _ ht, e]; simp
    · next e => simp [e]

@[simp] theorem isInteger_makeInteger (x : Nat) (h : Heap) (y : Nat) :
    isInteger (makeInteger x h) y = (isInteger h y || decide (findSet h y = findSet h x)) := by
  have := bit_after Type_.isInteger_ makeInteger
    (fun c => { c with isInteger_ := true, changed_ := true }) (fun c => c.isInteger_ = true)
    (fun _ _ => rfl) (fun _ => rfl) true (fun c hc => by simp) (fun c hc => by simp [hc]) x h y
  simpa [isInteger] using this

@[simp] theorem isPointer_makePointer (x : Nat) (h : Heap) (y : Nat) :
    isPointer (makePointer x h) y = (isPointer h y || decide (findSet h y = findSet h x)) := by
  have := bit_after Type_.isPointer_ makePointer
    (fun c => { c with isPointer_ := true, changed_ := true }) (fun c => c.isPointer_ = true)
    (fun _ _ => rfl) (fun _ => rfl) true (fun c hc => by simp) (fun c hc => by simp [hc]) x h y
  simpa [isPointer] using this

@[simp] theorem isSigned_makeSigned (x : Nat) (h : Heap) (y : Nat) :
    isSigned (makeSigned x h) y = (isSigned h y || decide (findSet h y = findSet h x)) := by
  have := bit_after Type_.isSigned_ makeSigned
    (fun c => { c with isSigned_ := true, changed_ := true }) (fun c => c.isSigned_ = true)
    (fun _ _ => rfl) (fun _ => rfl) true (fun c hc => by simp) (fun c hc => by simp [hc]) x h y
  simpa [isSigned] using this

@[simp] theorem isUnsigned_makeUnsigned (x : Nat) (h : Heap) (y : Nat) :
    isUnsigned (makeUnsigned x h) y = (isUnsigned h y || decide (findSet h y = findSet h x)) := by
  have := bit_after Type_.isUnsigned_ makeUnsigned
    (fun c => { c with isUnsigned_ := true, changed_ := true }) (fun c => c.isUnsigned_ = true)
    (fun _ _ => rfl) (fun _ => rfl) true (fun c hc => by simp) (fun c hc => by simp [hc]) x h y
  simpa [isUnsigned] using this

@[simp] theorem isInteger_makePointer (x : Nat) (h : Heap) (y : Nat) :
    isInteger (makePointer x h) y = isInteger h y := by
  have := bit_after Type_.isInteger_ makePointer
    (fun c => { c with isPointer_ := true, changed_ := true }) (fun c => c.isPointer_ = true)
    (fun _ _ => rfl) (fun _ => rfl) false (fun c _ => by simp) (fun c _ => by simp) x h y
  simpa [isInteger] using this

@[simp] theorem isInteger_makeSigned (x : Nat) (h : Heap) (y : Nat) :
    isInteger (makeSigned x h) y = isInteger h y := by
  have := bit_after Type_.isInteger_ makeSigned
    (fun c => { c with isSigned_ := true, changed_ := true }) (fun c => c.isSigned_ = true)
    (fun _ _ => rfl) (fun _ => rfl) false (fun c _ => by simp) (fun c _ => by simp) x h y
  simpa [isInteger] using this

@[simp] theorem isInteger_makeUnsigned (x : Nat) (h : Heap) (y : Nat) :
    isInteger (makeUnsigned x h) y = isInteger h y := by
  have := bit_after Type_.isInteger_ makeUnsigned
    (fun c => { c with isUnsigned_ := true, changed_ := true }) (fun c => c.isUnsigned_ = true)
    (fun _ _ => rfl) (fun _ => rfl) false (fun c _ => by simp) (fun c _ => by simp) x h y
  simpa [isInteger] using this

@[simp] theorem isInteger_updateFactor (x v : Nat) (h : Heap) (y : Nat) :
    isInteger (updateFactor x v h) y = isInteger h y := by
  have := bit_after Type_.isInteger_ (fun x h => updateFactor x v h)
    (fun c => { c with factor_ := Nat.gcd c.factor_ v, changed_ := true })
    (fun c => Nat.gcd c.factor_ v = c.factor_)
    (fun _ _ => rfl) (fun _ => rfl) false (fun c _ => by simp) (fun c _ => by simp) x h y
  simpa [isInteger] using this

@[simp] theorem isPointer_makeInteger (x : Nat) (h : Heap) (y : Nat) :
    isPointer (makeInteger x h) y = isPointer h y := by
  have := bit_after Type_.isPointer_ makeInteger
    (fun c => { c with isInteger_ := true, changed_ := true }) (fun c => c.isInteger_ = true)
    (fun _ _ => rfl) (fun _ => rfl) false (fun c _ => by simp) (fun c _ => by simp) x h y
  simpa [isPointer] using this

@[simp] theorem isPointer_makeSigned (x : Nat) (h : Heap) (y : Nat) :
    isPointer (makeSigned x h) y = isPointer h y := by
  have := bit_after Type_.isPointer_ makeSigned
    (fun c => { c with isSigned_ := true, changed_ := true }) (fun c => c.isSigned_ = true)
    (fun _ _ => rfl) (fun _ => rfl) false (fun c _ => by simp) (fun c _ => by simp) x h y
  simpa [isPointer] using this

@[simp] theorem isPointer_makeUnsigned (x : Nat) (h : Heap) (y : Nat) :
    isPointer (makeUnsigned x h) y = isPointer h y := by
  have := bit_after Type_.isPointer_ makeUnsigned
    (fun c => { c with isUnsigned_ := true, changed_ := true }) (fun c => c.isUnsigned_ = true)
    (fun _ _ => rfl) (fun _ => rfl) false (fun c _ => by simp) (fun c _ => by simp) x h y
  simpa [isPointer] using this

@[simp] theorem isPointer_updateFactor (x v : Nat) (h : Heap) (y : Nat) :
    isPointer (updateFactor x v h) y = isPointer h y := by
  have := bit_after Type_.isPointer_ (fun x h => updateFactor x v h)
    (fun c => { c with factor_ := Nat.gcd c.factor_ v, changed_ := true })
    (fun c => Nat.gcd c.factor_ v = c.factor_)
    (fun _ _ => rfl) (fun _ => rfl) false (fun c _ => by simp) (fun c _ => by simp) x h y
  simpa [isPointer] using this

@[simp] theorem isSigned_makeInteger (x : Nat) (h : Heap) (y : Nat) :
    isSigned (makeInteger x h) y = isSigned h y := by
  have := bit_after Type_.isSigned_ makeInteger
    (fun c => { c with isInteger_ := true, changed_ := true }) (fun c => c.isInteger_ = true)
    (fun _ _ => rfl) (fun _ => rfl) false (fun c _ => by simp) (fun c _ => by simp) x h y
  simpa [isSigned] using this

@[simp] theorem isSigned_makePointer (x : Nat) (h : Heap) (y : Nat) :
    isSigned (makePointer x h) y = isSigned h y := by
  have := bit_after Type_.isSigned_ makePointer
    (fun c => { c with isPointer_ := true, changed_ := true }) (fun c => c.isPointer_ = true)
    (fun _ _ => rfl) (fun _ => rfl) false (fun c _ => by simp) (fun c _ => by simp) x h y
  simpa [isSigned] using this

@[simp] theorem isSigned_makeUnsigned (x : Nat) (h : Heap) (y : Nat) :
    isSigned (makeUnsigned x h) y = isSigned h y := by
  have := bit_after Type_.isSigned_ makeUnsigned
    (fun c => { c with isUnsigned_ := true, changed_ := true }) (fun c => c.isUnsigned_ = true)
    (fun _ _ => rfl) (fun _ => rfl) false (fun c _ => by simp) (fun c _ => by simp) x h y
  simpa [isSigned] using this

@[simp] theorem isSigned_updateFactor (x v : Nat) (h : Heap) (y : Nat) :
    isSigned (updateFactor x v h) y = isSigned h y := by
  have := bit_after Type_.isSigned_ (fun x h => updateFactor x v h)
    (fun c => { c with factor_ := Nat.gcd c.factor_ v, changed_ := true })
    (fun c => Nat.gcd c.factor_ v = c.factor_)
    (fun _ _ => rfl) (fun _ => rfl) false (fun c _ => by simp) (fun c _ => by simp) x h y
  simpa [isSigned] using this

@[simp] theorem isUnsigned_makeInteger (x : Nat) (h : Heap) (y : Nat) :
    isUnsigned (makeInteger x h) y = isUnsigned h y := by
  have := bit_after Type_.isUnsigned_ makeInteger
    (fun c => { c with isInteger_ := true, changed_ := true }) (fun c => c.isInteger_ = true)
    (fun _ _ => rfl) (fun _ => rfl) false (fun c _ => by simp) (fun c _ => by simp) x h y
  simpa [isUnsigned] using this

@[simp] theorem isUnsigned_makePointer (x : Nat) (h : Heap) (y : Nat) :
    isUnsigned (makePointer x h) y = isUnsigned h y := by
  have := bit_after Type_.isUnsigned_ makePointer
    (fun c => { c with isPointer_ := true, changed_ := true }) (fun c => c.isPointer_ = true)
    (fun _ _ => rfl) (fun _ => rfl) false (fun c _ => by simp) (fun c _ => by simp) x h y
  simpa [isUnsigned] using this

@[simp] theorem isUnsigned_makeSigned (x : Nat) (h : Heap) (y : Nat) :
    isUnsigned (makeSigned x h) y = isUnsigned h y := by
  have := bit_after Type_.isUnsigned_ makeSigned
    (fun c => { c with isSigned_ := true, changed_ := true }) (fun c => c.isSigned_ = true)
    (fun _ _ => rfl) (fun _ => rfl) false (fun c _ => by simp) (fun c _ => by simp) x h y
  simpa [isUnsigned] using this

@[simp] theorem isUnsigned_updateFactor (x v : Nat) (h : Heap) (y : Nat) :
    isUnsigned (updateFactor x v h) y = isUnsigned h y := by
  have := bit_after Type_.isUnsigned_ (fun x h => updateFactor x v h)
    (fun c => { c with factor_ := Nat.gcd c.factor_ v, changed_ := true })
    (fun c => Nat.gcd c.factor_ v = c.factor_)
    (fun _ _ => rfl) (fun _ => rfl) false (fun c _ => by simp) (fun c _ => by simp) x h y
  simpa [isUnsigned] using this

/-! ## Running sequences -/

@[simp] theorem seq_nil (h : Heap) : seq [] h = .ok h := rfl

@[simp] theorem seq_cons_lift (f : Heap → Heap) (rest : List Action) (h : Heap) :
    seq (lift f :: rest) h = seq rest (f h) := rfl

@[simp] theorem seq_cons_when (c : Heap → Bool) (a : Action) (rest : List Action) (h : Heap) :
    seq (Action.when c a :: rest) h = if c h = true then seq (a :: rest) h else seq rest h := by
  by_cases hc : c h = true
  · simp only [hc, if_true]
    show (match Action.when c a h with | .ok h1 => seq rest h1 | .error e => .error e) = _
    unfold Action.when
    rw [if_pos hc]
    rfl
  · simp only [hc, if_false]
    show (match Action.when c a h with | .ok h1 => seq rest h1 | .error e => .error e) = _
    unfold Action.when
    rw [if_neg hc]
    simp

@[simp] theorem seq_cons_ifElse (c : Heap → Bool) (a b : Action) (rest : List Action) (h : Heap) :
    seq (Action.ifElse c a b :: rest) h
      = if c h = true then seq (a :: rest) h else seq (b :: rest) h := by
  by_cases hc : c h = true
  · simp only [hc, if_true]
    show (match Action.ifElse c a b h with | .ok h1 => seq rest h1 | .error e => .error e) = _
    unfold Action.ifElse
    rw [if_pos hc]
    rfl
  · simp only [hc, if_false]
    show (match Action.ifElse c a b h with | .ok h1 => seq rest h1 | .error e => .error e) = _
    unfold Action.ifElse
    rw [if_neg hc]
    rfl

theorem seq_append (l1 l2 : List Action) (h : Heap) :
    seq (l1 ++ l2) h = match seq l1 h with
      | .ok h1 => seq l2 h1
      | .error e => .error e := by
  induction l1 generalizing h with
  | nil => rfl
  | cons a rest ih =>
    show (match a h with | .ok h1 => seq (rest ++ l2) h1 | .error e => .error e) = _
    show _ = match (match a h with | .ok h1 => seq rest h1 | .error e => .error e) with
      | .ok h1 => seq l2 h1
      | .error e => .error e
    cases a h with
    | ok h1 => exact ih h1
    | error e => rfl

@[simp] theorem seq_cons_seq (l : List Action) (rest : List Action) (h : Heap) :
    seq (seq l :: rest) h = seq (l ++ rest) h := by
  rw [seq_append]
  rfl

namespace TypeAnalyzer

open Type_ Action

/-! ## The ADD rule and its threshold -/

theorem binaryAction_add (fuel : Nat) (type leftType rightType : Nat)
    (leftValue rightValue : Value) :
    binaryAction fuel .ADD type leftType rightType leftValue rightValue
      = seq (addKindBlock type leftType rightType leftValue rightValue ++
          (signednessBlock type leftType rightType ++
            addTail fuel type leftType rightType leftValue rightValue)) := by
  simp only [binaryAction, addKindBlock, addTail, List.append_assoc]

/-- In an extended store, a bit reads the same through the former handle of a
term as through its type. -/
theorem handle_eq {s s2 : Types} (w : s.WF) (x : Ext s s2) (t : Nat) :
    findSet s2.heap (s2.getType t).2 = findSet s2.heap (s.getType t).2 := by
  show findSet s2.heap (findSet s2.heap t) = findSet s2.heap (findSet s.heap t)
  rw [x.wf.idem, x.grow.findSet_handle w]

end TypeAnalyzer

/-! ## Code that only sets bits and factors -/

theorem sameLinks_set (h : Heap) (r : Nat) (c : Type_) (h1 : c.parent_ = (h r).parent_)
    (h2 : c.rank_ = (h r).rank_) (h3 : c.pointee_ = (h r).pointee_) : SameLinks h (h.set r c) := by
  intro j
  by_cases hj : j = r
  · rw [hj, set_same]; exact ⟨h1, h2, h3⟩
  · rw [set_other h r j c hj]; exact ⟨rfl, rfl, rfl⟩

theorem sameFactors_set (h : Heap) (r : Nat) (c : Type_) (h1 : c.factor_ = (h r).factor_) :
    SameFactors h (h.set r c) := by
  intro j
  by_cases hj : j = r
  · rw [hj, set_same]; exact h1
  · rw [set_other h r j c hj]

theorem SameLinks.links_trans {h1 h2 h3 : Heap} (a : SameLinks h1 h2) (b : SameLinks h2 h3) :
    SameLinks h1 h3 := fun j =>
  ⟨(b j).1.trans (a j).1, (b j).2.1.trans (a j).2.1, (b j).2.2.trans (a j).2.2⟩

/-- Code that only sets bits and factors returns and leaves the links alone,
and the stored factors too if it has no `updateFactor`. -/
theorem Plain.returns {withFactor : Prop} {a : Action} (p : Plain withFactor a) :
    ∀ h, ∃ h2, a h = .ok h2 ∧ SameLinks h h2 ∧ (¬ withFactor → SameFactors h h2) := by
  induction p with
  | skip => exact fun h => ⟨h, rfl, fun _ => ⟨rfl, rfl, rfl⟩, fun _ _ => rfl⟩
  | makeInteger x =>
    intro h
    refine ⟨_, rfl, ?_, fun _ => ?_⟩ <;> unfold Type_.makeInteger <;> split
    · exact fun _ => ⟨rfl, rfl, rfl⟩
    · exact sameLinks_set h _ _ rfl rfl rfl
    · exact fun _ => rfl
    · exact sameFactors_set h _ _ rfl
  | makePointer x =>
    intro h
    refine ⟨_, rfl, ?_, fun _ => ?_⟩ <;> unfold Type_.makePointer <;> split
    · exact fun _ => ⟨rfl, rfl, rfl⟩
    · exact sameLinks_set h _ _ rfl rfl rfl
    · exact fun _ => rfl
    · exact sameFactors_set h _ _ rfl
  | makeSigned x =>
    intro h
    refine ⟨_, rfl, ?_, fun _ => ?_⟩ <;> unfold Type_.makeSigned <;> split
    · exact fun _ => ⟨rfl, rfl, rfl⟩
    · exact sameLinks_set h _ _ rfl rfl rfl
    · exact fun _ => rfl
    · exact sameFactors_set h _ _ rfl
  | makeUnsigned x =>
    intro h
    refine ⟨_, rfl, ?_, fun _ => ?_⟩ <;> unfold Type_.makeUnsigned <;> split
    · exact fun _ => ⟨rfl, rfl, rfl⟩
    · exact sameLinks_set h _ _ rfl rfl rfl
    · exact fun _ => rfl
    · exact sameFactors_set h _ _ rfl
  | updateFactor x v hw =>
    intro h
    refine ⟨_, rfl, ?_, fun hn => absurd hw hn⟩
    unfold Type_.updateFactor
    split
    · exact fun _ => ⟨rfl, rfl, rfl⟩
    · exact sameLinks_set h _ _ rfl rfl rfl
  | seqNil => exact fun h => ⟨h, rfl, fun _ => ⟨rfl, rfl, rfl⟩, fun _ _ => rfl⟩
  | seqCons _ _ iha ihr =>
    intro h
    obtain ⟨h1, e1, l1, f1⟩ := iha h
    obtain ⟨h2, e2, l2, f2⟩ := ihr h1
    refine ⟨h2, ?_, l1.links_trans l2, fun hn j => (f2 hn j).trans (f1 hn j)⟩
    unfold seq
    rw [e1]
    exact e2
  | when c _ iha =>
    intro h
    unfold Action.when
    split
    · exact iha h
    · exact ⟨h, rfl, fun _ => ⟨rfl, rfl, rfl⟩, fun _ _ => rfl⟩
  | ifElse c _ _ iha ihb =>
    intro h
    unfold Action.ifElse
    split
    · exact iha h
    · exact ihb h

namespace TypeAnalyzer

open Type_ Action

/-! ## The SHL rule and the factor -/

theorem shlBitsBlock_plain (type leftType rightType : Nat) :
    Plain False (seq (shlBitsBlock type leftType rightType)) := by
  unfold shlBitsBlock
  repeat first
    | exact Plain.seqNil
    | exact Plain.makeInteger _
    | exact Plain.makeSigned _
    | exact Plain.makeUnsigned _
    | apply Plain.seqCons
    | apply Plain.when

theorem binaryAction_shl (fuel : Nat) (type leftType rightType : Nat)
    (leftValue rightValue : Value) (hc : rightValue.isConcrete = true) (h : Heap) :
    binaryAction fuel .SHL type leftType rightType leftValue rightValue h
      = match seq (shlBitsBlock type leftType rightType) h with
        | .ok h1 => .ok (updateFactor type
            (mulValue (factor h1 leftType) (shlOne rightValue.value)) h1)
        | .error e => .error e := by
  have : binaryAction fuel .SHL type leftType rightType leftValue rightValue
      = seq (shlBitsBlock type leftType rightType ++
          [when (fun _ => rightValue.isConcrete)
            (fun h => .ok (updateFactor type
              (mulValue (factor h leftType) (shlOne rightValue.value)) h))]) := by
    simp only [binaryAction, shlBitsBlock, List.cons_append, List.nil_append]
  rw [this, seq_append]
  cases seq (shlBitsBlock type leftType rightType) h with
  | error e => rfl
  | ok h1 =>
    simp only
    rw [seq_cons_when]
    simp only [hc, if_true]
    rfl

theorem factor_stored_updateFactor (x v : Nat) (h : Heap) :
    (updateFactor x v h (findSet h x)).factor_ = Nat.gcd (h (findSet h x)).factor_ v := by
  unfold updateFactor
  split
  · next e => exact e.symm
  · rw [set_same]

end TypeAnalyzer

/-! ## The driver on the objects alone -/

theorem Types.touchAll_keys (s : Types) (ids : List Nat) :
    (s.touchAll ids).keys = touchKeys s.keys ids := by
  unfold Types.touchAll touchKeys
  induction ids generalizing s with
  | nil => rfl
  | cons t rest ih =>
    rw [List.foldl_cons, List.foldl_cons, ih]
    congr 1
    unfold Types.touch
    split <;> rfl

theorem touchKeys_append (keys ids1 ids2 : List Nat) :
    touchKeys (touchKeys keys ids1) ids2 = touchKeys keys (ids1 ++ ids2) := by
  unfold touchKeys
  rw [List.foldl_append]

theorem mem_touchKeys (keys ids : List Nat) (k : Nat) :
    k ∈ touchKeys keys ids ↔ k ∈ keys ∨ k ∈ ids := by
  have := Types.mem_touchAll ⟨Type_.bottom, keys⟩ ids k
  rw [Types.touchAll_keys] at this
  exact this

theorem Types.run_touchAll (s : Types) (ids : List Nat) (act : Action) :
    (s.touchAll ids).run act = storeOf (act s.heap) (touchKeys s.keys ids) := by
  unfold Types.run storeOf
  rw [Types.touchAll_heap, Types.touchAll_keys]

/-- A sweep whose steps request terms and then act on the objects is the sweep
on the objects, with all requests made. -/
theorem sweep_eq_heap {α : Type} (f : Types → α → Except Failure Types)
    (step : Heap → α → Except Failure Heap) (ids : α → List Nat)
    (hf : ∀ s x, f s x = storeOf (step s.heap x) (touchKeys s.keys (ids x))) (l : List α) :
    ∀ s, sweep f l s = storeOf (sweepHeap step l s.heap) (touchKeys s.keys (l.flatMap ids)) := by
  induction l with
  | nil => intro s; rfl
  | cons x rest ih =>
    intro s
    unfold sweep sweepHeap
    rw [hf]
    cases hx : step s.heap x with
    | error e => rfl
    | ok h1 =>
      simp only [storeOf]
      rw [ih]
      simp only [List.flatMap_cons, touchKeys_append]
      rfl

namespace TypeAnalyzer

open Type_ Action

theorem analyzeTerm_eq_step (a : TypeAnalyzer) (fuel : Nat) (s : Types) (term : Term) :
    a.analyzeTerm fuel s term
      = storeOf (a.termStep fuel s.heap term) (touchKeys s.keys (termIds term)) := by
  rw [analyzeTerm_eq, Types.run_touchAll]
  rfl

theorem analyzeStatement_eq_step (fuel : Nat) (s : Types) (statement : Statement) :
    analyzeStatement fuel s statement
      = storeOf (statementStep fuel s.heap statement)
          (touchKeys s.keys (statementIds statement)) := by
  rw [analyzeStatement_eq, Types.run_touchAll]
  rfl

theorem round_eq_heap (a : TypeAnalyzer) (fuel : Nat) (terms : List Term)
    (statements : List Statement) (s : Types) :
    a.round fuel terms statements s
      = storeOf (a.roundHeap fuel terms statements s.heap)
          (touchKeys s.keys (roundIds terms statements)) := by
  unfold round roundHeap roundIds
  rw [sweep_eq_heap _ _ _ (analyzeTerm_eq_step a fuel) terms s]
  cases sweepHeap (a.termStep fuel) terms s.heap with
  | error e => rfl
  | ok h1 =>
    simp only [storeOf]
    rw [sweep_eq_heap _ _ _ (analyzeTerm_eq_step a fuel) terms.reverse]
    cases sweepHeap (a.termStep fuel) terms.reverse h1 with
    | error e => rfl
    | ok h2 =>
      simp only [storeOf]
      rw [sweep_eq_heap _ _ _ (analyzeStatement_eq_step fuel) statements]
      cases sweepHeap (statementStep fuel) statements h2 with
      | error e => rfl
      | ok h3 =>
        simp only [storeOf]
        rw [sweep_eq_heap _ _ _ (analyzeStatement_eq_step fuel) statements.reverse]
        simp only [touchKeys_append, List.append_assoc]
        rfl

end TypeAnalyzer

/-! ## Relations that every piece of code of the rules respects -/

theorem sweepHeap_cons_ok {α : Type} {step : Heap → α → Except Failure Heap} {x : α}
    {rest : List α} {h h2 : Heap} (e : sweepHeap step (x :: rest) h = .ok h2) :
    ∃ h1, step h x = .ok h1 ∧ sweepHeap step rest h1 = .ok h2 := by
  unfold sweepHeap at e
  split at e
  · next h1 e1 => exact ⟨h1, e1, e⟩
  · cases e

theorem sweepHeap_rel {α : Type} {K : Nat → Prop} {R : Heap → Heap → Prop}
    (hrefl : ∀ h, R h h) (htrans : ∀ h1 h2 h3, R h1 h2 → R h2 h3 → R h1 h3)
    {step : Heap → α → Except Failure Heap} (l : List α)
    (hstep : ∀ x ∈ l, ∀ h h2, HeapWF K h → step h x = .ok h2 → HeapWF K h2 ∧ R h h2) :
    ∀ h h2, HeapWF K h → sweepHeap step l h = .ok h2 → HeapWF K h2 ∧ R h h2 := by
  induction l with
  | nil => intro h h2 w e; injection e with e; subst e; exact ⟨w, hrefl h⟩
  | cons x rest ih =>
    intro h h2 w e
    obtain ⟨h1, e1, e2⟩ := sweepHeap_cons_ok e
    obtain ⟨w1, r1⟩ := hstep x (List.mem_cons_self _ _) h h1 w e1
    obtain ⟨w2, r2⟩ := ih (fun y hy => hstep y (List.mem_cons_of_mem _ hy)) h1 h2 w1 e2
    exact ⟨w2, htrans _ _ _ r1 r2⟩

namespace TypeAnalyzer

open Type_ Action

theorem termStep_rel {fuel : Nat} {K : Nat → Prop} {R : Heap → Heap → Prop}
    (st : Stable fuel K R) (a : TypeAnalyzer) (term : Term) (hids : ∀ i ∈ termIds term, K i)
    (h h2 : Heap) (w : HeapWF K h) (e : a.termStep fuel h term = .ok h2) :
    HeapWF K h2 ∧ R h h2 := by
  have hw := termAction_wired a fuel K h term (fun i hi => w.parent_mem i (hids i hi))
  exact ⟨hw.wf h h2 w e, st.rel_wired _ hw h h2 w e⟩

theorem statementStep_rel {fuel : Nat} {K : Nat → Prop} {R : Heap → Heap → Prop}
    (st : Stable fuel K R) (statement : Statement) (hids : ∀ i ∈ statementIds statement, K i)
    (h h2 : Heap) (w : HeapWF K h) (e : statementStep fuel h statement = .ok h2) :
    HeapWF K h2 ∧ R h h2 := by
  have hw := statementAction_wired fuel K h statement (fun i hi => w.parent_mem i (hids i hi))
  exact ⟨hw.wf h h2 w e, st.rel_wired _ hw h h2 w e⟩

theorem roundHeap_ok {a : TypeAnalyzer} {fuel : Nat} {terms : List Term}
    {statements : List Statement} {h h2 : Heap}
    (e : a.roundHeap fuel terms statements h = .ok h2) :
    ∃ h1 h3 h4, sweepHeap (a.termStep fuel) terms h = .ok h1 ∧
      sweepHeap (a.termStep fuel) terms.reverse h1 = .ok h3 ∧
      sweepHeap (statementStep fuel) statements h3 = .ok h4 ∧
      sweepHeap (statementStep fuel) statements.reverse h4 = .ok h2 := by
  unfold roundHeap at e
  split at e
  · cases e
  · next h1 e1 =>
    split at e
    · cases e
    · next h3 e3 =>
      split at e
      · cases e
      · next h4 e4 => exact ⟨h1, h3, h4, e1, e3, e4, e⟩

theorem mem_roundIds_term {terms : List Term} {statements : List Statement} {term : Term}
    (hm : term ∈ terms) {i : Nat} (hi : i ∈ termIds term) : i ∈ roundIds terms statements := by
  unfold roundIds
  exact List.mem_append.2 (Or.inl (List.mem_flatMap.2 ⟨term, hm, hi⟩))

theorem mem_roundIds_statement {terms : List Term} {statements : List Statement}
    {statement : Statement} (hm : statement ∈ statements) {i : Nat}
    (hi : i ∈ statementIds statement) : i ∈ roundIds terms statements := by
  unfold roundIds
  exact List.mem_append.2 (Or.inr (List.mem_append.2 (Or.inr (List.mem_append.2
    (Or.inl (List.mem_flatMap.2 ⟨statement, hm, hi⟩))))))

/-- A round on a well-formed heap whose owner set has all terms of the round
keeps the heap well formed and respects every stable relation. -/
theorem roundHeap_rel {fuel : Nat} {K : Nat → Prop} {R : Heap → Heap → Prop}
    (st : Stable fuel K R) (a : TypeAnalyzer) (terms : List Term) (statements : List Statement)
    (hids : ∀ i ∈ roundIds terms statements, K i) (h h2 : Heap) (w : HeapWF K h)
    (e : a.roundHeap fuel terms statements h = .ok h2) : HeapWF K h2 ∧ R h h2 := by
  obtain ⟨h1, h3, h4, e1, e3, e4, e5⟩ := roundHeap_ok e
  have ht : ∀ t ∈ terms, ∀ h h2, HeapWF K h → a.termStep fuel h t = .ok h2 →
      HeapWF K h2 ∧ R h h2 :=
    fun t hm => termStep_rel st a t (fun i hi => hids i (mem_roundIds_term hm hi))
  have hs : ∀ t ∈ statements, ∀ h h2, HeapWF K h → statementStep fuel h t = .ok h2 →
      HeapWF K h2 ∧ R h h2 :=
    fun t hm => statementStep_rel st t (fun i hi => hids i (mem_roundIds_statement hm hi))
  obtain ⟨w1, r1⟩ := sweepHeap_rel st.rel_refl st.rel_trans terms ht h h1 w e1
  obtain ⟨w3, r3⟩ := sweepHeap_rel st.rel_refl st.rel_trans terms.reverse
    (fun t hm => ht t (List.mem_reverse.1 hm)) h1 h3 w1 e3
  obtain ⟨w4, r4⟩ := sweepHeap_rel st.rel_refl st.rel_trans statements hs h3 h4 w3 e4
  obtain ⟨w5, r5⟩ := sweepHeap_rel st.rel_refl st.rel_trans statements.reverse
    (fun t hm => hs t (List.mem_reverse.1 hm)) h4 h2 w4 e5
  exact ⟨w5, st.rel_trans _ _ _ (st.rel_trans _ _ _ (st.rel_trans _ _ _ r1 r3) r4) r5⟩

end TypeAnalyzer

/-! ## Every change sets a flag -/

theorem flagged_refl (K : Nat → Prop) (h : Heap) : Flagged K h h :=
  ⟨fun _ e => e, Or.inl rfl⟩

theorem flagged_trans {K : Nat → Prop} {h1 h2 h3 : Heap} (a : Flagged K h1 h2)
    (b : Flagged K h2 h3) : Flagged K h1 h3 := by
  refine ⟨fun i e => b.1 i (a.1 i e), ?_⟩
  rcases b.2 with e | ⟨i, hi, e⟩
  · rw [e]
    exact a.2
  · exact Or.inr ⟨i, hi, e⟩

theorem flagged_set (K : Nat → Prop) (h : Heap) (r : Nat) (hr : K r) (c : Type_)
    (hc : c.changed_ = true) : Flagged K h (h.set r c) := by
  refine ⟨?_, Or.inr ⟨r, hr, by rw [set_same]; exact hc⟩⟩
  intro i e
  by_cases hi : i = r
  · rw [hi, set_same]; exact hc
  · rw [set_other h r i c hi]; exact e

theorem flagged_linkJoin (K : Nat → Prop) (h : Heap) (s o : Nat) (bump : Bool) (ho : K o) :
    Flagged K h (join (link h s o bump) s o) := by
  have hflag : ∀ i, (link h s o bump i).changed_ = true →
      (join (link h s o bump) s o i).changed_ = true := fun i e => join_changed _ s o i e
  refine ⟨fun i e => hflag i (by rw [link_changed, e]; rfl), Or.inr ⟨o, ho, hflag o ?_⟩⟩
  rw [link_changed]
  simp

theorem flagged_setPointee {K : Nat → Prop} {unify : Heap → Nat → Nat → Except Failure Heap}
    (hu : ∀ h a b h2, HeapWF K h → K a → K b → unify h a b = .ok h2 → Flagged K h h2)
    {h : Heap} (w : HeapWF K h) (r p : Nat) (hr : K r) (hp : K p) (h2 : Heap)
    (e : setPointee unify h r p = .ok h2) : Flagged K h h2 := by
  unfold Type_.setPointee at e
  split at e
  · next q hq => exact hu _ _ _ _ w (w.pointee_mem r q hr hq) hp e
  · injection e with e
    subst e
    exact flagged_set K h r hr _ rfl

theorem flagged_unionSet {K : Nat → Prop} (fuel : Nat) : ∀ (h : Heap) (a b : Nat) (h2 : Heap),
    HeapWF K h → K a → K b → unionSet fuel h a b = .ok h2 → Flagged K h h2 := by
  induction fuel with
  | zero =>
    intro h a b h2 w _ _ e
    unfold Type_.unionSet at e
    split at e
    · injection e with e; subst e; exact flagged_refl K h
    · cases e
  | succ n ih =>
    intro h a b h2 w ha hb e
    unfold Type_.unionSet at e
    split at e
    · injection e with e; subst e; exact flagged_refl K h
    · simp only at e
      have hA := w.parent_mem a ha
      have hB := w.parent_mem b hb
      have key : ∀ (s o : Nat) (bump : Bool), K s → K o → findSet h s = s →
          (match (join (link h s o bump) s o o).pointee_ with
            | none => Except.ok (join (link h s o bump) s o)
            | some po => Type_.setPointee (Type_.unionSet n) (join (link h s o bump) s o) s po)
            = .ok h2 → Flagged K h h2 := by
        intro s o bump hs ho hroot e
        have w1 := w.wf_linkJoin s o bump hs ho hroot
        have f1 := flagged_linkJoin K h s o bump ho
        split at e
        · injection e with e; subst e; exact f1
        · next po hpo =>
          exact flagged_trans f1
            (flagged_setPointee ih w1 s po hs (w1.pointee_mem o po ho hpo) h2 e)
      by_cases hlt : (h (findSet h a)).rank_ < (h (findSet h b)).rank_
      · simp only [hlt, if_true] at e
        exact key _ _ _ hB hA (w.idem b) e
      · simp only [hlt, if_false] at e
        exact key _ _ _ hA hB (w.idem a) e

theorem flagged_bit (K : Nat → Prop) (h : Heap) (r : Nat) (hr : K r) (c : Type_)
    (hc : c.changed_ = true) (p : Prop) [Decidable p] :
    Flagged K h (if p then h else h.set r c) := by
  split
  · exact flagged_refl K h
  · exact flagged_set K h r hr c hc

theorem flagged_makePointerTo {K : Nat → Prop} {fuel : Nat} {x : Nat} {p : Option Nat}
    {h h2 : Heap} (w : HeapWF K h) (hx : K x) (hp : ∀ q, p = some q → K q)
    (e : makePointerTo fuel x p h = .ok h2) : Flagged K h h2 := by
  have f1 : Flagged K h (makePointer x h) := flagged_bit K h _ (w.parent_mem x hx) _ rfl _
  unfold Type_.makePointerTo at e
  split at e
  · injection e with e
    subst e
    exact f1
  · next q =>
    exact flagged_trans f1 (flagged_setPointee (flagged_unionSet fuel) (w.wf_makePointer x hx)
      _ q (w.parent_mem x hx) (hp q rfl) h2 e)

/-- Along every piece of code of the rules, every change sets a flag. -/
theorem flagged_stable (fuel : Nat) (K : Nat → Prop) : Stable fuel K (Flagged K) := by
  refine ⟨flagged_refl K, fun _ _ _ => flagged_trans, ?_⟩
  intro a wa
  induction wa with
  | skip => intro h h2 _ e; injection e with e; subst e; exact flagged_refl K h
  | fail => intro h h2 _ e; cases e
  | makeInteger hx =>
    intro h h2 hw e; injection e with e; subst e
    exact flagged_bit K h _ (hw.parent_mem _ hx) _ rfl _
  | makePointer hx =>
    intro h h2 hw e; injection e with e; subst e
    exact flagged_bit K h _ (hw.parent_mem _ hx) _ rfl _
  | makeSigned hx =>
    intro h h2 hw e; injection e with e; subst e
    exact flagged_bit K h _ (hw.parent_mem _ hx) _ rfl _
  | makeUnsigned hx =>
    intro h h2 hw e; injection e with e; subst e
    exact flagged_bit K h _ (hw.parent_mem _ hx) _ rfl _
  | updateFactor v hx =>
    intro h h2 hw e; injection e with e; subst e
    exact flagged_bit K h _ (hw.parent_mem _ hx) _ rfl _
  | makePointerTo hx hl =>
    intro h h2 hw e
    exact flagged_makePointerTo hw hx
      (fun q hq => hw.pointee_mem _ q (hw.parent_mem _ hl) hq) e
  | makePointerSome hx hp =>
    intro h h2 hw e
    exact flagged_makePointerTo hw hx (fun q hq => by injection hq with hq; rw [← hq]; exact hp) e
  | unionSet ha hb => intro h h2 hw e; exact flagged_unionSet _ h _ _ h2 hw ha hb e
  | seqNil => intro h h2 _ e; injection e with e; subst e; exact flagged_refl K h
  | seqCons wa1 _ iha ihr =>
    intro h h2 hw e
    obtain ⟨h1, e1, e2⟩ := seq_cons_ok e
    exact flagged_trans (iha h h1 hw e1) (ihr h1 h2 (wa1.wf h h1 hw e1) e2)
  | when c _ iha =>
    intro h h2 hw e
    unfold Action.when at e
    split at e
    · exact iha h h2 hw e
    · injection e with e; subst e; exact flagged_refl K h
  | ifElse c _ _ iha ihb =>
    intro h h2 hw e
    unfold Action.ifElse at e
    split at e
    · exact iha h h2 hw e
    · exact ihb h h2 hw e

/-! ## Idempotence at the fixed point -/

theorem HeapWF.wf_mono {K K2 : Nat → Prop} {h : Heap} (w : HeapWF K h)
    (hK : ∀ k, K k → K2 k) : HeapWF K2 h := by
  refine ⟨w.idem, ?_, ?_, ?_⟩
  · intro k hk
    by_cases h1 : K k
    · exact hK _ (w.parent_mem k h1)
    · have : findSet h k = k := by unfold findSet; rw [w.fresh k h1]; rfl
      rw [this]; exact hk
  · intro k p _ e
    by_cases h1 : K k
    · exact hK _ (w.pointee_mem k p h1 e)
    · rw [w.fresh k h1] at e
      cases e
  · intro k hk
    exact w.fresh k (fun h1 => hk (hK k h1))

theorem storeOf_ok {r : Except Failure Heap} {keys : List Nat} {s : Types}
    (e : storeOf r keys = .ok s) : r = .ok s.heap ∧ s.keys = keys := by
  unfold storeOf at e
  split at e
  · injection e with e
    subst e
    exact ⟨rfl, rfl⟩
  · cases e

theorem Types.probe_false {s : Types} (hp : s.probe.1 = false) :
    ∀ k ∈ s.keys, (s.heap k).changed_ = false := by
  intro k hk
  have := List.any_eq_false.1 hp k hk
  simpa using this

theorem Types.probe_heap_of_false {s : Types} (hp : s.probe.1 = false) :
    s.probe.2.heap = s.heap := by
  funext j
  show (if j ∈ s.keys then { s.heap j with changed_ := false } else s.heap j) = s.heap j
  split
  · next hj =>
    have := Types.probe_false hp j hj
    cases hc : s.heap j
    rw [hc] at this
    simp only at this
    simp [this]
  · rfl

namespace TypeAnalyzer

open Type_ Action

/-- With a token that is never canceled, the loop returns the store of a round
whose probe read false. -/
theorem iterate_last {a : TypeAnalyzer} {fuel : Nat} {canceled : Nat → Bool}
    (hnc : ∀ k, canceled k = false) {terms : List Term} {statements : List Statement}
    (rounds : Nat) : ∀ (k : Nat) (s s2 : Types), s.WF →
      a.iterate fuel canceled terms statements rounds k s = .ok s2 →
      ∃ s0 s1, s0.WF ∧ a.round fuel terms statements s0 = .ok s1 ∧ s1.probe.1 = false ∧
        s2 = s1.probe.2 := by
  induction rounds with
  | zero => intro k s s2 _ e; cases e
  | succ n ih =>
    intro k s s2 w e
    obtain ⟨m, s1, hm, e1, hrest⟩ := iterate_ok e
    rcases hrest with ⟨_, e2⟩ | ⟨hc, e2⟩
    · have hmn : m = n := by omega
      rw [hmn] at e2
      exact ih (k + 1) _ s2 (Types.probe_ext (round_ext w e1).wf).wf e2
    · refine ⟨s, s1, w, e1, ?_, e2⟩
      rw [hnc k] at hc
      simpa using hc

/-- A round on a well-formed store that sets no flag of the store it leaves
does not change the objects. -/
theorem round_quiet {a : TypeAnalyzer} {fuel : Nat} {terms : List Term}
    {statements : List Statement} {s s1 : Types} (w : s.WF)
    (e : a.round fuel terms statements s = .ok s1) (hp : s1.probe.1 = false) :
    s1.heap = s.heap ∧ s1.keys = touchKeys s.keys (roundIds terms statements) ∧
    a.roundHeap fuel terms statements s.heap = .ok s.heap := by
  rw [round_eq_heap] at e
  obtain ⟨eh, ek⟩ := storeOf_ok e
  have hK : ∀ i ∈ roundIds terms statements, i ∈ s1.keys := by
    intro i hi
    rw [ek]
    exact (mem_touchKeys _ _ _).2 (Or.inr hi)
  have w1 : HeapWF (fun k => k ∈ s1.keys) s.heap :=
    HeapWF.wf_mono w (fun k hk => by rw [ek]; exact (mem_touchKeys _ _ _).2 (Or.inl hk))
  obtain ⟨_, _, hq⟩ := roundHeap_rel (flagged_stable fuel _) a terms statements hK _ _ w1 eh
  have hsame : s1.heap = s.heap := by
    rcases hq with hq | ⟨i, hi, hf⟩
    · exact hq
    · rw [Types.probe_false hp i hi] at hf
      cases hf
  refine ⟨hsame, ek, ?_⟩
  rw [eh, hsame]

/-- C6: if `analyze` returns and the token was never canceled, one more round
on the resulting store (the term rules forward and in reverse over the used
terms, the statement rules forward and in reverse) returns, changes no
attribute of any type, and the probe over the store reads false. -/
theorem fixed_point_idempotent (a : TypeAnalyzer) (fuel rounds : Nat) (function : Function)
    (canceled : Nat → Bool) (s s2 : Types) (w : s.WF) (hnc : ∀ k, canceled k = false)
    (e : a.analyze fuel rounds function canceled s = .ok s2) :
    ∃ s3, a.round fuel (a.usedTerms function) (a.census function).statements s2 = .ok s3 ∧
      s3.heap = s2.heap ∧ s3.probe.1 = false := by
  obtain ⟨t1, t3, e1, e3, e4⟩ := analyze_ok e
  have w3 : t3.WF := (unifyReturns_ext
    (sweep_ext _ (fun _ _ _ _ w e => seedTerm_ext w e) s t1 w e1).wf e3).wf
  obtain ⟨s0, s1, w0, er, hp, hs2⟩ := iterate_last hnc rounds 0 t3 s2 w3 e4
  obtain ⟨hsame, ek, eh⟩ := round_quiet w0 er hp
  have h2 : s2.heap = s0.heap := by rw [hs2, Types.probe_heap_of_false hp, hsame]
  have k2 : s2.keys = s1.keys := by rw [hs2]; rfl
  refine ⟨⟨s0.heap, touchKeys s2.keys
    (roundIds (a.usedTerms function) (a.census function).statements)⟩, ?_, h2.symm, ?_⟩
  · rw [round_eq_heap, h2, eh]
    rfl
  · apply List.any_eq_false.2
    intro k hk
    have hk1 : k ∈ s1.keys := by
      rcases (mem_touchKeys _ _ _).1 hk with hk | hk
      · rw [← k2]; exact hk
      · rw [ek]; exact (mem_touchKeys _ _ _).2 (Or.inr hk)
    have := Types.probe_false hp k hk1
    rw [hsame] at this
    simp [this]

/-- Witness of C6: after the analysis of `andExample` with a token that is
never canceled, one more round returns and its probe reads false. -/
theorem fixed_point_idempotent_witness :
    returned (andExample.round 1 (andExample.usedTerms (blockOf []))
      (andExample.census (blockOf [])).statements
      (resultStore (andExample.analyze 1 3 (blockOf []) (fun _ => false) Types.empty))) = true ∧
    (resultStore (andExample.round 1 (andExample.usedTerms (blockOf []))
      (andExample.census (blockOf [])).statements
      (resultStore (andExample.analyze 1 3 (blockOf []) (fun _ => false)
        Types.empty)))).probe.1 = false := by
  obtain ⟨s3, e3, _, hp⟩ := fixed_point_idempotent andExample 1 3 (blockOf [])
    (fun _ => false) Types.empty _ Types.empty_wf (fun _ => rfl)
    (eq_ok_of_returned andExample_returned)
  rw [e3]
  exact ⟨rfl, hp⟩

end TypeAnalyzer

/-! ## A measure that every change decreases -/

theorem dec_refl (U : List Nat) (h : Heap) : Dec U h h := Or.inl rfl

theorem dec_trans {U : List Nat} {h1 h2 h3 : Heap} (a : Dec U h1 h2) (b : Dec U h2 h3) :
    Dec U h1 h3 := by
  rcases b with e | b
  · rw [e]; exact a
  · rcases a with e | a
    · rw [e] at b; exact Or.inr b
    · right
      rcases a with a | ⟨a1, a2⟩ <;> rcases b with b | ⟨b1, b2⟩
      · left; omega
      · left; omega
      · left; omega
      · right; exact ⟨by omega, by omega⟩

theorem weight_pos (c : Type_) : 1 ≤ weight c := by
  unfold weight; omega

theorem weight_le (c : Type_) : weight c ≤ 7 := by
  unfold weight
  split <;> split <;> split <;> split <;> split <;> split <;> omega

theorem measure1_le (U : List Nat) (h : Heap) : measure1 U h ≤ 7 * U.length := by
  unfold measure1
  induction U with
  | nil => simp
  | cons x rest ih =>
    simp only [List.map_cons, List.sum_cons, List.length_cons]
    have : cost h x ≤ 7 := by
      unfold cost
      split
      · exact weight_le _
      · omega
    omega

theorem mem_le_sum (g : Nat → Nat) (U : List Nat) (a : Nat) (ha : a ∈ U) :
    g a ≤ (U.map g).sum := by
  induction U with
  | nil => cases ha
  | cons x rest ih =>
    simp only [List.map_cons, List.sum_cons]
    rcases List.mem_cons.1 ha with e | e
    · rw [e]; omega
    · have := ih e; omega

theorem two_le_sum (g : Nat → Nat) (U : List Nat) (a b : Nat) (hab : a ≠ b) (ha : a ∈ U)
    (hb : b ∈ U) (ga : 1 ≤ g a) (gb : 1 ≤ g b) : 2 ≤ (U.map g).sum := by
  induction U with
  | nil => cases ha
  | cons x rest ih =>
    simp only [List.map_cons, List.sum_cons]
    rcases List.mem_cons.1 ha with e1 | e1 <;> rcases List.mem_cons.1 hb with e2 | e2
    · exact absurd (e1.trans e2.symm) hab
    · have := mem_le_sum g rest b e2
      rw [e1] at ga
      omega
    · have := mem_le_sum g rest a e1
      rw [e2] at gb
      omega
    · have := ih e1 e2
      omega

/-- Overwriting a representative of `U` by a record of smaller weight, or of
the same weight and a smaller factor, decreases the measure. -/
theorem dec_set (U : List Nat) (h : Heap) (r : Nat) (hr : r ∈ U) (hroot : findSet h r = r)
    (c : Type_) (hp : c.parent_ = (h r).parent_)
    (hw : weight c < weight (h r) ∨ (weight c = weight (h r) ∧ c.factor_ < (h r).factor_)) :
    Dec U h (h.set r c) := by
  have hf : ∀ x, findSet (h.set r c) x = findSet h x := findSet_set h r c hp
  have hcost : ∀ i, cost (h.set r c) i = if i = r then weight c else cost h i := by
    intro i
    unfold cost
    rw [hf]
    by_cases hi : i = r
    · rw [hi, set_same, if_pos hroot, if_pos rfl]
    · rw [set_other h r i c hi, if_neg hi]
  have hstride : ∀ i, stride (h.set r c) i = if i = r then c.factor_ else stride h i := by
    intro i
    unfold stride
    rw [hf]
    by_cases hi : i = r
    · rw [hi, set_same, if_pos hroot, if_pos rfl]
    · rw [set_other h r i c hi, if_neg hi]
  have hcr : cost h r = weight (h r) := by unfold cost; rw [if_pos hroot]
  have hsr : stride h r = (h r).factor_ := by unfold stride; rw [if_pos hroot]
  right
  rcases hw with hw | ⟨hw1, hw2⟩
  · left
    unfold measure1
    apply List.sum_lt_sum
    · intro i _
      rw [hcost]
      split
      · next e => rw [e, hcr]; omega
      · exact le_refl _
    · exact ⟨r, hr, by rw [hcost, if_pos rfl, hcr]; exact hw⟩
  · right
    constructor
    · unfold measure1
      congr 1
      apply List.map_congr_left
      intro i _
      rw [hcost]
      split
      · next e => rw [e, hcr]; exact hw1
      · rfl
    · unfold measure2
      apply List.sum_lt_sum
      · intro i _
        rw [hstride]
        split
        · next e => rw [e, hsr]; omega
        · exact le_refl _
      · exact ⟨r, hr, by rw [hstride, if_pos rfl, hsr]; exact hw2⟩

theorem dec_bit (U : List Nat) (h : Heap) (r : Nat) (hr : r ∈ U) (hroot : findSet h r = r)
    (c : Type_) (hp : c.parent_ = (h r).parent_) (p : Prop) [Decidable p]
    (hw : ¬ p → weight c < weight (h r) ∨
      (weight c = weight (h r) ∧ c.factor_ < (h r).factor_)) :
    Dec U h (if p then h else h.set r c) := by
  split
  · exact dec_refl U h
  · next hn => exact dec_set U h r hr hroot c hp (hw hn)

theorem dec_makeInteger (U : List Nat) (h : Heap) (x : Nat) (hr : findSet h x ∈ U)
    (hroot : findSet h (findSet h x) = findSet h x) : Dec U h (makeInteger x h) := by
  unfold Type_.makeInteger
  split
  · exact dec_refl U h
  · next hn =>
    apply dec_set U h _ hr hroot
    · rfl
    · left
      simp only [weight]
      simp only [hn]
      simp

theorem dec_makePointer (U : List Nat) (h : Heap) (x : Nat) (hr : findSet h x ∈ U)
    (hroot : findSet h (findSet h x) = findSet h x) : Dec U h (makePointer x h) := by
  unfold Type_.makePointer
  split
  · exact dec_refl U h
  · next hn =>
    apply dec_set U h _ hr hroot
    · rfl
    · left
      simp only [weight]
      simp only [hn]
      simp

theorem dec_makeSigned (U : List Nat) (h : Heap) (x : Nat) (hr : findSet h x ∈ U)
    (hroot : findSet h (findSet h x) = findSet h x) : Dec U h (makeSigned x h) := by
  unfold Type_.makeSigned
  split
  · exact dec_refl U h
  · next hn =>
    apply dec_set U h _ hr hroot
    · rfl
    · left
      simp only [weight]
      simp only [hn]
      simp

theorem dec_makeUnsigned (U : List Nat) (h : Heap) (x : Nat) (hr : findSet h x ∈ U)
    (hroot : findSet h (findSet h x) = findSet h x) : Dec U h (makeUnsigned x h) := by
  unfold Type_.makeUnsigned
  split
  · exact dec_refl U h
  · next hn =>
    apply dec_set U h _ hr hroot
    · rfl
    · left
      simp only [weight]
      simp only [hn]
      simp

theorem dec_updateFactor (U : List Nat) (h : Heap) (x v : Nat) (hr : findSet h x ∈ U)
    (hroot : findSet h (findSet h x) = findSet h x) : Dec U h (updateFactor x v h) := by
  unfold Type_.updateFactor
  split
  · exact dec_refl U h
  next hn =>
  apply dec_set U h _ hr hroot
  · rfl
  by_cases hz : (h (findSet h x)).factor_ = 0
  · left
    have hg : Nat.gcd (h (findSet h x)).factor_ v ≠ 0 := by
      intro hg
      rw [hz] at hn
      rw [hz] at hg
      exact hn hg
    simp only [weight]
    simp only [hz, hg]
    simp
    intro hv
    apply hg
    rw [hz, hv]
    simp
  · right
    have hdvd := Nat.gcd_dvd_left (h (findSet h x)).factor_ v
    have hle := Nat.le_of_dvd (Nat.pos_of_ne_zero hz) hdvd
    have hg : Nat.gcd (h (findSet h x)).factor_ v ≠ 0 := by
      intro hg
      exact hz (Nat.eq_zero_of_gcd_eq_zero_left hg)
    constructor
    · simp only [weight]
      simp only [hz, hg]
    · simp only
      omega

theorem weight_mono (c d : Type_)
    (h1 : d.isInteger_ = true → c.isInteger_ = true)
    (h2 : d.isPointer_ = true → c.isPointer_ = true)
    (h3 : d.isSigned_ = true → c.isSigned_ = true)
    (h4 : d.isUnsigned_ = true → c.isUnsigned_ = true)
    (h5 : c.pointee_ = none → d.pointee_ = none)
    (h6 : c.factor_ = 0 → d.factor_ = 0) : weight c ≤ weight d := by
  unfold weight
  have a1 : (if c.isInteger_ = true then 0 else 1) ≤ (if d.isInteger_ = true then 0 else 1) := by
    by_cases e : d.isInteger_ = true
    · simp [e, h1 e]
    · simp only [e]; split <;> simp
  have a2 : (if c.isPointer_ = true then 0 else 1) ≤ (if d.isPointer_ = true then 0 else 1) := by
    by_cases e : d.isPointer_ = true
    · simp [e, h2 e]
    · simp only [e]; split <;> simp
  have a3 : (if c.isSigned_ = true then 0 else 1) ≤ (if d.isSigned_ = true then 0 else 1) := by
    by_cases e : d.isSigned_ = true
    · simp [e, h3 e]
    · simp only [e]; split <;> simp
  have a4 : (if c.isUnsigned_ = true then 0 else 1) ≤ (if d.isUnsigned_ = true then 0 else 1) := by
    by_cases e : d.isUnsigned_ = true
    · simp [e, h4 e]
    · simp only [e]; split <;> simp
  have a5 : (if c.pointee_ = none then 1 else 0) ≤ (if d.pointee_ = none then 1 else 0) := by
    by_cases e : c.pointee_ = none
    · simp [e, h5 e]
    · rw [if_neg e]; exact Nat.zero_le _
  have a6 : (if c.factor_ = 0 then 1 else 0) ≤ (if d.factor_ = 0 then 1 else 0) := by
    by_cases e : c.factor_ = 0
    · simp [e, h6 e]
    · rw [if_neg e]; exact Nat.zero_le _
  omega

/-- Linking two distinct representatives, the absorbed one in `U`, and joining
the attributes decreases the first component of the measure. -/
theorem measure1_linkJoin (U : List Nat) (h : Heap) (s o : Nat) (bump : Bool) (ho : o ∈ U)
    (hso : s ≠ o) (hs : findSet h s = s) (hro : findSet h o = o) :
    measure1 U (join (link h s o bump) s o) < measure1 U h := by
  have hf := findSet_linkJoin h s o bump
  have hle : ∀ i, cost (join (link h s o bump) s o) i ≤ cost h i := by
    intro i
    by_cases his : i = s
    · subst his
      unfold cost
      rw [hf, hs, if_neg hso, if_pos rfl, if_pos rfl]
      apply weight_mono
      · intro e; rw [join_isInteger, link_isInteger, link_isInteger, e]; rfl
      · intro e; rw [join_isPointer, link_isPointer, link_isPointer, e]; rfl
      · intro e; rw [join_isSigned, link_isSigned, link_isSigned, e]; rfl
      · intro e; rw [join_isUnsigned, link_isUnsigned, link_isUnsigned, e]; rfl
      · intro e; rw [join_pointee, link_pointee] at e; exact e
      · intro e
        rw [join_factor, link_factor, link_factor] at e
        exact Nat.eq_zero_of_gcd_eq_zero_left e
    · unfold cost
      rw [hf, join_other _ s o i his]
      by_cases hio : findSet h i = o
      · rw [if_pos hio, if_neg (fun e => his e.symm)]
        exact Nat.zero_le _
      · rw [if_neg hio]
        split
        · exact le_refl _
        · exact le_refl _
  have hlt : cost (join (link h s o bump) s o) o < cost h o := by
    unfold cost
    rw [hf, hro, if_pos rfl, if_neg hso, if_pos rfl]
    exact weight_pos _
  unfold measure1
  exact List.sum_lt_sum _ _ (fun i _ => hle i) ⟨o, ho, hlt⟩

theorem dec_setPointee {U : List Nat} {unify : Heap → Nat → Nat → Except Failure Heap}
    (hu : ∀ h a b h2, HeapWF (fun k => k ∈ U) h → a ∈ U → b ∈ U → unify h a b = .ok h2 →
      Dec U h h2)
    {h : Heap} (w : HeapWF (fun k => k ∈ U) h) (r p : Nat) (hr : r ∈ U)
    (hroot : findSet h r = r) (hp : p ∈ U) (h2 : Heap)
    (e : setPointee unify h r p = .ok h2) : Dec U h h2 := by
  unfold Type_.setPointee at e
  split at e
  · next q hq => exact hu _ _ _ _ w (w.pointee_mem r q hr hq) hp e
  · next hq =>
    injection e with e
    subst e
    apply dec_set U h r hr hroot
    · rfl
    · left
      simp only [weight]
      simp only [hq]
      simp

theorem dec_unionSet {U : List Nat} (fuel : Nat) : ∀ (h : Heap) (a b : Nat) (h2 : Heap),
    HeapWF (fun k => k ∈ U) h → a ∈ U → b ∈ U → unionSet fuel h a b = .ok h2 → Dec U h h2 := by
  induction fuel with
  | zero =>
    intro h a b h2 w _ _ e
    unfold Type_.unionSet at e
    split at e
    · injection e with e; subst e; exact dec_refl U h
    · cases e
  | succ n ih =>
    intro h a b h2 w ha hb e
    unfold Type_.unionSet at e
    split at e
    · injection e with e; subst e; exact dec_refl U h
    · next hne =>
      simp only at e
      have hA := w.parent_mem a ha
      have hB := w.parent_mem b hb
      have key : ∀ (s o : Nat) (bump : Bool), s ∈ U → o ∈ U → findSet h s = s →
          findSet h o = o → s ≠ o →
          (match (join (link h s o bump) s o o).pointee_ with
            | none => Except.ok (join (link h s o bump) s o)
            | some po => Type_.setPointee (Type_.unionSet n) (join (link h s o bump) s o) s po)
            = .ok h2 → Dec U h h2 := by
        intro s o bump hs ho hroot hro hso e
        have w1 := w.wf_linkJoin s o bump hs ho hroot
        have d1 : Dec U h (join (link h s o bump) s o) :=
          Or.inr (Or.inl (measure1_linkJoin U h s o bump ho hso hroot hro))
        have hroot1 : findSet (join (link h s o bump) s o) s = s := by
          rw [findSet_linkJoin, hroot, if_neg hso]
        split at e
        · injection e with e; subst e; exact d1
        · next po hpo =>
          exact dec_trans d1
            (dec_setPointee ih w1 s po hs hroot1 (w1.pointee_mem o po ho hpo) h2 e)
      by_cases hlt : (h (findSet h a)).rank_ < (h (findSet h b)).rank_
      · simp only [hlt, if_true] at e
        exact key _ _ _ hB hA (w.idem b) (w.idem a) (fun e => hne e.symm) e
      · simp only [hlt, if_false] at e
        exact key _ _ _ hA hB (w.idem a) (w.idem b) hne e

theorem dec_makePointerTo {U : List Nat} {fuel : Nat} {x : Nat} {p : Option Nat}
    {h h2 : Heap} (w : HeapWF (fun k => k ∈ U) h) (hx : x ∈ U) (hp : ∀ q, p = some q → q ∈ U)
    (e : makePointerTo fuel x p h = .ok h2) : Dec U h h2 := by
  have d1 : Dec U h (makePointer x h) := dec_makePointer U h x (w.parent_mem x hx) (w.idem x)
  unfold Type_.makePointerTo at e
  split at e
  · injection e with e
    subst e
    exact d1
  · next q =>
    have hroot : findSet (makePointer x h) (findSet h x) = findSet h x := by
      rw [findSet_makePointer]; exact w.idem x
    exact dec_trans d1 (dec_setPointee (dec_unionSet fuel) (w.wf_makePointer x hx)
      _ q (w.parent_mem x hx) hroot (hp q rfl) h2 e)

/-- Along every piece of code of the rules, either nothing changes or the
measure decreases. -/
theorem dec_stable (fuel : Nat) (U : List Nat) : Stable fuel (fun k => k ∈ U) (Dec U) := by
  refine ⟨dec_refl U, fun _ _ _ => dec_trans, ?_⟩
  intro a wa
  induction wa with
  | skip => intro h h2 _ e; injection e with e; subst e; exact dec_refl U h
  | fail => intro h h2 _ e; cases e
  | makeInteger hx =>
    intro h h2 hw e; injection e with e; subst e
    exact dec_makeInteger U h _ (hw.parent_mem _ hx) (hw.idem _)
  | makePointer hx =>
    intro h h2 hw e; injection e with e; subst e
    exact dec_makePointer U h _ (hw.parent_mem _ hx) (hw.idem _)
  | makeSigned hx =>
    intro h h2 hw e; injection e with e; subst e
    exact dec_makeSigned U h _ (hw.parent_mem _ hx) (hw.idem _)
  | makeUnsigned hx =>
    intro h h2 hw e; injection e with e; subst e
    exact dec_makeUnsigned U h _ (hw.parent_mem _ hx) (hw.idem _)
  | updateFactor v hx =>
    intro h h2 hw e; injection e with e; subst e
    exact dec_updateFactor U h _ _ (hw.parent_mem _ hx) (hw.idem _)
  | makePointerTo hx hl =>
    intro h h2 hw e
    exact dec_makePointerTo hw hx (fun q hq => hw.pointee_mem _ q (hw.parent_mem _ hl) hq) e
  | makePointerSome hx hp =>
    intro h h2 hw e
    exact dec_makePointerTo hw hx (fun q hq => by injection hq with hq; rw [← hq]; exact hp) e
  | unionSet ha hb => intro h h2 hw e; exact dec_unionSet _ h _ _ h2 hw ha hb e
  | seqNil => intro h h2 _ e; injection e with e; subst e; exact dec_refl U h
  | seqCons wa1 _ iha ihr =>
    intro h h2 hw e
    obtain ⟨h1, e1, e2⟩ := seq_cons_ok e
    exact dec_trans (iha h h1 hw e1) (ihr h1 h2 (wa1.wf h h1 hw e1) e2)
  | when c _ iha =>
    intro h h2 hw e
    unfold Action.when at e
    split at e
    · exact iha h h2 hw e
    · injection e with e; subst e; exact dec_refl U h
  | ifElse c _ _ iha ihb =>
    intro h h2 hw e
    unfold Action.ifElse at e
    split at e
    · exact iha h h2 hw e
    · exact ihb h h2 hw e

/-! ## Enough fuel -/

theorem cost_root_pos (h : Heap) (r : Nat) (hroot : findSet h r = r) : 1 ≤ cost h r := by
  unfold cost
  rw [if_pos hroot]
  exact weight_pos _

/-- A union returns if the fuel is at least the measure less one. -/
theorem unionSet_returns {U : List Nat} (n : Nat) : ∀ (h : Heap) (a b : Nat),
    HeapWF (fun k => k ∈ U) h → a ∈ U → b ∈ U → measure1 U h ≤ n + 1 →
    ∃ h2, unionSet n h a b = .ok h2 := by
  induction n with
  | zero =>
    intro h a b w ha hb hm
    unfold Type_.unionSet
    by_cases hsame : findSet h a = findSet h b
    · rw [if_pos hsame]; exact ⟨h, rfl⟩
    · have := two_le_sum (cost h) U _ _ hsame (w.parent_mem a ha) (w.parent_mem b hb)
        (cost_root_pos h _ (w.idem a)) (cost_root_pos h _ (w.idem b))
      unfold measure1 at hm
      omega
  | succ n ih =>
    intro h a b w ha hb hm
    unfold Type_.unionSet
    by_cases hsame : findSet h a = findSet h b
    · rw [if_pos hsame]; exact ⟨h, rfl⟩
    · rw [if_neg hsame]
      simp only
      have hA := w.parent_mem a ha
      have hB := w.parent_mem b hb
      have key : ∀ (s o : Nat) (bump : Bool), s ∈ U → o ∈ U → findSet h s = s →
          findSet h o = o → s ≠ o →
          ∃ h2, (match (join (link h s o bump) s o o).pointee_ with
            | none => Except.ok (join (link h s o bump) s o)
            | some po => Type_.setPointee (Type_.unionSet n) (join (link h s o bump) s o) s po)
            = .ok h2 := by
        intro s o bump hs ho hroot hro hso
        have w1 := w.wf_linkJoin s o bump hs ho hroot
        have hlt := measure1_linkJoin U h s o bump ho hso hroot hro
        cases hpo : (join (link h s o bump) s o o).pointee_ with
        | none => exact ⟨_, rfl⟩
        | some po =>
          simp only
          unfold Type_.setPointee
          cases hq : (join (link h s o bump) s o s).pointee_ with
          | none => exact ⟨_, rfl⟩
          | some q =>
            simp only
            exact ih _ q po w1 (w1.pointee_mem s q hs hq) (w1.pointee_mem o po ho hpo)
              (by omega)
      by_cases hlt : (h (findSet h a)).rank_ < (h (findSet h b)).rank_
      · simp only [hlt, if_true]
        exact key _ _ _ hB hA (w.idem b) (w.idem a) (fun e => hsame e.symm)
      · simp only [hlt, if_false]
        exact key _ _ _ hA hB (w.idem a) (w.idem b) hsame

theorem makePointerTo_returns {U : List Nat} {fuel : Nat} (hU : 7 * U.length ≤ fuel + 1)
    {x : Nat} {p : Option Nat} {h : Heap} (w : HeapWF (fun k => k ∈ U) h) (hx : x ∈ U)
    (hp : ∀ q, p = some q → q ∈ U) : ∃ h2, makePointerTo fuel x p h = .ok h2 := by
  unfold Type_.makePointerTo
  cases p with
  | none => exact ⟨_, rfl⟩
  | some q =>
    simp only
    unfold Type_.setPointee
    have w1 := w.wf_makePointer x hx
    cases hq : (makePointer x h (findSet h x)).pointee_ with
    | none => exact ⟨_, rfl⟩
    | some q2 =>
      simp only
      exact unionSet_returns fuel _ q2 q w1 (w1.pointee_mem _ q2 (w.parent_mem x hx) hq)
        (hp q rfl) (le_trans (measure1_le U _) hU)

/-- With enough fuel, no piece of code of the rules runs out of fuel. -/
theorem Wired.no_fuel {fuel : Nat} {U : List Nat} (hU : 7 * U.length ≤ fuel + 1) {a : Action}
    (wa : Wired fuel (fun k => k ∈ U) a) :
    ∀ h, HeapWF (fun k => k ∈ U) h → a h ≠ .error .fuel := by
  induction wa with
  | skip => intro h _ e; cases e
  | fail => intro h _ e; cases e
  | makeInteger _ => intro h _ e; cases e
  | makePointer _ => intro h _ e; cases e
  | makeSigned _ => intro h _ e; cases e
  | makeUnsigned _ => intro h _ e; cases e
  | updateFactor _ _ => intro h _ e; cases e
  | makePointerTo hx hl =>
    intro h w e
    obtain ⟨h2, e2⟩ := makePointerTo_returns hU w hx
      (fun q hq => w.pointee_mem _ q (w.parent_mem _ hl) hq)
    cases e2.symm.trans e
  | makePointerSome hx hp =>
    intro h w e
    obtain ⟨h2, e2⟩ := @makePointerTo_returns U fuel hU _ (some _) h w hx
      (fun q hq => by injection hq with hq; rw [← hq]; exact hp)
    cases e2.symm.trans e
  | unionSet ha hb =>
    intro h w e
    obtain ⟨h2, e2⟩ := unionSet_returns fuel h _ _ w ha hb (le_trans (measure1_le U _) hU)
    cases e2.symm.trans e
  | seqNil => intro h _ e; cases e
  | seqCons wa1 _ iha ihr =>
    intro h w e
    unfold seq at e
    cases h1 : (‹Action› h) with
    | ok h2 =>
      rw [h1] at e
      exact ihr h2 (wa1.wf h h2 w h1) e
    | error e2 =>
      rw [h1] at e
      simp only at e
      injection e with e
      rw [e] at h1
      exact iha h w h1
  | when c _ iha =>
    intro h w e
    unfold Action.when at e
    split at e
    · exact iha h w e
    · cases e
  | ifElse c _ _ iha ihb =>
    intro h w e
    unfold Action.ifElse at e
    split at e
    · exact iha h w e
    · exact ihb h w e

/-! ## Termination of the loop -/

theorem sweepHeap_no_fuel {α : Type} {K : Nat → Prop} {step : Heap → α → Except Failure Heap}
    (l : List α)
    (hnf : ∀ x ∈ l, ∀ h, HeapWF K h → step h x ≠ .error .fuel)
    (hwf : ∀ x ∈ l, ∀ h h2, HeapWF K h → step h x = .ok h2 → HeapWF K h2) :
    ∀ h, HeapWF K h → sweepHeap step l h ≠ .error .fuel := by
  induction l with
  | nil => intro h _ e; cases e
  | cons x rest ih =>
    intro h w e
    unfold sweepHeap at e
    cases h1 : step h x with
    | ok h2 =>
      rw [h1] at e
      exact ih (fun y hy => hnf y (List.mem_cons_of_mem _ hy))
        (fun y hy => hwf y (List.mem_cons_of_mem _ hy)) h2
        (hwf x (List.mem_cons_self _ _) h h2 w h1) e
    | error e2 =>
      rw [h1] at e
      simp only at e
      injection e with e
      rw [e] at h1
      exact hnf x (List.mem_cons_self _ _) h w h1

theorem trivial_stable (fuel : Nat) (K : Nat → Prop) : Stable fuel K (fun _ _ => True) :=
  ⟨fun _ => trivial, fun _ _ _ _ _ => trivial, fun _ _ _ _ _ _ => trivial⟩

namespace TypeAnalyzer

open Type_ Action

theorem termStep_no_fuel {fuel : Nat} {U : List Nat} (hU : 7 * U.length ≤ fuel + 1)
    (a : TypeAnalyzer) (term : Term) (hids : ∀ i ∈ termIds term, i ∈ U) (h : Heap)
    (w : HeapWF (fun k => k ∈ U) h) : a.termStep fuel h term ≠ .error .fuel :=
  (termAction_wired a fuel _ h term (fun i hi => w.parent_mem i (hids i hi))).no_fuel hU h w

theorem statementStep_no_fuel {fuel : Nat} {U : List Nat} (hU : 7 * U.length ≤ fuel + 1)
    (statement : Statement) (hids : ∀ i ∈ statementIds statement, i ∈ U) (h : Heap)
    (w : HeapWF (fun k => k ∈ U) h) : statementStep fuel h statement ≠ .error .fuel :=
  (statementAction_wired fuel _ h statement (fun i hi => w.parent_mem i (hids i hi))).no_fuel
    hU h w

/-- With enough fuel a round does not run out of fuel. -/
theorem roundHeap_no_fuel {fuel : Nat} {U : List Nat} (hU : 7 * U.length ≤ fuel + 1)
    (a : TypeAnalyzer) (terms : List Term) (statements : List Statement)
    (hids : ∀ i ∈ roundIds terms statements, i ∈ U) (h : Heap)
    (w : HeapWF (fun k => k ∈ U) h) : a.roundHeap fuel terms statements h ≠ .error .fuel := by
  have st := trivial_stable fuel (fun k => k ∈ U)
  have ht1 : ∀ t ∈ terms, ∀ h, HeapWF (fun k => k ∈ U) h → a.termStep fuel h t ≠ .error .fuel :=
    fun t hm => termStep_no_fuel hU a t (fun i hi => hids i (mem_roundIds_term hm hi))
  have ht2 : ∀ t ∈ terms, ∀ h h2, HeapWF (fun k => k ∈ U) h → a.termStep fuel h t = .ok h2 →
      HeapWF (fun k => k ∈ U) h2 :=
    fun t hm h h2 w e =>
      (termStep_rel st a t (fun i hi => hids i (mem_roundIds_term hm hi)) h h2 w e).1
  have hs1 : ∀ t ∈ statements, ∀ h, HeapWF (fun k => k ∈ U) h →
      statementStep fuel h t ≠ .error .fuel :=
    fun t hm => statementStep_no_fuel hU t (fun i hi => hids i (mem_roundIds_statement hm hi))
  have hs2 : ∀ t ∈ statements, ∀ h h2, HeapWF (fun k => k ∈ U) h →
      statementStep fuel h t = .ok h2 → HeapWF (fun k => k ∈ U) h2 :=
    fun t hm h h2 w e =>
      (statementStep_rel st t (fun i hi => hids i (mem_roundIds_statement hm hi)) h h2 w e).1
  have hw : ∀ {α : Type} {step : Heap → α → Except Failure Heap} (l : List α),
      (∀ x ∈ l, ∀ h h2, HeapWF (fun k => k ∈ U) h → step h x = .ok h2 →
        HeapWF (fun k => k ∈ U) h2) →
      ∀ h h2, HeapWF (fun k => k ∈ U) h → sweepHeap step l h = .ok h2 →
        HeapWF (fun k => k ∈ U) h2 :=
    fun l hl h h2 w e =>
      (@sweepHeap_rel _ _ (fun _ _ => True) (fun _ => trivial) (fun _ _ _ _ _ => trivial) _ l
        (fun x hx h h2 w e => ⟨hl x hx h h2 w e, trivial⟩) h h2 w e).1
  intro e
  unfold roundHeap at e
  cases e1 : sweepHeap (a.termStep fuel) terms h with
  | error x =>
    rw [e1] at e
    simp only at e
    injection e with e
    rw [e] at e1
    exact sweepHeap_no_fuel terms ht1 ht2 h w e1
  | ok h1 =>
    rw [e1] at e
    simp only at e
    have w1 := hw terms ht2 h h1 w e1
    cases e2 : sweepHeap (a.termStep fuel) terms.reverse h1 with
    | error x =>
      rw [e2] at e
      simp only at e
      injection e with e
      rw [e] at e2
      exact sweepHeap_no_fuel terms.reverse (fun t hm => ht1 t (List.mem_reverse.1 hm))
        (fun t hm => ht2 t (List.mem_reverse.1 hm)) h1 w1 e2
    | ok h2 =>
      rw [e2] at e
      simp only at e
      have w2 := hw terms.reverse (fun t hm => ht2 t (List.mem_reverse.1 hm)) h1 h2 w1 e2
      cases e3 : sweepHeap (statementStep fuel) statements h2 with
      | error x =>
        rw [e3] at e
        simp only at e
        injection e with e
        rw [e] at e3
        exact sweepHeap_no_fuel statements hs1 hs2 h2 w2 e3
      | ok h3 =>
        rw [e3] at e
        simp only at e
        have w3 := hw statements hs2 h2 h3 w2 e3
        exact sweepHeap_no_fuel statements.reverse (fun t hm => hs1 t (List.mem_reverse.1 hm))
          (fun t hm => hs2 t (List.mem_reverse.1 hm)) h3 w3 e

end TypeAnalyzer

theorem Types.probe_cost (s : Types) (i : Nat) : cost s.probe.2.heap i = cost s.heap i := by
  unfold cost findSet
  rw [Types.probe_heap_parent]
  have : weight (s.probe.2.heap i) = weight (s.heap i) := by
    show weight (if i ∈ s.keys then { s.heap i with changed_ := false } else s.heap i) = _
    split <;> rfl
  rw [this]

theorem Types.probe_stride (s : Types) (i : Nat) : stride s.probe.2.heap i = stride s.heap i := by
  unfold stride findSet
  rw [Types.probe_heap_parent]
  have : (s.probe.2.heap i).factor_ = (s.heap i).factor_ := by
    show (if i ∈ s.keys then { s.heap i with changed_ := false } else s.heap i).factor_ = _
    split <;> rfl
  rw [this]

theorem Types.probe_measure1 (U : List Nat) (s : Types) :
    measure1 U s.probe.2.heap = measure1 U s.heap := by
  unfold measure1
  congr 1
  exact List.map_congr_left (fun i _ => s.probe_cost i)

theorem Types.probe_measure2 (U : List Nat) (s : Types) :
    measure2 U s.probe.2.heap = measure2 U s.heap := by
  unfold measure2
  congr 1
  exact List.map_congr_left (fun i _ => s.probe_stride i)

theorem Types.probe_cleared (s : Types) (j : Nat) (hj : j ∈ s.keys) :
    (s.probe.2.heap j).changed_ = false := by
  show (if j ∈ s.keys then { s.heap j with changed_ := false } else s.heap j).changed_ = false
  rw [if_pos hj]

namespace TypeAnalyzer

open Type_ Action

/-- From a settled store, with a token that is never canceled and enough fuel,
the loop stops after finitely many rounds. -/
theorem iterate_terminates {a : TypeAnalyzer} {fuel : Nat} {canceled : Nat → Bool}
    {terms : List Term} {statements : List Statement} (U : List Nat)
    (hU : 7 * U.length ≤ fuel + 1) (hnc : ∀ k, canceled k = false) :
    ∀ (n1 n2 : Nat) (s : Types) (k : Nat), Settled U terms statements s →
      measure1 U s.heap = n1 → measure2 U s.heap = n2 →
      ∃ rounds, a.iterate fuel canceled terms statements rounds k s ≠ .error .fuel := by
  intro n1
  induction n1 using Nat.strong_induction_on with
  | _ n1 ih1 =>
    intro n2
    induction n2 using Nat.strong_induction_on with
    | _ n2 ih2 =>
      intro s k st hm1 hm2
      have hidsU : ∀ i ∈ roundIds terms statements, i ∈ U :=
        fun i hi => st.keys_mem i (st.ids_mem i hi)
      have wU : HeapWF (fun k => k ∈ U) s.heap := HeapWF.wf_mono st.wf st.keys_mem
      cases hr : a.roundHeap fuel terms statements s.heap with
      | error e =>
        refine ⟨1, ?_⟩
        unfold iterate
        rw [round_eq_heap, hr]
        simp only [storeOf]
        intro he
        injection he with he
        rw [he] at hr
        exact roundHeap_no_fuel hU a terms statements hidsU s.heap wU hr
      | ok h1 =>
        have hround : a.round fuel terms statements s
            = .ok ⟨h1, touchKeys s.keys (roundIds terms statements)⟩ := by
          rw [round_eq_heap, hr]
          rfl
        obtain ⟨_, hdec⟩ := roundHeap_rel (dec_stable fuel U) a terms statements hidsU _ _ wU hr
        have x1 := round_ext st.wf hround
        have hkeys : ∀ j, j ∈ touchKeys s.keys (roundIds terms statements) ↔ j ∈ s.keys := by
          intro j
          rw [mem_touchKeys]
          constructor
          · rintro (hj | hj)
            · exact hj
            · exact st.ids_mem j hj
          · exact fun hj => Or.inl hj
        by_cases hp : (Types.mk h1 (touchKeys s.keys (roundIds terms statements))).probe.1 = true
        · have hiter : ∀ rounds, a.iterate fuel canceled terms statements (rounds + 1) k s
              = a.iterate fuel canceled terms statements rounds (k + 1)
                  (Types.mk h1 (touchKeys s.keys (roundIds terms statements))).probe.2 := by
            intro rounds
            conv => lhs; unfold iterate
            rw [hround]
            simp only [hp, hnc k]
            rfl
          have hlt : measure1 U h1 < n1 ∨ (measure1 U h1 = n1 ∧ measure2 U h1 < n2) := by
            rcases hdec with e | d
            · exfalso
              have hfalse : (Types.mk h1
                  (touchKeys s.keys (roundIds terms statements))).probe.1 = false := by
                apply List.any_eq_false.2
                intro j hj
                have := st.clear j ((hkeys j).1 hj)
                rw [e]
                simp [this]
              rw [hfalse] at hp
              cases hp
            · rw [hm1, hm2] at d
              exact d
          have st1 : Settled U terms statements
              (Types.mk h1 (touchKeys s.keys (roundIds terms statements))).probe.2 :=
            ⟨(Types.probe_ext x1.wf).wf,
             fun j hj => st.keys_mem j ((hkeys j).1 hj),
             fun i hi => (hkeys i).2 (st.ids_mem i hi),
             fun j hj => Types.probe_cleared _ j hj⟩
          rcases hlt with hlt | ⟨heq, hlt⟩
          · obtain ⟨r, hr2⟩ := ih1 (measure1 U h1) hlt (measure2 U h1) _ (k + 1) st1
              (Types.probe_measure1 U _) (Types.probe_measure2 U _)
            exact ⟨r + 1, by rw [hiter]; exact hr2⟩
          · obtain ⟨r, hr2⟩ := ih2 (measure2 U h1) hlt _ (k + 1) st1
              ((Types.probe_measure1 U _).trans heq) (Types.probe_measure2 U _)
            exact ⟨r + 1, by rw [hiter]; exact hr2⟩
        · refine ⟨1, ?_⟩
          unfold iterate
          rw [hround]
          simp only [hp]
          intro he
          cases he

end TypeAnalyzer

theorem sweep_returns {α : Type} {f : Types → α → Except Failure Types} {P : Types → Prop}
    (l : List α) (hf : ∀ x ∈ l, ∀ s, P s → ∃ s2, f s x = .ok s2 ∧ P s2) :
    ∀ s, P s → ∃ s2, sweep f l s = .ok s2 ∧ P s2 := by
  induction l with
  | nil => exact fun s hs => ⟨s, rfl, hs⟩
  | cons x rest ih =>
    intro s hs
    obtain ⟨s1, e1, p1⟩ := hf x (List.mem_cons_self _ _) s hs
    obtain ⟨s2, e2, p2⟩ := ih (fun y hy => hf y (List.mem_cons_of_mem _ hy)) s1 p1
    refine ⟨s2, ?_, p2⟩
    unfold sweep
    rw [e1]
    exact e2

namespace TypeAnalyzer

open Type_ Action

theorem unifyTerms_returns {U : List Nat} {fuel : Nat} (hU : 7 * U.length ≤ fuel + 1)
    {s : Types} {x y : Nat} (hs : Fits U s) (hx : x ∈ U) (hy : y ∈ U) :
    ∃ s2, unifyTerms fuel s x y = .ok s2 ∧ Fits U s2 := by
  have wU : HeapWF (fun k => k ∈ U) s.heap := HeapWF.wf_mono hs.1 hs.2
  obtain ⟨h2, e2⟩ := unionSet_returns fuel s.heap (findSet s.heap x) (findSet s.heap y) wU
    (wU.parent_mem x hx) (wU.parent_mem y hy) (le_trans (measure1_le U _) hU)
  have e : unifyTerms fuel s x y = .ok ⟨h2, touchKeys s.keys [x, y]⟩ := by
    rw [unifyTerms_eq, Types.run_touchAll]
    simp only [e2]
    rfl
  refine ⟨_, e, (unifyTerms_ext hs.1 e).wf, ?_⟩
  intro j hj
  rcases (mem_touchKeys _ _ _).1 hj with hj | hj
  · exact hs.2 j hj
  · simp only [List.mem_cons, List.mem_singleton, List.not_mem_nil, or_false] at hj
    rcases hj with hj | hj
    · rw [hj]; exact hx
    · rw [hj]; exact hy

theorem seedTerm_returns {U : List Nat} {fuel : Nat} (hU : 7 * U.length ≤ fuel + 1)
    (a : TypeAnalyzer) {s : Types} {term : Term} (hs : Fits U s) (ht : term.id ∈ U)
    (hd : ∀ c ∈ a.dataflow.getDefinitions term.id, ∀ d ∈ c.definitions, d ∈ U) :
    ∃ s2, a.seedTerm fuel s term = .ok s2 ∧ Fits U s2 := by
  unfold seedTerm
  split
  · split
    · next chunk hc =>
      split
      · exact sweep_returns chunk.definitions
          (fun d hdm s hs => unifyTerms_returns hU hs ht
            (hd chunk (by rw [hc]; exact List.mem_singleton.2 rfl) d hdm)) s hs
      · exact ⟨s, rfl, hs⟩
    · exact ⟨s, rfl, hs⟩
  · exact ⟨s, rfl, hs⟩

theorem unifyReturnsLoop_returns {U : List Nat} {fuel : Nat} (hU : 7 * U.length ≤ fuel + 1)
    (callsData : CallsData) (function : Function) (returnValue : Nat) (l : List Statement)
    (hl : ∀ ret ∈ l, ∀ ra, callsData.getReturnAnalyzer function ret = some ra →
      ra.getReturnValueTerm returnValue ∈ U) :
    ∀ (first : Option Nat) (s : Types), Fits U s → (∀ f0, first = some f0 → f0 ∈ U) →
      ∃ s2, unifyReturnsLoop callsData fuel function returnValue l first s = .ok s2 ∧
        Fits U s2 := by
  induction l with
  | nil => exact fun first s hs _ => ⟨s, rfl, hs⟩
  | cons ret rest ih =>
    intro first s hs hfirst
    have hrest : ∀ r ∈ rest, ∀ ra, callsData.getReturnAnalyzer function r = some ra →
        ra.getReturnValueTerm returnValue ∈ U := fun r hr => hl r (List.mem_cons_of_mem _ hr)
    unfold unifyReturnsLoop
    cases hra : callsData.getReturnAnalyzer function ret with
    | none => exact ih hrest first s hs hfirst
    | some ra =>
      have hterm := hl ret (List.mem_cons_self _ _) ra hra
      cases first with
      | none =>
        exact ih hrest _ s hs (fun f0 hf => by injection hf with hf; rw [← hf]; exact hterm)
      | some f0 =>
        simp only
        obtain ⟨s1, e1, p1⟩ := @unifyTerms_returns U fuel hU s _ _ hs (hfirst f0 rfl) hterm
        rw [e1]
        exact ih hrest _ s1 p1 hfirst

theorem unifyReturns_returns {U : List Nat} {fuel : Nat} (hU : 7 * U.length ≤ fuel + 1)
    (a : TypeAnalyzer) (function : Function) {s : Types} (hs : Fits U s)
    (hr : ∀ i ∈ a.returnIds function, i ∈ U) :
    ∃ s2, a.unifyReturns fuel function s = .ok s2 ∧ Fits U s2 := by
  unfold unifyReturns
  unfold returnIds at hr
  cases hc : a.callsData with
  | none => exact ⟨s, rfl, hs⟩
  | some callsData =>
    rw [hc] at hr
    simp only at hr ⊢
    cases hsig : callsData.getFunctionSignature function with
    | none => exact ⟨s, rfl, hs⟩
    | some signature =>
      rw [hsig] at hr
      simp only at hr ⊢
      cases hv : signature.returnValue with
      | none => exact ⟨s, rfl, hs⟩
      | some returnValue =>
        rw [hv] at hr
        simp only at hr ⊢
        refine unifyReturnsLoop_returns hU callsData function returnValue _ ?_ none s hs
          (fun f0 hf => Option.noConfusion hf)
        intro ret hret ra hra
        apply hr
        refine List.mem_flatMap.2 ⟨ret, hret, ?_⟩
        rw [hra]
        exact List.mem_singleton.2 rfl

/-- From any well-formed store whose terms, with those of a round, are in `U`,
with a token that is never canceled and enough fuel, the loop stops after
finitely many rounds. -/
theorem iterate_terminates_first {a : TypeAnalyzer} {fuel : Nat} {canceled : Nat → Bool}
    {terms : List Term} {statements : List Statement} (U : List Nat)
    (hU : 7 * U.length ≤ fuel + 1) (hnc : ∀ k, canceled k = false)
    (hids : ∀ i ∈ roundIds terms statements, i ∈ U) (s : Types) (hs : Fits U s) :
    ∃ rounds, a.iterate fuel canceled terms statements rounds 0 s ≠ .error .fuel := by
  have wU : HeapWF (fun k => k ∈ U) s.heap := HeapWF.wf_mono hs.1 hs.2
  cases hr : a.roundHeap fuel terms statements s.heap with
  | error e =>
    refine ⟨1, ?_⟩
    unfold iterate
    rw [round_eq_heap, hr]
    simp only [storeOf]
    intro he
    injection he with he
    rw [he] at hr
    exact roundHeap_no_fuel hU a terms statements hids s.heap wU hr
  | ok h1 =>
    have hround : a.round fuel terms statements s
        = .ok ⟨h1, touchKeys s.keys (roundIds terms statements)⟩ := by
      rw [round_eq_heap, hr]
      rfl
    have x1 := round_ext hs.1 hround
    by_cases hp : (Types.mk h1 (touchKeys s.keys (roundIds terms statements))).probe.1 = true
    · have st1 : Settled U terms statements
          (Types.mk h1 (touchKeys s.keys (roundIds terms statements))).probe.2 :=
        ⟨(Types.probe_ext x1.wf).wf,
         fun j hj => by
           rcases (mem_touchKeys _ _ _).1 hj with hj | hj
           · exact hs.2 j hj
           · exact hids j hj,
         fun i hi => (mem_touchKeys _ _ _).2 (Or.inr hi),
         fun j hj => Types.probe_cleared _ j hj⟩
      obtain ⟨r, hr2⟩ := @iterate_terminates a fuel canceled terms statements U hU hnc _ _ _ 1 st1 rfl rfl
      refine ⟨r + 1, ?_⟩
      unfold iterate
      rw [hround]
      simp only [hp, hnc 0]
      exact hr2
    · refine ⟨1, ?_⟩
      unfold iterate
      rw [hround]
      simp only [hp]
      intro he
      cases he

/-- C7: for every function, every oracles and every well-formed store, with a
cancellation token that is never canceled, the do-while loop of `analyze`
performs only finitely many rounds: with enough fuel the analysis does not run
out of fuel; it reaches `unreachable()`, or it returns the store of a round
after which the probe read no `changed` flag. -/
theorem analysis_terminates (a : TypeAnalyzer) (function : Function) (canceled : Nat → Bool)
    (s : Types) (w : s.WF) (hnc : ∀ k, canceled k = false) :
    ∃ fuel rounds, a.analyze fuel rounds function canceled s = .error .unreachable ∨
      ∃ s0 s1, a.round fuel (a.usedTerms function) (a.census function).statements s0 = .ok s1 ∧
        s1.probe.1 = false ∧ a.analyze fuel rounds function canceled s = .ok s1.probe.2 := by
  have hU : 7 * (a.allIds function s).length ≤ 7 * (a.allIds function s).length + 1 := by omega
  have hmem : ∀ i, i ∈ a.allIds function s ↔ i ∈ s.keys ∨ i ∈ a.seedIds function ∨
      i ∈ a.returnIds function ∨
      i ∈ roundIds (a.usedTerms function) (a.census function).statements := by
    intro i
    unfold allIds
    simp only [List.mem_append]
  have hs : Fits (a.allIds function s) s := ⟨w, fun j hj => (hmem j).2 (Or.inl hj)⟩
  obtain ⟨s1, e1, p1⟩ := sweep_returns (a.census function).terms
    (fun term hm s hs => seedTerm_returns hU a hs
      ((hmem _).2 (Or.inr (Or.inl (List.mem_flatMap.2 ⟨term, hm, List.mem_cons_self _ _⟩))))
      (fun c hc d hd => (hmem _).2 (Or.inr (Or.inl (List.mem_flatMap.2 ⟨term, hm,
        List.mem_cons_of_mem _ (List.mem_flatMap.2 ⟨c, hc, hd⟩)⟩))))) s hs
  obtain ⟨s2, e2, p2⟩ := unifyReturns_returns hU a function p1
    (fun i hi => (hmem i).2 (Or.inr (Or.inr (Or.inl hi))))
  obtain ⟨rounds, hr⟩ := @iterate_terminates_first a _ canceled _ _ (a.allIds function s) hU hnc
    (fun i hi => (hmem i).2 (Or.inr (Or.inr (Or.inr hi)))) s2 p2
  have han : a.analyze (7 * (a.allIds function s).length) rounds function canceled s
      = a.iterate (7 * (a.allIds function s).length) canceled (a.usedTerms function)
          (a.census function).statements rounds 0 s2 := by
    unfold analyze
    rw [e1]
    simp only
    rw [e2]
  refine ⟨7 * (a.allIds function s).length, rounds, ?_⟩
  rw [han]
  cases hres : a.iterate (7 * (a.allIds function s).length) canceled (a.usedTerms function)
      (a.census function).statements rounds 0 s2 with
  | error e =>
    left
    rw [hres] at hr
    cases e with
    | unreachable => rfl
    | fuel => exact absurd rfl hr
  | ok s3 =>
    right
    obtain ⟨s0, t1, _, er, hp, hs3⟩ := iterate_last hnc rounds 0 s2 s3 p2.1 hres
    exact ⟨s0, t1, er, hp, by rw [hs3]⟩

/-- Witness of C7: the analysis of `andExample` on the empty store, with a
token that is never canceled. -/
theorem analysis_terminates_witness :
    ∃ fuel rounds,
      andExample.analyze fuel rounds (blockOf []) (fun _ => false) Types.empty
        = .error .unreachable ∨
      ∃ s0 s1, andExample.round fuel (andExample.usedTerms (blockOf []))
          (andExample.census (blockOf [])).statements s0 = .ok s1 ∧
        s1.probe.1 = false ∧
        andExample.analyze fuel rounds (blockOf []) (fun _ => false) Types.empty
          = .ok s1.probe.2 :=
  analysis_terminates andExample (blockOf []) (fun _ => false) Types.empty Types.empty_wf
    (fun _ => rfl)

end TypeAnalyzer

/-! ## The returns of a function -/

theorem foldl_returns (l : List Statement) : ∀ acc : List Statement,
    l.foldl (fun result statement => if statement.isReturn then result ++ [statement] else result)
      acc = acc ++ l.filter Statement.isReturn := by
  induction l with
  | nil => intro acc; simp
  | cons x rest ih =>
    intro acc
    rw [List.foldl_cons, ih]
    by_cases hx : x.isReturn = true
    · simp [hx, List.filter_cons]
    · simp [hx, List.filter_cons]

theorem foldl_blocks_returns (bs : List BasicBlock) : ∀ acc : List Statement,
    bs.foldl
      (fun result basicBlock =>
        basicBlock.statements.foldl
          (fun result statement => if statement.isReturn then result ++ [statement] else result)
          result)
      acc = acc ++ (bs.flatMap (fun b => b.statements)).filter Statement.isReturn := by
  induction bs with
  | nil => intro acc; simp
  | cons b rest ih =>
    intro acc
    rw [List.foldl_cons, ih, foldl_returns]
    simp [List.flatMap_cons, List.filter_append, List.append_assoc]

theorem Statement.isReturn_iff (statement : Statement) :
    statement.isReturn = true ↔ statement.kind = .RETURN := by
  unfold Statement.isReturn
  cases statement.kind <;> simp

/-- C20: `Function::getReturns` returns the statements of the function that are
return statements, and only these: the result is the sequence of all
statements, block after block and in the order of each block, with the
statements that are not returns taken out; so every occurrence of a return is
in the result once, a statement is in the result iff it is a return of some
block, and the result is empty when no statement is a return. -/
theorem getReturns_exact (function : Function) :
    function.getReturns
      = (function.basicBlocks.flatMap (fun b => b.statements)).filter Statement.isReturn ∧
    (∀ statement, statement ∈ function.getReturns ↔
      (statement.kind = .RETURN ∧ ∃ b ∈ function.basicBlocks, statement ∈ b.statements)) ∧
    (∀ statement, function.getReturns.count statement
      = if statement.kind = .RETURN
        then (function.basicBlocks.flatMap (fun b => b.statements)).count statement else 0) ∧
    ((∀ b ∈ function.basicBlocks, ∀ statement ∈ b.statements, statement.kind ≠ .RETURN) →
      function.getReturns = []) := by
  have key : function.getReturns
      = (function.basicBlocks.flatMap (fun b => b.statements)).filter Statement.isReturn := by
    unfold Function.getReturns
    rw [foldl_blocks_returns]
    rfl
  refine ⟨key, ?_, ?_, ?_⟩
  · intro statement
    rw [key, List.mem_filter, List.mem_flatMap, Statement.isReturn_iff]
    exact And.comm
  · intro statement
    rw [key]
    by_cases hr : statement.kind = .RETURN
    · rw [if_pos hr]
      exact List.count_filter ((Statement.isReturn_iff statement).2 hr)
    · rw [if_neg hr, List.count_eq_zero]
      intro hm
      exact hr ((Statement.isReturn_iff statement).1 (List.mem_filter.1 hm).2)
  · intro hn
    rw [key, List.filter_eq_nil_iff]
    intro statement hm
    rw [List.mem_flatMap] at hm
    obtain ⟨b, hb, hs⟩ := hm
    rw [Statement.isReturn_iff]
    exact hn b hb statement hs

/-- Witness of C20: the returns of a function of two blocks. -/
theorem getReturns_exact_witness :
    twoReturnsFunction.getReturns = [⟨1, .RETURN⟩, ⟨2, .RETURN⟩] := by
  rw [(getReturns_exact twoReturnsFunction).1]
  decide

namespace TypeAnalyzer

open Type_ Action

/-! ## Statements that are not assignments -/

/-- C18: the statement rule applied to a statement that is not an assignment (a
comment, an inline assembly, a kill, a jump, a call, a return, or a statement
of an unknown kind) returns and leaves the store as it is: the same objects
and the same terms. -/
theorem other_statements_leave_store (fuel : Nat) (s : Types) (statement : Statement)
    (hk : ∀ left right, statement.kind ≠ .ASSIGNMENT left right) :
    analyzeStatement fuel s statement = .ok s := by
  unfold analyzeStatement
  split
  · next left right e => exact absurd e (hk left right)
  · rfl

/-- Witness of C18: a return and a statement of an unknown kind on the store
after the analysis of `t0 := t1`. -/
theorem other_statements_leave_store_witness :
    analyzeStatement 1
        (resultStore (assignExample.analyze 1 2 (blockOf []) (fun _ => false) Types.empty))
        ⟨3, .RETURN⟩
      = .ok (resultStore (assignExample.analyze 1 2 (blockOf []) (fun _ => false) Types.empty)) ∧
    analyzeStatement 1 Types.empty ⟨4, .UNKNOWN 77⟩ = .ok Types.empty :=
  ⟨other_statements_leave_store 1 _ ⟨3, .RETURN⟩ (fun _ _ e => nomatch e),
   other_statements_leave_store 1 _ ⟨4, .UNKNOWN 77⟩ (fun _ _ e => nomatch e)⟩

/-! ## Operators with fixed obligations -/

/-- C16: the binary rule applied to a term whose operator is AND, OR, XOR, SHR,
SAR, SIGNED_DIV or SIGNED_REM returns, and afterwards the types of both
operands and of the term are integer; moreover all three are unsigned for AND,
OR and XOR, the left operand and the term are unsigned for SHR, the left
operand and the term are signed for SAR, and all three are signed for
SIGNED_DIV and SIGNED_REM. -/
theorem fixed_obligation_operators (a : TypeAnalyzer) (fuel : Nat) (s : Types) (w : s.WF)
    (term : Term) (operatorKind : BinaryOperatorKind) (left right : Nat)
    (hk : term.kind = .BINARY_OPERATOR operatorKind left right)
    (hop : operatorKind ∈ [BinaryOperatorKind.AND, .OR, .XOR, .SHR, .SAR, .SIGNED_DIV,
      .SIGNED_REM]) :
    ∃ s2, a.analyzeTerm fuel s term = .ok s2 ∧
      (isInteger s2.heap (s2.getType left).2 = true ∧
       isInteger s2.heap (s2.getType right).2 = true ∧
       isInteger s2.heap (s2.getType term.id).2 = true) ∧
      (operatorKind ∈ [BinaryOperatorKind.AND, .OR, .XOR] →
        isUnsigned s2.heap (s2.getType left).2 = true ∧
        isUnsigned s2.heap (s2.getType right).2 = true ∧
        isUnsigned s2.heap (s2.getType term.id).2 = true) ∧
      (operatorKind = .SHR →
        isUnsigned s2.heap (s2.getType left).2 = true ∧
        isUnsigned s2.heap (s2.getType term.id).2 = true) ∧
      (operatorKind = .SAR →
        isSigned s2.heap (s2.getType left).2 = true ∧
        isSigned s2.heap (s2.getType term.id).2 = true) ∧
      (operatorKind ∈ [BinaryOperatorKind.SIGNED_DIV, .SIGNED_REM] →
        isSigned s2.heap (s2.getType left).2 = true ∧
        isSigned s2.heap (s2.getType right).2 = true ∧
        isSigned s2.heap (s2.getType term.id).2 = true) := by
  have idem := w.idem
  rw [analyzeTerm_eq, Types.run_touchAll]
  unfold termAction
  rw [hk]
  simp only [List.mem_cons, List.mem_singleton, List.not_mem_nil, or_false] at hop
  rcases hop with e | e | e | e | e | e | e <;> subst e <;>
    exact ⟨_, rfl, by simp [Types.getType, idem]⟩

/-- Witness of C16: the rule of `t2 := AND(t0, t1)` on the empty store. -/
theorem fixed_obligation_operators_witness :
    ∃ s2, andExample.analyzeTerm 1 Types.empty ⟨2, true, .BINARY_OPERATOR .AND 0 1⟩ = .ok s2 ∧
      isInteger s2.heap (s2.getType 0).2 = true ∧ isUnsigned s2.heap (s2.getType 1).2 = true :=
  match fixed_obligation_operators andExample 1 Types.empty Types.empty_wf
      ⟨2, true, .BINARY_OPERATOR .AND 0 1⟩ .AND 0 1 rfl (by decide) with
  | ⟨s2, e, hi, hu, _⟩ => ⟨s2, e, hi.1, (hu (by decide)).2.1⟩

end TypeAnalyzer

namespace TypeAnalyzer

open Type_ Action

/-! ## Unsigned division and remainder -/

/-- C13: the binary rule applied to an UNSIGNED_DIV or UNSIGNED_REM term
returns; afterwards the types of both operands and of the term are integer and
the type of the term is unsigned, and if the left operand was signed the right
operand is unsigned.  But the other direction is missing: when the right
operand is signed, while the left operand has no signedness, the right operand
is not unsigned and the class of the left operand is not the class of the
term, the right operand is still signed afterwards and the left operand is
not unsigned. -/
theorem unsigned_division_left_not_forced (a : TypeAnalyzer) (fuel : Nat) (s : Types)
    (w : s.WF) (term : Term) (operatorKind : BinaryOperatorKind) (left right : Nat)
    (hk : term.kind = .BINARY_OPERATOR operatorKind left right)
    (hop : operatorKind = .UNSIGNED_DIV ∨ operatorKind = .UNSIGNED_REM) :
    ∃ s2, a.analyzeTerm fuel s term = .ok s2 ∧
      (isInteger s2.heap (s2.getType left).2 = true ∧
       isInteger s2.heap (s2.getType right).2 = true ∧
       isInteger s2.heap (s2.getType term.id).2 = true) ∧
      isUnsigned s2.heap (s2.getType term.id).2 = true ∧
      (isSigned s.heap (s.getType left).2 = true →
        isUnsigned s2.heap (s2.getType right).2 = true) ∧
      (isSigned s.heap (s.getType right).2 = true →
        isSigned s.heap (s.getType left).2 = false →
        isUnsigned s.heap (s.getType left).2 = false →
        isUnsigned s.heap (s.getType right).2 = false →
        (s.getType left).2 ≠ (s.getType term.id).2 →
          isSigned s2.heap (s2.getType right).2 = true ∧
          isUnsigned s2.heap (s2.getType left).2 = false) := by
  have idem := w.idem
  have hact : ∀ h : Heap, binaryAction fuel operatorKind (findSet s.heap term.id)
      (findSet s.heap left) (findSet s.heap right) (a.dataflow.getValue left)
      (a.dataflow.getValue right) h
      = seq [ lift (makeInteger (findSet s.heap term.id)),
          lift (makeInteger (findSet s.heap left)), lift (makeInteger (findSet s.heap right)),
          when (fun h => isSigned h (findSet s.heap left))
            (lift (makeUnsigned (findSet s.heap right))),
          when (fun h => isUnsigned h (findSet s.heap right))
            (lift (makeSigned (findSet s.heap left))),
          lift (makeUnsigned (findSet s.heap term.id)) ] h := by
    intro h
    rcases hop with e | e <;> subst e <;> rfl
  rw [analyzeTerm_eq, Types.run_touchAll]
  unfold termAction
  rw [hk]
  simp only
  rw [hact]
  by_cases h1 : isSigned s.heap (findSet s.heap left) = true <;>
    by_cases h2 : isUnsigned s.heap (findSet s.heap right) = true <;>
    simp only [seq_cons_lift, seq_cons_when, seq_nil, isSigned_makeInteger,
      isUnsigned_makeInteger, isUnsigned_makeUnsigned, isSigned_makeUnsigned, findSet_makeInteger,
      findSet_makeUnsigned, h1, h2, if_true, if_false, Bool.true_or, Bool.false_or,
      Bool.or_true, Bool.or_false, decide_True, ite_true, ite_false] <;>
    refine ⟨_, rfl, ?_⟩ <;>
    simp [Types.getType, idem, h1, h2]
  intro c1 c2 c3
  simp_all

theorem signedLeftStore_wf : signedLeftStore.WF :=
  (analyzeTerm_ext Types.empty_wf (eq_ok_of_returned
    (by decide! : returned (unsignedDivExample.analyzeTerm 1 Types.empty
      ⟨4, true, .UNARY_OPERATOR .SIGN_EXTEND 0⟩) = true))).wf

theorem signedRightStore_wf : signedRightStore.WF :=
  (analyzeTerm_ext Types.empty_wf (eq_ok_of_returned
    (by decide! : returned (unsignedDivExample.analyzeTerm 1 Types.empty
      ⟨3, true, .UNARY_OPERATOR .SIGN_EXTEND 1⟩) = true))).wf

/-- Witness of C13: on the store where the right operand `t1` is signed and
nothing else is known, the rule of `t2 := UNSIGNED_DIV(t0, t1)` leaves `t1`
signed and does not make the left operand `t0` unsigned; on the store where
`t0` is signed it makes `t1` unsigned. -/
theorem unsigned_division_left_not_forced_witness :
    isSigned signedRightStore.heap (signedRightStore.getType 1).2 = true ∧
    (∃ s2, unsignedDivExample.analyzeTerm 1 signedRightStore
        ⟨2, true, .BINARY_OPERATOR .UNSIGNED_DIV 0 1⟩ = .ok s2 ∧
      isSigned s2.heap (s2.getType 1).2 = true ∧
      isUnsigned s2.heap (s2.getType 0).2 = false) ∧
    (∃ s2, unsignedDivExample.analyzeTerm 1 signedLeftStore
        ⟨2, true, .BINARY_OPERATOR .UNSIGNED_DIV 0 1⟩ = .ok s2 ∧
      isUnsigned s2.heap (s2.getType 1).2 = true) :=
  ⟨by decide!,
   match unsigned_division_left_not_forced unsignedDivExample 1 signedRightStore
      signedRightStore_wf ⟨2, true, .BINARY_OPERATOR .UNSIGNED_DIV 0 1⟩ .UNSIGNED_DIV 0 1 rfl
      (Or.inl rfl) with
   | ⟨s2, e, _, _, _, hd⟩ =>
     ⟨s2, e, hd (by decide!) (by decide!) (by decide!) (by decide!) (by decide!)⟩,
   match unsigned_division_left_not_forced unsignedDivExample 1 signedLeftStore
      signedLeftStore_wf ⟨2, true, .BINARY_OPERATOR .UNSIGNED_DIV 0 1⟩ .UNSIGNED_DIV 0 1 rfl
      (Or.inl rfl) with
   | ⟨s2, e, _, _, hR, _⟩ => ⟨s2, e, hR (by decide!)⟩⟩

end TypeAnalyzer

/-! ## Where `unreachable()` is reached -/

theorem unionSet_defined (fuel : Nat) : ∀ (h : Heap) (a b : Nat),
    unionSet fuel h a b ≠ .error .unreachable := by
  induction fuel with
  | zero =>
    intro h a b
    unfold unionSet
    split
    · exact fun e => nomatch e
    · exact fun e => nomatch e
  | succ n ih =>
    intro h a b
    unfold unionSet
    split
    · exact fun e => nomatch e
    · simp only
      split
      · exact fun e => nomatch e
      · unfold setPointee
        split
        · exact ih _ _ _
        · exact fun e => nomatch e

theorem makePointerTo_defined (fuel : Nat) (x : Nat) (p : Option Nat) (h : Heap) :
    makePointerTo fuel x p h ≠ .error .unreachable := by
  unfold makePointerTo
  split
  · exact fun e => nomatch e
  · unfold setPointee
    split
    · exact unionSet_defined _ _ _ _
    · exact fun e => nomatch e

/-- Code without `unreachable()` does not fail with it. -/
theorem Defined.reaches {fuel : Nat} {a : Action} (d : Defined fuel a) :
    ∀ h, a h ≠ .error .unreachable := by
  induction d with
  | skip => exact fun h e => nomatch e
  | lift f => exact fun h e => nomatch e
  | updateFactor x v => exact fun h e => nomatch e
  | makePointerTo x l => exact fun h => makePointerTo_defined _ _ _ _
  | makePointerSome x p => exact fun h => makePointerTo_defined _ _ _ _
  | unionSet a b => exact fun h => unionSet_defined _ _ _ _
  | seqNil => exact fun h e => nomatch e
  | seqCons _ _ iha ihr =>
    intro h e
    unfold seq at e
    split at e
    · exact ihr _ e
    · next e0 e1 => cases e; exact iha h e1
  | when c _ iha =>
    intro h
    unfold Action.when
    split
    · exact iha h
    · exact fun e => nomatch e
  | ifElse c _ _ iha ihb =>
    intro h
    unfold Action.ifElse
    split
    · exact iha h
    · exact ihb h

namespace TypeAnalyzer

open Type_ Action

theorem binaryAction_defined (fuel : Nat) (operatorKind : BinaryOperatorKind)
    (type leftType rightType : Nat) (leftValue rightValue : Value)
    (hop : ∀ code, operatorKind ≠ .UNKNOWN code) :
    Defined fuel (binaryAction fuel operatorKind type leftType rightType leftValue rightValue) := by
  cases operatorKind <;>
    simp only [binaryAction, signednessBlock, List.cons_append, List.nil_append] <;>
    first
    | exact absurd rfl (hop _)
    | repeat first
      | exact Defined.skip
      | exact Defined.seqNil
      | exact Defined.lift _
      | exact Defined.updateFactor _ _
      | exact Defined.makePointerTo _ _
      | exact Defined.unionSet _ _
      | apply Defined.seqCons
      | apply Defined.when
      | apply Defined.ifElse

theorem unaryAction_defined (fuel : Nat) (operatorKind : UnaryOperatorKind)
    (type operandType : Nat) (hop : ∀ code, operatorKind ≠ .UNKNOWN code) :
    Defined fuel (unaryAction operatorKind type operandType) := by
  cases operatorKind <;>
    simp only [unaryAction] <;>
    first
    | exact absurd rfl (hop _)
    | repeat first
      | exact Defined.skip
      | exact Defined.seqNil
      | exact Defined.lift _
      | apply Defined.seqCons
      | apply Defined.when

theorem termAction_defined (a : TypeAnalyzer) (fuel : Nat) (h0 : Heap) (term : Term)
    (hk : term.isKnown = true) : Defined fuel (termAction a fuel h0 term) := by
  obtain ⟨id, rd, kind⟩ := term
  cases kind with
  | UNARY_OPERATOR op operand =>
    apply unaryAction_defined
    intro code e
    subst e
    cases hk
  | BINARY_OPERATOR op left right =>
    apply binaryAction_defined
    intro code e
    subst e
    cases hk
  | UNKNOWN code => cases hk
  | DEREFERENCE address => exact Defined.makePointerSome _ _
  | _ => exact Defined.skip

theorem analyzeTerm_unknown (a : TypeAnalyzer) (fuel : Nat) (s : Types) (term : Term)
    (hk : term.isKnown = false) : a.analyzeTerm fuel s term = .error .unreachable := by
  obtain ⟨id, rd, kind⟩ := term
  cases kind with
  | UNARY_OPERATOR op operand =>
    cases op <;> first | rfl | cases hk
  | BINARY_OPERATOR op left right =>
    cases op <;> first | rfl | cases hk
  | UNKNOWN code => rfl
  | _ => cases hk

/-- The term rule returns on a well-formed store when the kinds are known and
the budget for nested unions is seven times the number of terms of the store
(after the requests of the rule). -/
theorem analyzeTerm_returns (a : TypeAnalyzer) {fuel : Nat} {s : Types} (w : s.WF) (term : Term)
    (hk : term.isKnown = true)
    (hU : 7 * (s.touchAll (termIds term)).keys.length ≤ fuel + 1) :
    ∃ s2, a.analyzeTerm fuel s term = .ok s2 := by
  have w2 := w.touchAll (termIds term)
  have hK : ∀ i ∈ termIds term, findSet s.heap i ∈ (s.touchAll (termIds term)).keys := by
    intro i hi
    have := w2.parent_mem i ((Types.mem_touchAll s _ i).2 (Or.inr hi))
    rwa [Types.touchAll_heap] at this
  have wa := termAction_wired a fuel (fun k => k ∈ (s.touchAll (termIds term)).keys) s.heap term hK
  have nf := Wired.no_fuel hU wa _ w2
  have nu := (termAction_defined a fuel s.heap term hk).reaches (s.touchAll (termIds term)).heap
  rw [analyzeTerm_eq]
  unfold Types.run
  split
  · exact ⟨_, rfl⟩
  · next e he =>
    cases e with
    | unreachable => exact absurd he nu
    | fuel => exact absurd he nf

/-- C19: the term rule reaches `unreachable()` exactly when the kind of the term
is not one of the eight known kinds, or the term is a unary or binary operator
whose operator kind is not one of the vocabulary; and for a term of a known
kind and of a known operator kind it returns (the budget of the model for
nested unions being large enough for the store). -/
theorem term_rule_fails_iff_unknown (a : TypeAnalyzer) (s : Types) (w : s.WF) (term : Term) :
    (∀ fuel, a.analyzeTerm fuel s term = .error .unreachable ↔ term.isKnown = false) ∧
    (term.isKnown = true →
      ∀ fuel, 7 * (s.touchAll (termIds term)).keys.length ≤ fuel + 1 →
        ∃ s2, a.analyzeTerm fuel s term = .ok s2) := by
  refine ⟨fun fuel => ⟨fun e => ?_, analyzeTerm_unknown a fuel s term⟩,
    fun hk fuel hU => analyzeTerm_returns a w term hk hU⟩
  by_cases hk : term.isKnown = true
  · exfalso
    rw [analyzeTerm_eq] at e
    unfold Types.run at e
    split at e
    · cases e
    · next e0 he =>
      cases e
      exact (termAction_defined a fuel s.heap term hk).reaches _ he
  · simpa using hk

/-- Witness of C19: on the empty store, a term of an unknown kind and an
operator of an unknown kind fail, and a dereference returns. -/
theorem term_rule_fails_iff_unknown_witness :
    andExample.analyzeTerm 5 Types.empty ⟨9, true, .UNKNOWN 42⟩ = .error .unreachable ∧
    andExample.analyzeTerm 5 Types.empty ⟨9, true, .BINARY_OPERATOR (.UNKNOWN 42) 0 1⟩
      = .error .unreachable ∧
    andExample.analyzeTerm 5 Types.empty ⟨9, true, .UNARY_OPERATOR (.UNKNOWN 42) 0⟩
      = .error .unreachable ∧
    ∃ s2, andExample.analyzeTerm 13 Types.empty ⟨9, true, .DEREFERENCE 0⟩ = .ok s2 :=
  ⟨((term_rule_fails_iff_unknown andExample Types.empty Types.empty_wf
      ⟨9, true, .UNKNOWN 42⟩).1 5).2 rfl,
   ((term_rule_fails_iff_unknown andExample Types.empty Types.empty_wf
      ⟨9, true, .BINARY_OPERATOR (.UNKNOWN 42) 0 1⟩).1 5).2 rfl,
   ((term_rule_fails_iff_unknown andExample Types.empty Types.empty_wf
      ⟨9, true, .UNARY_OPERATOR (.UNKNOWN 42) 0⟩).1 5).2 rfl,
   (term_rule_fails_iff_unknown andExample Types.empty Types.empty_wf
      ⟨9, true, .DEREFERENCE 0⟩).2 rfl 13 (by decide)⟩

end TypeAnalyzer

namespace TypeAnalyzer

open Type_ Action

/-! ## Unsigned comparisons -/

theorem isUnsigned_of_same {h : Heap} {x y : Nat} (e : findSet h x = findSet h y) :
    isUnsigned h x = isUnsigned h y := by
  unfold isUnsigned
  rw [e]

/-- C14: the binary rule applied to an UNSIGNED_LESS or UNSIGNED_LESS_OR_EQUAL
term returns (the budget of the model for nested unions being large enough for
the store), and afterwards the types of the two operands have the same
representative, which has the unsigned bit. -/
theorem unsigned_comparison_unifies (a : TypeAnalyzer) (fuel : Nat) (s : Types) (w : s.WF)
    (term : Term) (operatorKind : BinaryOperatorKind) (left right : Nat)
    (hk : term.kind = .BINARY_OPERATOR operatorKind left right)
    (hop : operatorKind = .UNSIGNED_LESS ∨ operatorKind = .UNSIGNED_LESS_OR_EQUAL)
    (hU : 7 * (s.touchAll (termIds term)).keys.length ≤ fuel + 1) :
    ∃ s2, a.analyzeTerm fuel s term = .ok s2 ∧
      findSet s2.heap (s2.getType left).2 = findSet s2.heap (s2.getType right).2 ∧
      isUnsigned s2.heap (s2.getType left).2 = true ∧
      isUnsigned s2.heap (s2.getType right).2 = true := by
  have hkn : term.isKnown = true := by
    unfold Term.isKnown
    rw [hk]
    rcases hop with e | e <;> subst e <;> rfl
  obtain ⟨s2, e⟩ := analyzeTerm_returns a w term hkn hU
  refine ⟨s2, e, ?_⟩
  have x := analyzeTerm_ext w e
  rw [analyzeTerm_eq] at e
  obtain ⟨e1, _⟩ := Types.run_ok e
  rw [Types.touchAll_heap] at e1
  unfold termAction at e1
  rw [hk] at e1
  simp only at e1
  have idem := w.idem
  have key : ∃ h1, (isUnsigned h1 (findSet s.heap left) = true ∨
        isUnsigned h1 (findSet s.heap right) = true) ∧
      unionSet fuel h1 (findSet s.heap left) (findSet s.heap right) = .ok s2.heap := by
    rcases hop with e0 | e0 <;> subst e0 <;>
      simp only [binaryAction] at e1 <;>
      obtain ⟨h1, ea, eb⟩ := seq_cons_ok e1 <;>
      obtain ⟨h2, ec, ed⟩ := seq_cons_ok eb <;>
      injection ed with ed <;>
      subst ed <;>
      refine ⟨h1, ?_, ec⟩ <;>
      unfold Action.ifElse at ea <;>
      split at ea <;>
      first
        | (injection ea with ea; subst ea; simp [idem])
        | (split at ea <;> injection ea with ea <;> subst ea <;> simp [idem])
  obtain ⟨h1, hu, eu⟩ := key
  obtain ⟨g, same⟩ := unionSet_spec fuel h1 _ _ _ eu
  have hl := handle_eq w x left
  have hr := handle_eq w x right
  have hs : findSet s2.heap (s2.getType left).2 = findSet s2.heap (s2.getType right).2 := by
    rw [hl, hr]
    exact same
  have hleft : isUnsigned s2.heap (findSet s.heap left) = true := by
    rcases hu with hu | hu
    · exact g.unsigned _ hu
    · rw [isUnsigned_of_same same]; exact g.unsigned _ hu
  refine ⟨hs, ?_, ?_⟩
  · unfold isUnsigned at hleft ⊢
    rw [hl]
    exact hleft
  · unfold isUnsigned at hleft ⊢
    rw [← hs, hl]
    exact hleft

/-- Witness of C14: the rule of `t2 := UNSIGNED_LESS(t0, t1)` on the store where
`t1` is signed. -/
theorem unsigned_comparison_unifies_witness :
    ∃ s2, unsignedLessExample.analyzeTerm 27
        (resultStore (unsignedLessExample.analyzeTerm 1 Types.empty
          ⟨3, true, .UNARY_OPERATOR .SIGN_EXTEND 1⟩))
        ⟨2, true, .BINARY_OPERATOR .UNSIGNED_LESS 0 1⟩ = .ok s2 ∧
      findSet s2.heap (s2.getType 0).2 = findSet s2.heap (s2.getType 1).2 ∧
      isUnsigned s2.heap (s2.getType 0).2 = true ∧
      isUnsigned s2.heap (s2.getType 1).2 = true :=
  unsigned_comparison_unifies unsignedLessExample 27 _
    (analyzeTerm_ext Types.empty_wf (eq_ok_of_returned
      (by decide! : returned (unsignedLessExample.analyzeTerm 1 Types.empty
        ⟨3, true, .UNARY_OPERATOR .SIGN_EXTEND 1⟩) = true))).wf
    ⟨2, true, .BINARY_OPERATOR .UNSIGNED_LESS 0 1⟩ .UNSIGNED_LESS 0 1 rfl (Or.inl rfl)
    (by decide!)

end TypeAnalyzer

/-! ## Pointees -/

theorem pointee_set (h : Heap) (r : Nat) (c : Type_) (hp : c.parent_ = (h r).parent_) (y : Nat) :
    pointee (h.set r c) y = if findSet h y = r then c.pointee_ else pointee h y := by
  unfold pointee
  rw [findSet_set h r c hp]
  split
  · next e => rw [e, set_same]
  · next e => rw [set_other h r _ c e]

theorem pointee_makePointer (x : Nat) (h : Heap) (y : Nat) :
    pointee (makePointer x h) y = pointee h y := by
  unfold makePointer
  split
  · rfl
  · refine (pointee_set h _ _ ?_ y).trans ?_
    · rfl
    · split
      · next e => unfold pointee; rw [e]
      · rfl

theorem pointee_install (h : Heap) (r p y : Nat) :
    pointee (h.set r { h r with pointee_ := some p, changed_ := true }) y
      = if findSet h y = r then some p else pointee h y := by
  refine (pointee_set h _ _ ?_ y).trans ?_
  · rfl
  · rfl

theorem findSet_install (h : Heap) (r p y : Nat) :
    findSet (h.set r { h r with pointee_ := some p, changed_ := true }) y = findSet h y := by
  apply findSet_set
  rfl

theorem pointee_linkJoin (h : Heap) (s o : Nat) (bump : Bool) (x : Nat) :
    pointee (join (link h s o bump) s o) x
      = if findSet h x = o then (h s).pointee_ else pointee h x := by
  unfold pointee
  rw [findSet_linkJoin, join_pointee, link_pointee]
  split <;> rfl

theorem PointeeKept.kept_refl (h : Heap) : PointeeKept h h := fun _ q e => ⟨q, e, rfl⟩

theorem PointeeKept.kept_trans {h1 h2 h3 : Heap} (a : PointeeKept h1 h2) (b : PointeeKept h2 h3)
    (g : Grow h2 h3) : PointeeKept h1 h3 := by
  intro x q e
  obtain ⟨q2, e2, c2⟩ := a x q e
  obtain ⟨q3, e3, c3⟩ := b x q2 e2
  exact ⟨q3, e3, c3.trans (g.same _ _ c2)⟩

/-- A union keeps the pointees, up to their classes. -/
theorem unionSet_pointeeKept (fuel : Nat) : ∀ (h : Heap) (a b : Nat) (h2 : Heap),
    unionSet fuel h a b = .ok h2 → PointeeKept h h2 := by
  induction fuel with
  | zero =>
    intro h a b h2 e
    unfold unionSet at e
    split at e
    · injection e with e; subst e; exact PointeeKept.kept_refl h
    · cases e
  | succ n ih =>
    intro h a b h2 e
    unfold unionSet at e
    split at e
    · injection e with e; subst e; exact PointeeKept.kept_refl h
    · simp only at e
      generalize hs : (if (h (findSet h a)).rank_ < (h (findSet h b)).rank_ then findSet h b
        else findSet h a) = s at e
      generalize ho : (if (h (findSet h a)).rank_ < (h (findSet h b)).rank_ then findSet h a
        else findSet h b) = o at e
      generalize hb : decide ((h (findSet h a)).rank_ = (h (findSet h b)).rank_) = bump at e
      have hpo : (join (link h s o bump) s o o).pointee_ = (h o).pointee_ := by
        rw [join_pointee, link_pointee]
      have hps : (join (link h s o bump) s o s).pointee_ = (h s).pointee_ := by
        rw [join_pointee, link_pointee]
      split at e
      · next hnone =>
        injection e with e
        subst e
        rw [hpo] at hnone
        intro x q ex
        refine ⟨q, ?_, rfl⟩
        rw [pointee_linkJoin]
        split
        · next c =>
          unfold pointee at ex
          rw [c, hnone] at ex
          cases ex
        · exact ex
      · next po hsome =>
        rw [hpo] at hsome
        unfold setPointee at e
        split at e
        · next q0 hq0 =>
          rw [hps] at hq0
          have k := ih _ _ _ _ e
          obtain ⟨g, same⟩ := unionSet_spec n _ _ _ _ e
          intro x q ex
          by_cases c : findSet h x = o
          · have eq : q = po := by
              unfold pointee at ex
              rw [c, hsome] at ex
              injection ex with ex
              exact ex.symm
            subst eq
            have e1 : pointee (join (link h s o bump) s o) x = some q0 := by
              rw [pointee_linkJoin, if_pos c, hq0]
            obtain ⟨q2, e2, c2⟩ := k x q0 e1
            exact ⟨q2, e2, c2.trans same⟩
          · have e1 : pointee (join (link h s o bump) s o) x = some q := by
              rw [pointee_linkJoin, if_neg c, ex]
            exact k x q e1
        · next hq0 =>
          rw [hps] at hq0
          injection e with e
          subst e
          intro x q ex
          simp only [pointee_install, findSet_install]
          rw [findSet_linkJoin]
          by_cases c : findSet h x = o
          · have eq : q = po := by
              unfold pointee at ex
              rw [c, hsome] at ex
              injection ex with ex
              exact ex.symm
            subst eq
            rw [if_pos c, if_pos rfl]
            exact ⟨q, rfl, rfl⟩
          · rw [if_neg c]
            by_cases c2 : findSet h x = s
            · unfold pointee at ex
              rw [c2, hq0] at ex
              cases ex
            · rw [if_neg c2, pointee_linkJoin, if_neg c]
              exact ⟨q, ex, rfl⟩

/-- What `makePointer(pointee)` establishes on a heap with idempotent
representatives, `x` being a representative. -/
theorem makePointerTo_spec {fuel : Nat} {h h2 : Heap} {x p : Nat} (hx : findSet h x = x)
    (e : makePointerTo fuel x (some p) h = .ok h2) :
    Grow h h2 ∧ isPointer h2 x = true ∧
    (∃ q2, pointee h2 x = some q2 ∧ findSet h2 q2 = findSet h2 p) ∧
    (∀ q, pointee h x = some q → findSet h2 q = findSet h2 p) := by
  have g := Grow.grow_makePointerTo e
  have hptr : isPointer (makePointer x h) x = true := by simp
  unfold makePointerTo at e
  simp only at e
  unfold setPointee at e
  rw [hx] at e
  split at e
  · next q hq =>
    obtain ⟨g2, same⟩ := unionSet_spec fuel _ _ _ _ e
    have k := unionSet_pointeeKept fuel _ _ _ _ e
    have e1 : pointee (makePointer x h) x = some q := by
      unfold pointee
      rw [findSet_makePointer, hx]
      exact hq
    obtain ⟨q2, e2, c2⟩ := k x q e1
    refine ⟨g, g2.pointer _ hptr, ⟨q2, e2, c2.trans same⟩, ?_⟩
    intro q1 hq1
    rw [← pointee_makePointer x h x, e1] at hq1
    injection hq1 with hq1
    subst hq1
    exact same
  · next hq =>
    injection e with e
    subst e
    have e1 : pointee h x = none := by
      rw [← pointee_makePointer x h x]
      unfold pointee
      rw [findSet_makePointer, hx]
      exact hq
    refine ⟨g, ?_, ?_, ?_⟩
    · unfold isPointer at hptr ⊢
      rw [findSet_makePointer, hx] at hptr
      rw [findSet_install, findSet_makePointer, hx, set_same]
      exact hptr
    · refine ⟨p, ?_, rfl⟩
      rw [pointee_install, findSet_makePointer, hx, if_pos rfl]
    · intro q hq1
      rw [e1] at hq1
      cases hq1

namespace TypeAnalyzer

open Type_ Action

/-! ## The dereference rule -/

/-- C17: the term rule applied to a dereference `d` of the address `a` returns
(the budget of the model for nested unions being large enough for the store);
afterwards `type(a)` is pointer and has a pointee, which has the same
representative as `type(d)`; and a pointee that `type(a)` had before has the
same representative as `type(d)` afterwards: it was unified with `type(d)`. -/
theorem dereference_makes_pointer (a : TypeAnalyzer) (fuel : Nat) (s : Types) (w : s.WF)
    (term : Term) (address : Nat) (hk : term.kind = .DEREFERENCE address)
    (hU : 7 * (s.touchAll (termIds term)).keys.length ≤ fuel + 1) :
    ∃ s2, a.analyzeTerm fuel s term = .ok s2 ∧
      isPointer s2.heap (s2.getType address).2 = true ∧
      (∃ p, pointee s2.heap (s2.getType address).2 = some p ∧
        findSet s2.heap p = findSet s2.heap (s2.getType term.id).2) ∧
      (∀ q, pointee s.heap (s.getType address).2 = some q →
        findSet s2.heap q = findSet s2.heap (s2.getType term.id).2) := by
  have hkn : term.isKnown = true := by
    unfold Term.isKnown
    rw [hk]
  obtain ⟨s2, e⟩ := analyzeTerm_returns a w term hkn hU
  refine ⟨s2, e, ?_⟩
  have x := analyzeTerm_ext w e
  rw [analyzeTerm_eq] at e
  obtain ⟨e1, _⟩ := Types.run_ok e
  rw [Types.touchAll_heap] at e1
  unfold termAction at e1
  rw [hk] at e1
  simp only at e1
  obtain ⟨g, hp, ⟨q2, hq2, hc⟩, hold⟩ := makePointerTo_spec (w.idem address) e1
  have ha : findSet s2.heap (findSet s.heap address) = findSet s2.heap address :=
    g.findSet_handle w address
  have hd : findSet s2.heap (findSet s.heap term.id) = findSet s2.heap term.id :=
    g.findSet_handle w term.id
  have ha2 : findSet s2.heap (s2.getType address).2 = findSet s2.heap address := x.wf.idem address
  have hd2 : findSet s2.heap (s2.getType term.id).2 = findSet s2.heap term.id :=
    x.wf.idem term.id
  refine ⟨?_, ⟨q2, ?_, ?_⟩, ?_⟩
  · unfold isPointer at hp ⊢
    rw [ha2, ← ha]
    exact hp
  · unfold pointee at hq2 ⊢
    rw [ha2, ← ha]
    exact hq2
  · rw [hd2, ← hd]
    exact hc
  · intro q hq
    rw [hd2, ← hd]
    apply hold
    unfold pointee at hq ⊢
    have : findSet s.heap (s.getType address).2 = findSet s.heap (findSet s.heap address) := rfl
    rw [this] at hq
    exact hq

theorem derefStore_wf : derefStore.WF :=
  (analyzeTerm_ext Types.empty_wf (eq_ok_of_returned
    (by decide! : returned (derefExample.analyzeTerm 1 Types.empty
      ⟨1, true, .DEREFERENCE 0⟩) = true))).wf

/-- Witness of C17: on the store where `t0` points to `t1`, the rule of
`t2 := *t0` unifies `t1` with `t2`. -/
theorem dereference_makes_pointer_witness :
    pointee derefStore.heap (derefStore.getType 0).2 = some 1 ∧
    ∃ s2, derefExample.analyzeTerm 20 derefStore ⟨2, true, .DEREFERENCE 0⟩ = .ok s2 ∧
      isPointer s2.heap (s2.getType 0).2 = true ∧
      findSet s2.heap 1 = findSet s2.heap (s2.getType 2).2 :=
  ⟨by decide!,
   match dereference_makes_pointer derefExample 20 derefStore derefStore_wf
      ⟨2, true, .DEREFERENCE 0⟩ 0 rfl (by decide!) with
   | ⟨s2, e, hp, _, hold⟩ => ⟨s2, e, hp, hold 1 (by decide!)⟩⟩

end TypeAnalyzer

/-! ## The rules at the fixed point -/

theorem flagged_quiet {K : Nat → Prop} {h h2 : Heap} (f : Flagged K h h2) (q : Quiet K h2) :
    h2 = h := by
  rcases f.2 with e | ⟨i, hi, hf⟩
  · exact e
  · rw [q i hi] at hf
    cases hf

/-- A sweep that leaves no flag set has changed nothing, and each of its steps
returns the heap it was given. -/
theorem sweepHeap_quiet {α : Type} {K : Nat → Prop} {step : Heap → α → Except Failure Heap}
    (l : List α)
    (hstep : ∀ x ∈ l, ∀ h h2, HeapWF K h → step h x = .ok h2 → HeapWF K h2 ∧ Flagged K h h2) :
    ∀ h h2, HeapWF K h → sweepHeap step l h = .ok h2 → Quiet K h2 →
      h2 = h ∧ ∀ x ∈ l, step h x = .ok h := by
  induction l with
  | nil =>
    intro h h2 _ e _
    injection e with e
    exact ⟨e.symm, fun _ hx => nomatch hx⟩
  | cons x rest ih =>
    intro h h2 w e q
    obtain ⟨h1, e1, e2⟩ := sweepHeap_cons_ok e
    obtain ⟨w1, f1⟩ := hstep x (List.mem_cons_self _ _) h h1 w e1
    obtain ⟨e3, hrest⟩ := ih (fun y hy => hstep y (List.mem_cons_of_mem _ hy)) h1 h2 w1 e2 q
    have e4 : h1 = h := flagged_quiet f1 (e3 ▸ q)
    subst e4
    refine ⟨e3, ?_⟩
    intro y hy
    rcases List.mem_cons.1 hy with hy | hy
    · rw [hy]; exact e1
    · exact hrest y hy

/-- A sequence of pieces of code of the rules that leaves no flag set has
changed nothing, and each piece returns the heap it was given. -/
theorem seq_quiet {fuel : Nat} {K : Nat → Prop} (l : List Action)
    (hl : ∀ a ∈ l, Wired fuel K a) :
    ∀ h h2, HeapWF K h → seq l h = .ok h2 → Quiet K h2 → h2 = h ∧ ∀ a ∈ l, a h = .ok h := by
  induction l with
  | nil =>
    intro h h2 _ e _
    injection e with e
    exact ⟨e.symm, fun _ hx => nomatch hx⟩
  | cons x rest ih =>
    intro h h2 w e q
    obtain ⟨h1, e1, e2⟩ := seq_cons_ok e
    have wx := hl x (List.mem_cons_self _ _)
    have w1 := wx.wf h h1 w e1
    have f1 := (flagged_stable fuel K).rel_wired x wx h h1 w e1
    obtain ⟨e3, hrest⟩ := ih (fun y hy => hl y (List.mem_cons_of_mem _ hy)) h1 h2 w1 e2 q
    have e4 : h1 = h := flagged_quiet f1 (e3 ▸ q)
    subst e4
    refine ⟨e3, ?_⟩
    intro y hy
    rcases List.mem_cons.1 hy with hy | hy
    · rw [hy]; exact e1
    · exact hrest y hy

theorem wired_nil (fuel : Nat) (K : Nat → Prop) : ∀ a ∈ ([] : List Action), Wired fuel K a :=
  fun _ ha => nomatch ha

theorem wired_cons {fuel : Nat} {K : Nat → Prop} {a : Action} {rest : List Action}
    (wa : Wired fuel K a) (wr : ∀ b ∈ rest, Wired fuel K b) : ∀ b ∈ a :: rest, Wired fuel K b := by
  intro b hb
  rcases List.mem_cons.1 hb with hb | hb
  · rw [hb]; exact wa
  · exact wr b hb

theorem when_quiet {c : Heap → Bool} {a : Action} {h : Heap} (e : Action.when c a h = .ok h)
    (hc : c h = true) : a h = .ok h := by
  unfold Action.when at e
  rw [if_pos hc] at e
  exact e

theorem lift_quiet {f : Heap → Heap} {h : Heap} (e : lift f h = .ok h) : f h = h := by
  injection e

theorem isInteger_of_fixed {x : Nat} {h : Heap} (e : makeInteger x h = h) :
    isInteger h x = true := by
  have := isInteger_makeInteger x h x
  rw [e] at this
  simpa using this

theorem isPointer_of_fixed {x : Nat} {h : Heap} (e : makePointer x h = h) :
    isPointer h x = true := by
  have := isPointer_makePointer x h x
  rw [e] at this
  simpa using this

theorem isSigned_of_fixed {x : Nat} {h : Heap} (e : makeSigned x h = h) :
    isSigned h x = true := by
  have := isSigned_makeSigned x h x
  rw [e] at this
  simpa using this

theorem isUnsigned_of_fixed {x : Nat} {h : Heap} (e : makeUnsigned x h = h) :
    isUnsigned h x = true := by
  have := isUnsigned_makeUnsigned x h x
  rw [e] at this
  simpa using this

namespace TypeAnalyzer

open Type_ Action

/-- A round that leaves no flag set has changed nothing, and each term rule
and statement rule in it returns the heap it was given. -/
theorem roundHeap_quiet {fuel : Nat} {K : Nat → Prop} (a : TypeAnalyzer) (terms : List Term)
    (statements : List Statement) (hids : ∀ i ∈ roundIds terms statements, K i) (h h2 : Heap)
    (w : HeapWF K h) (e : a.roundHeap fuel terms statements h = .ok h2) (q : Quiet K h2) :
    h2 = h ∧ (∀ term ∈ terms, a.termStep fuel h term = .ok h) ∧
      ∀ statement ∈ statements, statementStep fuel h statement = .ok h := by
  obtain ⟨h1, h3, h4, e1, e3, e4, e5⟩ := roundHeap_ok e
  have st := flagged_stable fuel K
  have ht : ∀ t ∈ terms, ∀ h h2, HeapWF K h → a.termStep fuel h t = .ok h2 →
      HeapWF K h2 ∧ Flagged K h h2 :=
    fun t hm => termStep_rel st a t (fun i hi => hids i (mem_roundIds_term hm hi))
  have hs : ∀ t ∈ statements, ∀ h h2, HeapWF K h → statementStep fuel h t = .ok h2 →
      HeapWF K h2 ∧ Flagged K h h2 :=
    fun t hm => statementStep_rel st t (fun i hi => hids i (mem_roundIds_statement hm hi))
  have htr : ∀ t ∈ terms.reverse, ∀ h h2, HeapWF K h → a.termStep fuel h t = .ok h2 →
      HeapWF K h2 ∧ Flagged K h h2 := fun t hm => ht t (List.mem_reverse.1 hm)
  have hsr : ∀ t ∈ statements.reverse, ∀ h h2, HeapWF K h → statementStep fuel h t = .ok h2 →
      HeapWF K h2 ∧ Flagged K h h2 := fun t hm => hs t (List.mem_reverse.1 hm)
  obtain ⟨w1, _⟩ := sweepHeap_rel st.rel_refl st.rel_trans terms ht h h1 w e1
  obtain ⟨w3, _⟩ := sweepHeap_rel st.rel_refl st.rel_trans terms.reverse htr h1 h3 w1 e3
  obtain ⟨w4, _⟩ := sweepHeap_rel st.rel_refl st.rel_trans statements hs h3 h4 w3 e4
  obtain ⟨c5, _⟩ := sweepHeap_quiet statements.reverse hsr h4 h2 w4 e5 q
  subst c5
  obtain ⟨c4, k4⟩ := sweepHeap_quiet statements hs h3 h2 w3 e4 q
  subst c4
  obtain ⟨c3, _⟩ := sweepHeap_quiet terms.reverse htr h1 h2 w1 e3 q
  subst c3
  obtain ⟨c1, k1⟩ := sweepHeap_quiet terms ht h h2 w e1 q
  subst c1
  exact ⟨rfl, k1, k4⟩

/-- The store that `analyze` returns when it was not canceled is a fixed point
of the rules: it is well formed, has the terms of a round, and every term rule
of a used term and every statement rule returns the objects it was given. -/
theorem analyze_fixed {a : TypeAnalyzer} {fuel rounds : Nat} {function : Function}
    {canceled : Nat → Bool} {s s2 : Types} (w : s.WF) (hnc : ∀ k, canceled k = false)
    (e : a.analyze fuel rounds function canceled s = .ok s2) :
    s2.WF ∧ Quiet (fun k => k ∈ s2.keys) s2.heap ∧
    (∀ i ∈ roundIds (a.usedTerms function) (a.census function).statements, i ∈ s2.keys) ∧
    (∀ term ∈ a.usedTerms function, a.termStep fuel s2.heap term = .ok s2.heap) ∧
    (∀ statement ∈ (a.census function).statements,
      statementStep fuel s2.heap statement = .ok s2.heap) := by
  obtain ⟨t1, t3, e1, e3, e4⟩ := analyze_ok e
  have w3 : t3.WF := (unifyReturns_ext
    (sweep_ext _ (fun _ _ _ _ w e => seedTerm_ext w e) s t1 w e1).wf e3).wf
  obtain ⟨s0, s1, w0, er, hp, hs2⟩ := iterate_last hnc rounds 0 t3 s2 w3 e4
  obtain ⟨hsame, ek, eh⟩ := round_quiet w0 er hp
  have h2 : s2.heap = s0.heap := by rw [hs2, Types.probe_heap_of_false hp, hsame]
  have k2 : s2.keys = s1.keys := by rw [hs2]; rfl
  have hK : ∀ i ∈ roundIds (a.usedTerms function) (a.census function).statements,
      i ∈ s2.keys := by
    intro i hi
    rw [k2, ek]
    exact (mem_touchKeys _ _ _).2 (Or.inr hi)
  have w1 : HeapWF (fun k => k ∈ s2.keys) s0.heap :=
    HeapWF.wf_mono w0 (fun k hk => by rw [k2, ek]; exact (mem_touchKeys _ _ _).2 (Or.inl hk))
  have q : Quiet (fun k => k ∈ s2.keys) s0.heap := by
    intro i hi
    have := Types.probe_false hp i (k2 ▸ hi)
    rw [hsame] at this
    exact this
  obtain ⟨_, kt, ks⟩ := roundHeap_quiet a _ _ hK _ _ w1 eh q
  rw [h2]
  exact ⟨by unfold Types.WF; rw [h2]; exact w1, q, hK, kt, ks⟩

end TypeAnalyzer

namespace TypeAnalyzer

open Type_ Action

/-! ## The SUB rule at the fixed point -/

theorem binaryAction_sub (fuel : Nat) (type leftType rightType : Nat)
    (leftValue rightValue : Value) :
    binaryAction fuel .SUB type leftType rightType leftValue rightValue
      = seq (subKindBlock type leftType rightType ++
          (signednessBlock type leftType rightType ++
            subTail fuel type leftType rightValue)) := by
  simp only [binaryAction, subKindBlock, subTail, List.append_assoc]

theorem subList_wired (fuel : Nat) (K : Nat → Prop) (type leftType rightType : Nat)
    (rightValue : Value) (hT : K type) (hL : K leftType) (hR : K rightType) :
    ∀ a ∈ subKindBlock type leftType rightType ++
        (signednessBlock type leftType rightType ++
          subTail fuel type leftType rightValue), Wired fuel K a := by
  simp only [subKindBlock, signednessBlock, subTail, List.cons_append, List.nil_append]
  repeat first
    | exact wired_nil fuel K
    | refine wired_cons ?_ ?_
    | exact Wired.seqNil
    | exact Wired.makeInteger (by assumption)
    | exact Wired.makePointer (by assumption)
    | exact Wired.makeSigned (by assumption)
    | exact Wired.makeUnsigned (by assumption)
    | exact Wired.updateFactorConst _ (by assumption)
    | exact Wired.makePointerTo (by assumption) (by assumption)
    | apply Wired.seqCons
    | apply Wired.when

/-- The term of a fixed point: what `analyze_fixed` gives for one used binary
term, on the objects. -/
theorem binary_fixed {a : TypeAnalyzer} {fuel rounds : Nat} {function : Function}
    {canceled : Nat → Bool} {s s2 : Types} (w : s.WF) (hnc : ∀ k, canceled k = false)
    (e : a.analyze fuel rounds function canceled s = .ok s2)
    {term : Term} (hm : term ∈ (a.census function).terms) (hu : a.isUsed term.id = true)
    {operatorKind : BinaryOperatorKind} {left right : Nat}
    (hk : term.kind = .BINARY_OPERATOR operatorKind left right) :
    s2.WF ∧ Quiet (fun k => k ∈ s2.keys) s2.heap ∧
    findSet s2.heap term.id ∈ s2.keys ∧ findSet s2.heap left ∈ s2.keys ∧
    findSet s2.heap right ∈ s2.keys ∧
    binaryAction fuel operatorKind (findSet s2.heap term.id) (findSet s2.heap left)
      (findSet s2.heap right) (a.dataflow.getValue left) (a.dataflow.getValue right) s2.heap
      = .ok s2.heap := by
  obtain ⟨w2, q, hK, kt, _⟩ := analyze_fixed w hnc e
  have hmu : term ∈ a.usedTerms function := List.mem_filter.2 ⟨hm, by simpa using hu⟩
  have hid : ∀ i ∈ termIds term, findSet s2.heap i ∈ s2.keys :=
    fun i hi => w2.parent_mem i (hK i (mem_roundIds_term hmu hi))
  have hids : termIds term = [term.id, left, right] := by
    unfold termIds
    rw [hk]
  rw [hids] at hid
  have k := kt term hmu
  unfold termStep termAction at k
  rw [hk] at k
  exact ⟨w2, q, hid _ (by simp), hid _ (by simp), hid _ (by simp), k⟩

/-- C15: after `analyze` returned without cancellation, for every used SUB term
with operand types `L`, `R` and type `T`: if `L` and `R` are integer, `T` is
integer; if `L` is pointer and `R` is integer, `T` is pointer; and if `T` is
pointer, `L` is pointer and `R` is integer. -/
theorem sub_implications_at_fixed_point (a : TypeAnalyzer) (fuel rounds : Nat)
    (function : Function) (canceled : Nat → Bool) (s s2 : Types) (w : s.WF)
    (hnc : ∀ k, canceled k = false)
    (e : a.analyze fuel rounds function canceled s = .ok s2)
    (term : Term) (hm : term ∈ (a.census function).terms) (hu : a.isUsed term.id = true)
    (left right : Nat) (hk : term.kind = .BINARY_OPERATOR .SUB left right) :
    (isInteger s2.heap (s2.getType left).2 = true ∧
      isInteger s2.heap (s2.getType right).2 = true →
        isInteger s2.heap (s2.getType term.id).2 = true) ∧
    (isPointer s2.heap (s2.getType left).2 = true ∧
      isInteger s2.heap (s2.getType right).2 = true →
        isPointer s2.heap (s2.getType term.id).2 = true) ∧
    (isPointer s2.heap (s2.getType term.id).2 = true →
      isPointer s2.heap (s2.getType left).2 = true ∧
      isInteger s2.heap (s2.getType right).2 = true) := by
  obtain ⟨w2, q, hT, hL, hR, k⟩ := binary_fixed w hnc e hm hu hk
  rw [binaryAction_sub] at k
  have m := (seq_quiet _ (subList_wired fuel (fun k => k ∈ s2.keys) _ _ _
    (a.dataflow.getValue right) hT hL hR) _ _ w2 k q).2
  show (isInteger s2.heap (findSet s2.heap left) = true ∧
      isInteger s2.heap (findSet s2.heap right) = true →
        isInteger s2.heap (findSet s2.heap term.id) = true) ∧
    (isPointer s2.heap (findSet s2.heap left) = true ∧
      isInteger s2.heap (findSet s2.heap right) = true →
        isPointer s2.heap (findSet s2.heap term.id) = true) ∧
    (isPointer s2.heap (findSet s2.heap term.id) = true →
      isPointer s2.heap (findSet s2.heap left) = true ∧
      isInteger s2.heap (findSet s2.heap right) = true)
  refine ⟨?_, ?_, ?_⟩
  · intro ⟨c1, c2⟩
    have m1 := m (when (fun h => isInteger h (findSet s2.heap left) &&
        isInteger h (findSet s2.heap right)) (lift (makeInteger (findSet s2.heap term.id))))
      (by simp [subKindBlock])
    exact isInteger_of_fixed (lift_quiet (when_quiet m1 (by simp [c1, c2])))
  · intro ⟨c1, c2⟩
    have m2 := m (when (fun h => isPointer h (findSet s2.heap left) &&
        isInteger h (findSet s2.heap right)) (lift (makePointer (findSet s2.heap term.id))))
      (by simp [subKindBlock])
    exact isPointer_of_fixed (lift_quiet (when_quiet m2 (by simp [c1, c2])))
  · intro c
    have m3 := m (when (fun h => isPointer h (findSet s2.heap term.id))
        (seq [lift (makePointer (findSet s2.heap left)),
              lift (makeInteger (findSet s2.heap right))]))
      (by simp [subKindBlock])
    have m4 := (seq_quiet _ (wired_cons (Wired.makePointer hL)
      (wired_cons (Wired.makeInteger hR) (wired_nil fuel _))) _ _ w2 (when_quiet m3 c) q).2
    exact ⟨isPointer_of_fixed (lift_quiet (m4 _ (List.mem_cons_self _ _))),
      isInteger_of_fixed (lift_quiet (m4 _ (List.mem_cons_of_mem _ (List.mem_cons_self _ _))))⟩

/-- Witness of C15: after the analysis of `t3 := *t2`, `t2 := SUB(t0, t1)`, the
type of `t2` is pointer, hence `t0` is pointer and `t1` is integer. -/
theorem sub_implications_at_fixed_point_witness :
    isPointer (resultStore (subExample.analyze 1 3 (blockOf []) (fun _ => false)
        Types.empty)).heap
      ((resultStore (subExample.analyze 1 3 (blockOf []) (fun _ => false)
        Types.empty)).getType 0).2 = true ∧
    isInteger (resultStore (subExample.analyze 1 3 (blockOf []) (fun _ => false)
        Types.empty)).heap
      ((resultStore (subExample.analyze 1 3 (blockOf []) (fun _ => false)
        Types.empty)).getType 1).2 = true :=
  (sub_implications_at_fixed_point subExample 1 3 (blockOf []) (fun _ => false) Types.empty _
    Types.empty_wf (fun _ => rfl) (eq_ok_of_returned (by decide!))
    ⟨2, true, .BINARY_OPERATOR .SUB 0 1⟩ (by decide) rfl 0 1 rfl).2.2 (by decide!)

end TypeAnalyzer

namespace TypeAnalyzer

open Type_ Action

/-! ## The ADD rule at the fixed point -/

theorem addKindBlock_eq (type leftType rightType : Nat) (leftValue rightValue : Value) :
    addKindBlock type leftType rightType leftValue rightValue
      = [ when (fun h => isInteger h leftType && isInteger h rightType) (lift (makeInteger type)),
          when (fun h => (isInteger h leftType && isPointer h rightType) ||
                         (isPointer h leftType && isInteger h rightType))
            (lift (makePointer type)),
          when (fun h => isInteger h type)
            (seq [lift (makeInteger leftType), lift (makeInteger rightType)]),
          when (fun h => isPointer h type)
            (seq (addPointerBlock leftType rightType leftValue rightValue)) ] := rfl

theorem addPointerBlock_wired (fuel : Nat) (K : Nat → Prop) (leftType rightType : Nat)
    (leftValue rightValue : Value) (hL : K leftType) (hR : K rightType) :
    ∀ a ∈ addPointerBlock leftType rightType leftValue rightValue, Wired fuel K a := by
  simp only [addPointerBlock]
  repeat first
    | exact wired_nil fuel K
    | refine wired_cons ?_ ?_
    | exact Wired.makeInteger (by assumption)
    | exact Wired.makePointer (by assumption)
    | apply Wired.when
    | apply Wired.ifElse

theorem addList_wired (fuel : Nat) (K : Nat → Prop) (type leftType rightType : Nat)
    (leftValue rightValue : Value) (hT : K type) (hL : K leftType) (hR : K rightType) :
    ∀ a ∈ addKindBlock type leftType rightType leftValue rightValue ++
        (signednessBlock type leftType rightType ++
          addTail fuel type leftType rightType leftValue rightValue), Wired fuel K a := by
  simp only [addKindBlock, signednessBlock, addTail, List.cons_append, List.nil_append]
  repeat first
    | exact wired_nil fuel K
    | refine wired_cons ?_ ?_
    | exact Wired.seqNil
    | exact Wired.makeInteger (by assumption)
    | exact Wired.makePointer (by assumption)
    | exact Wired.makeSigned (by assumption)
    | exact Wired.makeUnsigned (by assumption)
    | exact Wired.updateFactorConst _ (by assumption)
    | exact Wired.makePointerTo (by assumption) (by assumption)
    | apply Wired.seqCons
    | apply Wired.when
    | apply Wired.ifElse

theorem ifElse_quiet_pos {c : Heap → Bool} {a b : Action} {h : Heap}
    (e : Action.ifElse c a b h = .ok h) (hc : c h = true) : a h = .ok h := by
  unfold Action.ifElse at e
  rw [if_pos hc] at e
  exact e

theorem ifElse_quiet_neg {c : Heap → Bool} {a b : Action} {h : Heap}
    (e : Action.ifElse c a b h = .ok h) (hc : c h = false) : b h = .ok h := by
  unfold Action.ifElse at e
  rw [if_neg (by simp [hc])] at e
  exact e

/-- The ADD rule on objects it does not change: if the type of the term is
pointer, the type of the right operand is not, and the value of an operand is
a product or concrete, then the type of the left operand is pointer and the
type of the right operand is integer. -/
theorem add_fixed_heap {fuel : Nat} {K : Nat → Prop} {type leftType rightType : Nat}
    {leftValue rightValue : Value} (hT : K type) (hL : K leftType) (hR : K rightType)
    {h : Heap} (w : HeapWF K h) (q : Quiet K h)
    (k : binaryAction fuel .ADD type leftType rightType leftValue rightValue h = .ok h)
    (hp : isPointer h type = true) (hnR : isPointer h rightType = false)
    (hv : leftValue.isProduct = true ∨ rightValue.isProduct = true ∨
      leftValue.isConcrete = true ∨ rightValue.isConcrete = true) :
    isPointer h leftType = true ∧ isInteger h rightType = true := by
  rw [binaryAction_add] at k
  have m := (seq_quiet _ (addList_wired fuel K type leftType rightType leftValue rightValue
    hT hL hR) _ _ w k q).2
  have m4 := m (when (fun h => isPointer h type)
      (seq (addPointerBlock leftType rightType leftValue rightValue)))
    (by rw [addKindBlock_eq]; simp)
  have n := (seq_quiet _ (addPointerBlock_wired fuel K leftType rightType leftValue rightValue
    hL hR) _ _ w (when_quiet m4 hp) q).2
  have n1 := n (when (fun h => isInteger h leftType) (lift (makePointer rightType)))
    (by simp [addPointerBlock])
  have n2 := n (when (fun h => isInteger h rightType) (lift (makePointer leftType)))
    (by simp [addPointerBlock])
  have n3 := n (when (fun h => isPointer h leftType) (lift (makeInteger rightType)))
    (by simp [addPointerBlock])
  have n5 := n _ (List.mem_cons_of_mem _ (List.mem_cons_of_mem _ (List.mem_cons_of_mem _
    (List.mem_cons_of_mem _ (List.mem_cons_self _ _)))))
  have i1 : isInteger h leftType = true → False := fun c => by
    have := isPointer_of_fixed (lift_quiet (when_quiet n1 c))
    rw [hnR] at this
    cases this
  have i2 : isInteger h rightType = true → isPointer h leftType = true :=
    fun c => isPointer_of_fixed (lift_quiet (when_quiet n2 c))
  have i3 : isPointer h leftType = true → isInteger h rightType = true :=
    fun c => isInteger_of_fixed (lift_quiet (when_quiet n3 c))
  have hLp : isPointer h leftType = true := by
    by_cases c : isPointer h leftType = true
    · exact c
    · exfalso
      have c5 := when_quiet n5 (by simp [c, hnR])
      by_cases v1 : leftValue.isProduct = true
      · have := isPointer_of_fixed (lift_quiet (ifElse_quiet_pos c5 v1))
        rw [hnR] at this
        cases this
      · have c6 := ifElse_quiet_neg c5 (by simpa using v1)
        by_cases v2 : rightValue.isProduct = true
        · exact c (isPointer_of_fixed (lift_quiet (ifElse_quiet_pos c6 v2)))
        · have c7 := ifElse_quiet_neg c6 (by simpa using v2)
          by_cases v3 : leftValue.isConcrete = true
          · have c8 := ifElse_quiet_pos c7 v3
            by_cases v4 : leftValue.value < 4096
            · exact i1 (isInteger_of_fixed (lift_quiet (ifElse_quiet_pos c8 (by simpa using v4))))
            · exact c (isPointer_of_fixed (lift_quiet (ifElse_quiet_neg c8 (by simpa using v4))))
          · have c8 := ifElse_quiet_neg c7 (by simpa using v3)
            have v5 : rightValue.isConcrete = true := by
              rcases hv with hv | hv | hv | hv
              · exact absurd hv v1
              · exact absurd hv v2
              · exact absurd hv v3
              · exact hv
            have c9 := when_quiet c8 v5
            by_cases v6 : rightValue.value < 4096
            · exact c (i2 (isInteger_of_fixed
                (lift_quiet (ifElse_quiet_pos c9 (by simpa using v6)))))
            · have := isPointer_of_fixed (lift_quiet (ifElse_quiet_neg c9 (by simpa using v6)))
              rw [hnR] at this
              cases this
  exact ⟨hLp, i3 hLp⟩

end TypeAnalyzer

namespace TypeAnalyzer

open Type_ Action

/-! ## The scenarios S2 and S3 -/

/-- After `analyze` returned without cancellation, the type of the address of a
used dereference is pointer. -/
theorem dereference_fixed {a : TypeAnalyzer} {fuel rounds : Nat} {function : Function}
    {canceled : Nat → Bool} {s s2 : Types} (w : s.WF) (hnc : ∀ k, canceled k = false)
    (e : a.analyze fuel rounds function canceled s = .ok s2)
    {term : Term} (hm : term ∈ (a.census function).terms) (hu : a.isUsed term.id = true)
    {address : Nat} (hk : term.kind = .DEREFERENCE address) :
    isPointer s2.heap (s2.getType address).2 = true := by
  obtain ⟨w2, _, _, kt, _⟩ := analyze_fixed w hnc e
  have hmu : term ∈ a.usedTerms function := List.mem_filter.2 ⟨hm, by simpa using hu⟩
  have k := kt term hmu
  unfold termStep termAction at k
  rw [hk] at k
  exact (makePointerTo_spec (w2.idem address) k).2.1

/-- After `analyze` returned without cancellation, for a used ADD term whose
type is pointer, while the type of its right operand is not, and the value of
one of whose operands is a product or concrete: the type of the left operand
is pointer and the type of the right operand is integer. -/
theorem add_fixed {a : TypeAnalyzer} {fuel rounds : Nat} {function : Function}
    {canceled : Nat → Bool} {s s2 : Types} (w : s.WF) (hnc : ∀ k, canceled k = false)
    (e : a.analyze fuel rounds function canceled s = .ok s2)
    {term : Term} (hm : term ∈ (a.census function).terms) (hu : a.isUsed term.id = true)
    {left right : Nat} (hk : term.kind = .BINARY_OPERATOR .ADD left right)
    (hp : isPointer s2.heap (s2.getType term.id).2 = true)
    (hnR : isPointer s2.heap (s2.getType right).2 = false)
    (hv : (a.dataflow.getValue left).isProduct = true ∨
      (a.dataflow.getValue right).isProduct = true ∨
      (a.dataflow.getValue left).isConcrete = true ∨
      (a.dataflow.getValue right).isConcrete = true) :
    isPointer s2.heap (s2.getType left).2 = true ∧
    isInteger s2.heap (s2.getType right).2 = true := by
  obtain ⟨w2, q, hT, hL, hR, k⟩ := binary_fixed w hnc e hm hu hk
  exact add_fixed_heap hT hL hR w2 q k hp hnR hv

/-- The ADD rule on objects it does not change: if the type of the term and
the type of the right operand are pointer, the type of the left operand is
integer. -/
theorem add_fixed_heap_right {fuel : Nat} {K : Nat → Prop} {type leftType rightType : Nat}
    {leftValue rightValue : Value} (hT : K type) (hL : K leftType) (hR : K rightType)
    {h : Heap} (w : HeapWF K h) (q : Quiet K h)
    (k : binaryAction fuel .ADD type leftType rightType leftValue rightValue h = .ok h)
    (hp : isPointer h type = true) (hRp : isPointer h rightType = true) :
    isInteger h leftType = true := by
  rw [binaryAction_add] at k
  have m := (seq_quiet _ (addList_wired fuel K type leftType rightType leftValue rightValue
    hT hL hR) _ _ w k q).2
  have m4 := m (when (fun h => isPointer h type)
      (seq (addPointerBlock leftType rightType leftValue rightValue)))
    (by rw [addKindBlock_eq]; simp)
  have n := (seq_quiet _ (addPointerBlock_wired fuel K leftType rightType leftValue rightValue
    hL hR) _ _ w (when_quiet m4 hp) q).2
  have n4 := n (when (fun h => isPointer h rightType) (lift (makeInteger leftType)))
    (by simp [addPointerBlock])
  exact isInteger_of_fixed (lift_quiet (when_quiet n4 hRp))

/-- C12, as the code has it: let a function have the used term `p := base + c`
(ADD), where the value of `c` is concrete (16 in the scenario S2), and a used
dereference `*p`, and let `analyze` return without cancellation.  Then
`type(p)` is pointer, and one operand is pointer and the other integer:
`type(base)` is pointer and the type of the constant is integer if the type
of the constant is not pointer at the end, otherwise the type of the constant
is pointer and `type(base)` is integer. -/
theorem pointer_plus_small_immediate (a : TypeAnalyzer) (fuel rounds : Nat)
    (function : Function) (canceled : Nat → Bool) (s s2 : Types) (w : s.WF)
    (hnc : ∀ k, canceled k = false)
    (e : a.analyze fuel rounds function canceled s = .ok s2)
    (p d : Term) (hp : p ∈ (a.census function).terms) (hpu : a.isUsed p.id = true)
    (base c : Nat) (hpk : p.kind = .BINARY_OPERATOR .ADD base c)
    (hd : d ∈ (a.census function).terms) (hdu : a.isUsed d.id = true)
    (hdk : d.kind = .DEREFERENCE p.id)
    (hcc : (a.dataflow.getValue c).isConcrete = true) :
    isPointer s2.heap (s2.getType p.id).2 = true ∧
    (isPointer s2.heap (s2.getType c).2 = false →
      isPointer s2.heap (s2.getType base).2 = true ∧
      isInteger s2.heap (s2.getType c).2 = true) ∧
    (isPointer s2.heap (s2.getType c).2 = true →
      isInteger s2.heap (s2.getType base).2 = true) ∧
    ((isPointer s2.heap (s2.getType base).2 = true ∧
        isInteger s2.heap (s2.getType c).2 = true) ∨
      (isPointer s2.heap (s2.getType c).2 = true ∧
        isInteger s2.heap (s2.getType base).2 = true)) := by
  have hT := dereference_fixed w hnc e hd hdu hdk
  have h1 : isPointer s2.heap (s2.getType c).2 = false →
      isPointer s2.heap (s2.getType base).2 = true ∧
      isInteger s2.heap (s2.getType c).2 = true :=
    fun hfree => add_fixed w hnc e hp hpu hpk hT hfree (Or.inr (Or.inr (Or.inr hcc)))
  have h2 : isPointer s2.heap (s2.getType c).2 = true →
      isInteger s2.heap (s2.getType base).2 = true := by
    intro hRp
    obtain ⟨w2, q, kT, kL, kR, k⟩ := binary_fixed w hnc e hp hpu hpk
    exact add_fixed_heap_right kT kL kR w2 q k hT hRp
  refine ⟨hT, h1, h2, ?_⟩
  cases hc : isPointer s2.heap (s2.getType c).2 with
  | false => exact Or.inl (h1 hc)
  | true => exact Or.inr ⟨rfl, h2 hc⟩

/-- Witness of C12: the scenario S2 itself, the function with the terms `base`,
`16`, `p := base + 16` and `*p`, analysed on the empty store: `p` and `base`
are pointer and the constant is integer. -/
theorem pointer_plus_small_immediate_witness :
    isPointer (resultStore (smallImmediateExample.analyze 1 4 (blockOf []) (fun _ => false)
        Types.empty)).heap
      ((resultStore (smallImmediateExample.analyze 1 4 (blockOf []) (fun _ => false)
        Types.empty)).getType 2).2 = true ∧
    isPointer (resultStore (smallImmediateExample.analyze 1 4 (blockOf []) (fun _ => false)
        Types.empty)).heap
      ((resultStore (smallImmediateExample.analyze 1 4 (blockOf []) (fun _ => false)
        Types.empty)).getType 0).2 = true ∧
    isInteger (resultStore (smallImmediateExample.analyze 1 4 (blockOf []) (fun _ => false)
        Types.empty)).heap
      ((resultStore (smallImmediateExample.analyze 1 4 (blockOf []) (fun _ => false)
        Types.empty)).getType 1).2 = true :=
  match pointer_plus_small_immediate smallImmediateExample 1 4 (blockOf []) (fun _ => false)
    Types.empty _ Types.empty_wf (fun _ => rfl) (eq_ok_of_returned (by decide!))
    ⟨2, true, .BINARY_OPERATOR .ADD 0 1⟩ ⟨3, true, .DEREFERENCE 2⟩ (by decide) rfl 0 1 rfl
    (by decide) rfl rfl rfl with
  | ⟨hT, h1, _, _⟩ => ⟨hT, h1 (by decide!)⟩

/-- Counterexample to C12 as stated: `sharedBaseExample` has the used term
`t2 := ADD(t0, t1)`, where the value of `t0` is neither concrete nor a product
and the value of `t1` is the concrete value 16, and the used dereference
`t3 := *t2`.  The type of `t0` is integer, since another read of its location
is an operand of a MUL.  The analysis on the empty store, with a token that is
never canceled, returns, and afterwards the type of `t0` is not pointer and
the type of the constant is not integer. -/
theorem pointer_plus_small_immediate_counterexample :
    (⟨2, true, .BINARY_OPERATOR .ADD 0 1⟩ : Term) ∈
        (sharedBaseExample.census (blockOf [])).terms ∧
    (⟨3, true, .DEREFERENCE 2⟩ : Term) ∈ (sharedBaseExample.census (blockOf [])).terms ∧
    (sharedBaseExample.dataflow.getValue 0).isConcrete = false ∧
    (sharedBaseExample.dataflow.getValue 0).isProduct = false ∧
    (sharedBaseExample.dataflow.getValue 1).isConcrete = true ∧
    (sharedBaseExample.dataflow.getValue 1).value = 16 ∧
    returned (sharedBaseExample.analyze 1 5 (blockOf []) (fun _ => false) Types.empty)
      = true ∧
    isPointer (resultStore (sharedBaseExample.analyze 1 5 (blockOf []) (fun _ => false)
        Types.empty)).heap
      ((resultStore (sharedBaseExample.analyze 1 5 (blockOf []) (fun _ => false)
        Types.empty)).getType 2).2 = true ∧
    isPointer (resultStore (sharedBaseExample.analyze 1 5 (blockOf []) (fun _ => false)
        Types.empty)).heap
      ((resultStore (sharedBaseExample.analyze 1 5 (blockOf []) (fun _ => false)
        Types.empty)).getType 0).2 = false ∧
    isInteger (resultStore (sharedBaseExample.analyze 1 5 (blockOf []) (fun _ => false)
        Types.empty)).heap
      ((resultStore (sharedBaseExample.analyze 1 5 (blockOf []) (fun _ => false)
        Types.empty)).getType 1).2 = false := by
  decide!

/-- C11, as the code has it: let a function have the used term `p := c + r`
(ADD), where the value of `r` is a product, and let `analyze` return without
cancellation.  If `type(p)` is pointer (the rule does not make it so: another
term must, such as a used dereference `*p`) and `type(r)` is not pointer, then
the type of the constant `c` is pointer, `type(r)` is integer and `type(p)` is
pointer. -/
theorem pointer_plus_large_immediate (a : TypeAnalyzer) (fuel rounds : Nat)
    (function : Function) (canceled : Nat → Bool) (s s2 : Types) (w : s.WF)
    (hnc : ∀ k, canceled k = false)
    (e : a.analyze fuel rounds function canceled s = .ok s2)
    (p : Term) (hp : p ∈ (a.census function).terms) (hpu : a.isUsed p.id = true)
    (c r : Nat) (hpk : p.kind = .BINARY_OPERATOR .ADD c r)
    (hrp : (a.dataflow.getValue r).isProduct = true)
    (hT : isPointer s2.heap (s2.getType p.id).2 = true)
    (hfree : isPointer s2.heap (s2.getType r).2 = false) :
    isPointer s2.heap (s2.getType c).2 = true ∧
    isInteger s2.heap (s2.getType r).2 = true ∧
    isPointer s2.heap (s2.getType p.id).2 = true := by
  obtain ⟨h1, h2⟩ := add_fixed w hnc e hp hpu hpk hT hfree (Or.inr (Or.inl hrp))
  exact ⟨h1, h2, hT⟩

/-- Witness of C11: the function with the terms `0x400000`, `r`,
`p := 0x400000 + r` and `*p`, analysed on the empty store. -/
theorem pointer_plus_large_immediate_witness :
    isPointer (resultStore ((largeImmediateExample true).analyze 1 4 (blockOf [])
        (fun _ => false) Types.empty)).heap
      ((resultStore ((largeImmediateExample true).analyze 1 4 (blockOf [])
        (fun _ => false) Types.empty)).getType 0).2 = true ∧
    isInteger (resultStore ((largeImmediateExample true).analyze 1 4 (blockOf [])
        (fun _ => false) Types.empty)).heap
      ((resultStore ((largeImmediateExample true).analyze 1 4 (blockOf [])
        (fun _ => false) Types.empty)).getType 1).2 = true ∧
    isPointer (resultStore ((largeImmediateExample true).analyze 1 4 (blockOf [])
        (fun _ => false) Types.empty)).heap
      ((resultStore ((largeImmediateExample true).analyze 1 4 (blockOf [])
        (fun _ => false) Types.empty)).getType 2).2 = true :=
  pointer_plus_large_immediate (largeImmediateExample true) 1 4 (blockOf []) (fun _ => false)
    Types.empty _ Types.empty_wf (fun _ => rfl) (eq_ok_of_returned (by decide!))
    ⟨2, true, .BINARY_OPERATOR .ADD 0 1⟩ (by decide) rfl 0 1 rfl rfl (by decide!) (by decide!)

/-- Counterexample to C11 as stated: the function whose terms are `0x400000`,
`r` (a product) and the used term `p := 0x400000 + r`, analysed on the empty
store with a token that is never canceled.  The analysis returns, and
afterwards the type of `p` is not pointer, the type of the constant is not
pointer and the type of `r` is not integer. -/
theorem pointer_plus_large_immediate_counterexample :
    (⟨2, true, .BINARY_OPERATOR .ADD 0 1⟩ : Term) ∈
        ((largeImmediateExample false).census (blockOf [])).terms ∧
    ((largeImmediateExample false).dataflow.getValue 0).isConcrete = true ∧
    4096 ≤ ((largeImmediateExample false).dataflow.getValue 0).value ∧
    ((largeImmediateExample false).dataflow.getValue 1).isProduct = true ∧
    returned ((largeImmediateExample false).analyze 1 4 (blockOf []) (fun _ => false)
      Types.empty) = true ∧
    isPointer (resultStore ((largeImmediateExample false).analyze 1 4 (blockOf [])
        (fun _ => false) Types.empty)).heap
      ((resultStore ((largeImmediateExample false).analyze 1 4 (blockOf [])
        (fun _ => false) Types.empty)).getType 2).2 = false ∧
    isPointer (resultStore ((largeImmediateExample false).analyze 1 4 (blockOf [])
        (fun _ => false) Types.empty)).heap
      ((resultStore ((largeImmediateExample false).analyze 1 4 (blockOf [])
        (fun _ => false) Types.empty)).getType 0).2 = false ∧
    isInteger (resultStore ((largeImmediateExample false).analyze 1 4 (blockOf [])
        (fun _ => false) Types.empty)).heap
      ((resultStore ((largeImmediateExample false).analyze 1 4 (blockOf [])
        (fun _ => false) Types.empty)).getType 1).2 = false := by
  decide!

end TypeAnalyzer

/-! ## The unsigned bit of the left operand -/

theorem Sparing.sparingFactorConst {D : Nat → Prop} (x v : Nat) :
    Sparing D (lift (Type_.updateFactor x v)) :=
  Sparing.updateFactor x (fun _ => v)

/-- Code that calls `makeUnsigned` only on handles of `D` returns, keeps the
classes, and keeps the unsigned bit of every type whose class is the class of
no handle of `D`. -/
theorem Sparing.spares {D : Nat → Prop} {a : Action} (p : Sparing D a) :
    ∀ h, ∃ h2, a h = .ok h2 ∧ (∀ j, findSet h2 j = findSet h j) ∧
      ∀ x, (∀ y, D y → findSet h x ≠ findSet h y) → isUnsigned h2 x = isUnsigned h x := by
  induction p with
  | skip => exact fun h => ⟨h, rfl, fun _ => rfl, fun _ _ => rfl⟩
  | makeInteger x => exact fun h => ⟨_, rfl, fun j => by simp, fun _ _ => by simp⟩
  | makePointer x => exact fun h => ⟨_, rfl, fun j => by simp, fun _ _ => by simp⟩
  | makeSigned x => exact fun h => ⟨_, rfl, fun j => by simp, fun _ _ => by simp⟩
  | makeUnsigned hy =>
    intro h
    refine ⟨_, rfl, fun j => by simp, fun x hx => ?_⟩
    rw [isUnsigned_makeUnsigned]
    simp [hx _ hy]
  | updateFactor x v => exact fun h => ⟨_, rfl, fun j => by simp, fun _ _ => by simp⟩
  | seqNil => exact fun h => ⟨h, rfl, fun _ => rfl, fun _ _ => rfl⟩
  | seqCons _ _ iha ihr =>
    intro h
    obtain ⟨h1, e1, l1, u1⟩ := iha h
    obtain ⟨h2, e2, l2, u2⟩ := ihr h1
    refine ⟨h2, ?_, fun j => (l2 j).trans (l1 j), fun x hx => ?_⟩
    · unfold seq
      rw [e1]
      exact e2
    · rw [u2 x (fun y hy => by rw [l1, l1]; exact hx y hy), u1 x hx]
  | when c _ iha =>
    intro h
    unfold Action.when
    split
    · exact iha h
    · exact ⟨h, rfl, fun _ => rfl, fun _ _ => rfl⟩
  | whenNever c a hc =>
    intro h
    unfold Action.when
    rw [hc h]
    exact ⟨h, rfl, fun _ => rfl, fun _ _ => rfl⟩
  | ifElse c _ _ iha ihb =>
    intro h
    unfold Action.ifElse
    split
    · exact iha h
    · exact ihb h

namespace TypeAnalyzer

open Type_ Action

theorem signednessBlock_sparing (type leftType rightType : Nat) :
    Sparing (fun y => y = type ∨ y = rightType) (seq (signednessBlock type leftType rightType)) := by
  simp only [signednessBlock]
  repeat first
    | exact Sparing.seqNil
    | exact Sparing.makeSigned _
    | exact Sparing.makeUnsigned (Or.inl rfl)
    | exact Sparing.makeUnsigned (Or.inr rfl)
    | apply Sparing.seqCons
    | apply Sparing.when

theorem arithmetic_sparing (fuel : Nat) (operatorKind : BinaryOperatorKind)
    (type leftType rightType : Nat) (leftValue rightValue : Value)
    (hop : operatorKind = .ADD ∨ operatorKind = .SUB ∨ operatorKind = .MUL)
    (hlp : leftValue.isProduct = false) (hrp : rightValue.isProduct = false) :
    Sparing (fun y => y = type ∨ y = rightType)
      (binaryAction fuel operatorKind type leftType rightType leftValue rightValue) := by
  rcases hop with e | e | e <;> subst e <;>
    simp only [binaryAction, signednessBlock, List.cons_append, List.nil_append] <;>
    repeat first
      | exact Sparing.seqNil
      | exact Sparing.makeInteger _
      | exact Sparing.makePointer _
      | exact Sparing.makeSigned _
      | exact Sparing.makeUnsigned (Or.inl rfl)
      | exact Sparing.makeUnsigned (Or.inr rfl)
      | exact Sparing.sparingFactorConst _ _
      | exact Sparing.updateFactor _ _
      | (refine Sparing.whenNever _ _ (fun h => ?_); rw [hrp]; exact Bool.and_false _)
      | (refine Sparing.whenNever _ _ (fun h => ?_); rw [hlp]; exact Bool.and_false _)
      | apply Sparing.seqCons
      | apply Sparing.when
      | apply Sparing.ifElse

theorem when_eq_of_true {c : Heap → Bool} {a : Action} {h : Heap} (hc : c h = true) :
    Action.when c a h = a h := by
  unfold Action.when
  rw [if_pos hc]

/-- In the signedness block, when the type of the term is unsigned and an
operand is signed, the right operand is made unsigned. -/
theorem signednessBlock_forces_right (type leftType rightType : Nat) (h h2 : Heap)
    (e : seq (signednessBlock type leftType rightType) h = .ok h2)
    (hu : isUnsigned h type = true)
    (hs : isSigned h leftType = true ∨ isSigned h rightType = true) :
    isUnsigned h2 rightType = true := by
  unfold signednessBlock at e
  obtain ⟨h1, e1, e⟩ := seq_cons_ok e
  obtain ⟨h3, e2, e⟩ := seq_cons_ok e
  obtain ⟨h4, e3, e⟩ := seq_cons_ok e
  obtain ⟨h5, e4, e⟩ := seq_cons_ok e
  injection e with e
  subst e
  have t : (fun _ : Nat => True) type := trivial
  have g1 := (@Wired.when 0 (fun _ => True) _ _ (Wired.makeUnsigned t)).grow _ _ e1
  have g2 := (@Wired.when 0 (fun _ => True) _ _ (Wired.makeSigned t)).grow _ _ e2
  have g3 := (@Wired.when 0 (fun _ => True) _ _
    (Wired.seqCons (Wired.makeSigned t) (Wired.seqCons (Wired.makeSigned t) Wired.seqNil))).grow
      _ _ e3
  have g := (g1.grow_trans g2).grow_trans g3
  have hu4 := g.unsigned _ hu
  have hs4 : isSigned h4 leftType = true ∨ isSigned h4 rightType = true :=
    hs.imp (g.signed _) (g.signed _)
  rw [when_eq_of_true hu4] at e4
  by_cases c1 : isSigned h4 leftType = true <;>
    by_cases c2 : isSigned h4 rightType = true <;>
    simp [c1, c2] at e4 hs4 <;>
    subst e4 <;>
    simp

/-- C21, as the code has it.  In the signedness block shared by the ADD, SUB and
MUL cases `makeUnsigned` is called on the type of the term and on the type of
the right operand only: the block returns and keeps the unsigned bit of every
type in another class, and when the type of the term is unsigned and an
operand is signed it makes the right operand unsigned.  For a well-formed
store in which the class of the left operand is neither the class of the term
nor the class of the right operand, and when neither operand value is a
product (so that the rule propagates no pointee and makes no union), one
application of the ADD, SUB or MUL rule returns and leaves the unsigned bit of
the type of the left operand as it was. -/
theorem left_unsigned_bit_kept (a : TypeAnalyzer) (fuel : Nat) (s : Types) (w : s.WF)
    (term : Term) (operatorKind : BinaryOperatorKind) (left right : Nat)
    (hk : term.kind = .BINARY_OPERATOR operatorKind left right)
    (hop : operatorKind = .ADD ∨ operatorKind = .SUB ∨ operatorKind = .MUL)
    (hLT : (s.getType left).2 ≠ (s.getType term.id).2)
    (hLR : (s.getType left).2 ≠ (s.getType right).2)
    (hlp : (a.dataflow.getValue left).isProduct = false)
    (hrp : (a.dataflow.getValue right).isProduct = false) :
    (∃ s2, a.analyzeTerm fuel s term = .ok s2 ∧
      isUnsigned s2.heap (s2.getType left).2 = isUnsigned s.heap (s.getType left).2) ∧
    (∀ (type leftType rightType : Nat) (h : Heap),
      ∃ h2, seq (signednessBlock type leftType rightType) h = .ok h2 ∧
        (∀ x, findSet h x ≠ findSet h type → findSet h x ≠ findSet h rightType →
          isUnsigned h2 x = isUnsigned h x) ∧
        (isUnsigned h type = true →
          isSigned h leftType = true ∨ isSigned h rightType = true →
            isUnsigned h2 rightType = true)) := by
  refine ⟨?_, ?_⟩
  · obtain ⟨h2, e2, l2, u2⟩ := (arithmetic_sparing fuel operatorKind (findSet s.heap term.id)
      (findSet s.heap left) (findSet s.heap right) _ _ hop hlp hrp).spares s.heap
    refine ⟨⟨h2, touchKeys s.keys (termIds term)⟩, ?_, ?_⟩
    · rw [analyzeTerm_eq, Types.run_touchAll]
      unfold termAction
      rw [hk]
      simp only
      rw [e2]
      rfl
    · show isUnsigned h2 (findSet h2 left) = isUnsigned s.heap (findSet s.heap left)
      rw [l2]
      apply u2
      intro y hy
      rw [w.idem]
      rcases hy with hy | hy
      · rw [hy, w.idem]
        exact hLT
      · rw [hy, w.idem]
        exact hLR
  · intro type leftType rightType h
    obtain ⟨h2, e2, _, u2⟩ := (signednessBlock_sparing type leftType rightType).spares h
    refine ⟨h2, e2, fun x c1 c2 => u2 x ?_,
      fun hu hs => signednessBlock_forces_right type leftType rightType h h2 e2 hu hs⟩
    intro y hy
    rcases hy with hy | hy
    · rw [hy]; exact c1
    · rw [hy]; exact c2

theorem unsignedSumStore_wf : unsignedSumStore.WF :=
  (analyzeTerm_ext
    (analyzeTerm_ext Types.empty_wf (eq_ok_of_returned
      (by decide! : returned (unsignedSumExample.analyzeTerm 1 Types.empty
        ⟨3, true, .BINARY_OPERATOR .AND 2 2⟩) = true))).wf
    (eq_ok_of_returned
      (by decide! : returned (unsignedSumExample.analyzeTerm 1
        (resultStore (unsignedSumExample.analyzeTerm 1 Types.empty
          ⟨3, true, .BINARY_OPERATOR .AND 2 2⟩))
        ⟨4, true, .UNARY_OPERATOR .SIGN_EXTEND 1⟩) = true))).wf

/-- Witness of C21: on the store where `t2` is unsigned and `t1` is signed, the
rule of `t2 := ADD(t0, t1)` makes `t1` unsigned and leaves `t0` as it was, not
unsigned. -/
theorem left_unsigned_bit_kept_witness :
    (∃ s2, unsignedSumExample.analyzeTerm 1 unsignedSumStore
        ⟨2, true, .BINARY_OPERATOR .ADD 0 1⟩ = .ok s2 ∧
      isUnsigned s2.heap (s2.getType 0).2
        = isUnsigned unsignedSumStore.heap (unsignedSumStore.getType 0).2) ∧
    isUnsigned unsignedSumStore.heap (unsignedSumStore.getType 0).2 = false ∧
    isUnsigned (resultStore (unsignedSumExample.analyzeTerm 1 unsignedSumStore
        ⟨2, true, .BINARY_OPERATOR .ADD 0 1⟩)).heap
      ((resultStore (unsignedSumExample.analyzeTerm 1 unsignedSumStore
        ⟨2, true, .BINARY_OPERATOR .ADD 0 1⟩)).getType 1).2 = true :=
  ⟨(left_unsigned_bit_kept unsignedSumExample 1 unsignedSumStore unsignedSumStore_wf
      ⟨2, true, .BINARY_OPERATOR .ADD 0 1⟩ .ADD 0 1 rfl (Or.inl rfl) (by decide!) (by decide!)
      rfl rfl).1,
   by decide!, by decide!⟩

/-- Counterexample to C21 as stated: in `pointeeMergeStore` the types of `t0`,
`t1` and `t2` are three distinct representatives and `t0` is not unsigned; the
value of `t0` is a product, `t1` points to the class of `t0` and `t2` points
to `t5`, which is unsigned.  The rule of `t2 := ADD(t0, t1)` returns, and
afterwards the type of the left operand `t0` is unsigned: the pointee of
`type(t1)` was unified with the pointee of `type(t2)`. -/
theorem left_unsigned_bit_kept_counterexample :
    (pointeeMergeStore.getType 0).2 ≠ (pointeeMergeStore.getType 1).2 ∧
    (pointeeMergeStore.getType 0).2 ≠ (pointeeMergeStore.getType 2).2 ∧
    (pointeeMergeStore.getType 1).2 ≠ (pointeeMergeStore.getType 2).2 ∧
    findSet pointeeMergeStore.heap (pointeeMergeStore.getType 0).2
      = (pointeeMergeStore.getType 0).2 ∧
    isUnsigned pointeeMergeStore.heap (pointeeMergeStore.getType 0).2 = false ∧
    returned (pointeeMergeExample.analyzeTerm 1 pointeeMergeStore
      ⟨2, true, .BINARY_OPERATOR .ADD 0 1⟩) = true ∧
    isUnsigned (resultStore (pointeeMergeExample.analyzeTerm 1 pointeeMergeStore
        ⟨2, true, .BINARY_OPERATOR .ADD 0 1⟩)).heap
      ((resultStore (pointeeMergeExample.analyzeTerm 1 pointeeMergeStore
        ⟨2, true, .BINARY_OPERATOR .ADD 0 1⟩)).getType 0).2 = true := by
  decide!

end TypeAnalyzer

/-! ## The schedule of a round -/

theorem sweep_append {α : Type} (f : Types → α → Except Failure Types) (l1 l2 : List α) :
    ∀ s, sweep f (l1 ++ l2) s = match sweep f l1 s with
      | .ok s1 => sweep f l2 s1
      | .error e => .error e := by
  induction l1 with
  | nil => intro s; rfl
  | cons x rest ih =>
    intro s
    show (match f s x with | .ok s1 => sweep f (rest ++ l2) s1 | .error e => .error e) = _
    show _ = match (match f s x with | .ok s1 => sweep f rest s1 | .error e => .error e) with
      | .ok s1 => sweep f l2 s1
      | .error e => .error e
    cases f s x with
    | ok s1 => exact ih s1
    | error e => rfl

theorem sweep_map {α β : Type} (f : Types → β → Except Failure Types) (g : α → β)
    (l : List α) : ∀ s, sweep f (l.map g) s = sweep (fun s x => f s (g x)) l s := by
  induction l with
  | nil => intro s; rfl
  | cons x rest ih =>
    intro s
    show (match f s (g x) with | .ok s1 => sweep f (rest.map g) s1 | .error e => .error e)
      = match f s (g x) with
        | .ok s1 => sweep (fun s x => f s (g x)) rest s1
        | .error e => .error e
    cases f s (g x) with
    | ok s1 => exact ih s1
    | error e => rfl

theorem filterMap_getLeft_inl {α β : Type} (l : List α) :
    (l.map (Sum.inl : α → α ⊕ β)).filterMap Sum.getLeft? = l := by
  induction l with
  | nil => rfl
  | cons x rest ih => rw [List.map_cons, List.filterMap_cons]; simp [ih]

theorem filterMap_getLeft_inr {α β : Type} (l : List β) :
    (l.map (Sum.inr : β → α ⊕ β)).filterMap Sum.getLeft? = [] := by
  induction l with
  | nil => rfl
  | cons x rest ih => rw [List.map_cons, List.filterMap_cons]; simp [ih]

theorem filterMap_getRight_inl {α β : Type} (l : List α) :
    (l.map (Sum.inl : α → α ⊕ β)).filterMap Sum.getRight? = [] := by
  induction l with
  | nil => rfl
  | cons x rest ih => rw [List.map_cons, List.filterMap_cons]; simp [ih]

theorem filterMap_getRight_inr {α β : Type} (l : List β) :
    (l.map (Sum.inr : β → α ⊕ β)).filterMap Sum.getRight? = l := by
  induction l with
  | nil => rfl
  | cons x rest ih => rw [List.map_cons, List.filterMap_cons]; simp [ih]

namespace TypeAnalyzer

open Type_ Action

theorem sweep_applyRule_inl (a : TypeAnalyzer) (fuel : Nat) (l : List Term) (s : Types) :
    sweep (a.applyRule fuel) (l.map Sum.inl) s = sweep (a.analyzeTerm fuel) l s :=
  sweep_map _ _ l s

theorem sweep_applyRule_inr (a : TypeAnalyzer) (fuel : Nat) (l : List Statement) (s : Types) :
    sweep (a.applyRule fuel) (l.map Sum.inr) s = sweep (analyzeStatement fuel) l s :=
  sweep_map _ _ l s

theorem round_eq_schedule (a : TypeAnalyzer) (fuel : Nat) (function : Function) (s : Types) :
    a.round fuel (a.usedTerms function) (a.census function).statements s
      = sweep (a.applyRule fuel) (a.roundSchedule function) s := by
  unfold roundSchedule round usedTerms
  simp only [sweep_append, sweep_applyRule_inl, sweep_applyRule_inr]
  cases sweep (a.analyzeTerm fuel)
    ((a.census function).terms.filter (fun term => a.isUsed term.id)) s with
  | error e => rfl
  | ok s1 =>
    simp only
    cases sweep (a.analyzeTerm fuel)
      ((a.census function).terms.filter (fun term => a.isUsed term.id)).reverse s1 with
    | error e => rfl
    | ok s2 =>
      simp only
      cases sweep (analyzeStatement fuel) (a.census function).statements s2 with
      | error e => rfl
      | ok s3 => rfl

/-- C22: the working sequence of terms of the driver is the subsequence of the
enumerated terms that are used, in their order and with their multiplicities;
a round is this schedule of rule applications: the term rule on the working
sequence forward and then in reverse, then the statement rule on all
enumerated statements forward and then in reverse.  So the terms the term rule
is applied to in a round are the working sequence followed by its reverse,
none of them a term that is not used, the statements the statement rule is
applied to are the enumerated statements followed by their reverse, and the
loop of `analyze` runs these rounds. -/
theorem round_schedule_exact (a : TypeAnalyzer) (function : Function) :
    List.Sublist (a.usedTerms function) (a.census function).terms ∧
    (∀ term, term ∈ a.usedTerms function ↔
      (term ∈ (a.census function).terms ∧ a.isUsed term.id = true)) ∧
    (∀ term, List.count term (a.usedTerms function)
      = if a.isUsed term.id = true then List.count term (a.census function).terms else 0) ∧
    (∀ fuel s, a.round fuel (a.usedTerms function) (a.census function).statements s
      = sweep (a.applyRule fuel) (a.roundSchedule function) s) ∧
    (a.roundSchedule function).filterMap Sum.getLeft?
      = a.usedTerms function ++ (a.usedTerms function).reverse ∧
    (∀ term, Sum.inl term ∈ a.roundSchedule function → a.isUsed term.id = true) ∧
    (a.roundSchedule function).filterMap Sum.getRight?
      = (a.census function).statements ++ (a.census function).statements.reverse ∧
    (∀ fuel canceled rounds k s,
      a.iterate fuel canceled (a.usedTerms function) (a.census function).statements
          (rounds + 1) k s
        = match sweep (a.applyRule fuel) (a.roundSchedule function) s with
          | .error e => .error e
          | .ok s1 =>
            if s1.probe.1 && !canceled k then
              a.iterate fuel canceled (a.usedTerms function) (a.census function).statements
                rounds (k + 1) s1.probe.2
            else .ok s1.probe.2) ∧
    (∀ fuel rounds canceled s,
      a.analyze fuel rounds function canceled s
        = match sweep (a.seedTerm fuel) (a.census function).terms s with
          | .error e => .error e
          | .ok s1 =>
            match a.unifyReturns fuel function s1 with
            | .error e => .error e
            | .ok s2 =>
              a.iterate fuel canceled (a.usedTerms function) (a.census function).statements
                rounds 0 s2) := by
  have hleft : (a.roundSchedule function).filterMap Sum.getLeft?
      = a.usedTerms function ++ (a.usedTerms function).reverse := by
    unfold roundSchedule usedTerms
    rw [List.filterMap_append, List.filterMap_append, List.filterMap_append,
      filterMap_getLeft_inl, filterMap_getLeft_inl, filterMap_getLeft_inr,
      filterMap_getLeft_inr, List.append_nil, List.append_nil]
  have hmem : ∀ term, term ∈ a.usedTerms function ↔
      (term ∈ (a.census function).terms ∧ a.isUsed term.id = true) := by
    intro term
    unfold usedTerms
    rw [List.mem_filter]
  refine ⟨List.filter_sublist _, hmem, ?_, fun fuel s => round_eq_schedule a fuel function s,
    hleft, ?_, ?_, ?_, fun _ _ _ _ => rfl⟩
  · intro term
    unfold usedTerms
    by_cases hu : a.isUsed term.id = true
    · rw [if_pos hu]
      exact List.count_filter hu
    · rw [if_neg hu, List.count_eq_zero]
      intro hm
      exact hu (by simpa using (List.mem_filter.1 hm).2)
  · intro term hm
    have h1 : term ∈ (a.roundSchedule function).filterMap Sum.getLeft? :=
      List.mem_filterMap.2 ⟨_, hm, rfl⟩
    rw [hleft, List.mem_append, List.mem_reverse, or_self] at h1
    exact ((hmem term).1 h1).2
  · unfold roundSchedule
    rw [List.filterMap_append, List.filterMap_append, List.filterMap_append,
      filterMap_getRight_inl, filterMap_getRight_inl, filterMap_getRight_inr,
      filterMap_getRight_inr, List.nil_append, List.nil_append]
  · intro fuel canceled rounds k s
    rw [← round_eq_schedule]
    rfl

/-- Witness of C22: the term `t9` of `unusedExample` has an unknown kind, so the
term rule fails on it, and it is not used: the schedule of a round is the term
rule on `t0`, `t1`, `t2`, `t2`, `t1`, `t0` and twice the statement rule on
`t0 := t1`, and the analysis returns. -/
theorem round_schedule_exact_witness :
    unusedExample.analyzeTerm 1 Types.empty ⟨9, true, .UNKNOWN 42⟩ = .error .unreachable ∧
    unusedExample.roundSchedule (blockOf [])
      = [.inl ⟨0, true, .MEMORY_LOCATION_ACCESS⟩, .inl ⟨1, true, .MEMORY_LOCATION_ACCESS⟩,
         .inl ⟨2, true, .BINARY_OPERATOR .AND 0 1⟩, .inl ⟨2, true, .BINARY_OPERATOR .AND 0 1⟩,
         .inl ⟨1, true, .MEMORY_LOCATION_ACCESS⟩, .inl ⟨0, true, .MEMORY_LOCATION_ACCESS⟩,
         .inr ⟨10, .ASSIGNMENT 0 1⟩, .inr ⟨10, .ASSIGNMENT 0 1⟩] ∧
    unusedExample.round 1 (unusedExample.usedTerms (blockOf []))
        (unusedExample.census (blockOf [])).statements Types.empty
      = sweep (unusedExample.applyRule 1) (unusedExample.roundSchedule (blockOf []))
          Types.empty ∧
    returned (unusedExample.analyze 1 3 (blockOf []) (fun _ => false) Types.empty) = true :=
  ⟨rfl, by decide, (round_schedule_exact unusedExample (blockOf [])).2.2.2.1 1 Types.empty,
   by decide!⟩

end TypeAnalyzer

namespace TypeAnalyzer

open Type_ Action

/-! ## The factor after a shift -/

theorem shlOne_of_lt {k : Nat} (hk : k < 64) : shlOne k = 2 ^ k := by
  unfold shlOne
  exact Nat.mod_eq_of_lt (Nat.pow_lt_pow_right (by decide) hk)

theorem binaryAction_shl_eq (fuel : Nat) (type leftType rightType : Nat)
    (leftValue rightValue : Value) :
    binaryAction fuel .SHL type leftType rightType leftValue rightValue
      = seq (shlBitsBlock type leftType rightType ++
          [when (fun _ => rightValue.isConcrete)
            (fun h => .ok (updateFactor type
              (mulValue (factor h leftType) (shlOne rightValue.value)) h))]) := by
  simp only [binaryAction, shlBitsBlock, List.cons_append, List.nil_append]

theorem shlList_wired (fuel : Nat) (K : Nat → Prop) (type leftType rightType : Nat)
    (rightValue : Value) (hT : K type) (hL : K leftType) (hR : K rightType) :
    ∀ a ∈ shlBitsBlock type leftType rightType ++
        [when (fun _ => rightValue.isConcrete)
          (fun h => .ok (updateFactor type
            (mulValue (factor h leftType) (shlOne rightValue.value)) h))],
      Wired fuel K a := by
  simp only [shlBitsBlock, List.cons_append, List.nil_append]
  repeat first
    | exact wired_nil fuel K
    | refine wired_cons ?_ ?_
    | exact Wired.makeInteger (by assumption)
    | exact Wired.makeSigned (by assumption)
    | exact Wired.makeUnsigned (by assumption)
    | exact Wired.updateFactor _ (by assumption)
    | apply Wired.when

theorem factor_dvd_of_fixed {x v : Nat} {h : Heap} (e : updateFactor x v h = h) :
    factor h x ∣ v := by
  have k := factor_stored_updateFactor x v h
  rw [e] at k
  unfold factor
  split
  · exact one_dvd v
  · rw [k]
    exact Nat.gcd_dvd_right _ _

/-- C10, as the code has it.  The SHL rule, when the value of the right operand
is the concrete value `k` (below 64, where the shift is defined), calls
`type(t).updateFactor(type(a).factor() * (1 << k))` after the calls that set
the bits, so that the stored factor of the type of the term becomes the GCD of
the former one and of this product.  Hence after an analysis that returned
without cancellation, for every used such term of the function `type(a)` is
integer and `type(t).factor()` divides `type(a).factor() * (1 << k)`. -/
theorem shl_factor (a : TypeAnalyzer) (fuel : Nat) (s s2 : Types)
    (term : Term) (left right : Nat) (hk : term.kind = .BINARY_OPERATOR .SHL left right)
    (hc : (a.dataflow.getValue right).isConcrete = true)
    (hv : (a.dataflow.getValue right).value < 64)
    (e : a.analyzeTerm fuel s term = .ok s2) :
    (∃ h1, seq (shlBitsBlock (s.getType term.id).2 (s.getType left).2 (s.getType right).2) s.heap
        = .ok h1 ∧
      s2.heap = updateFactor (s.getType term.id).2
        (mulValue (factor h1 (s.getType left).2) (2 ^ (a.dataflow.getValue right).value)) h1) ∧
    (s2.heap (findSet s2.heap (s2.getType term.id).2)).factor_
      = Nat.gcd (s.heap (findSet s.heap (s.getType term.id).2)).factor_
          (mulValue (factor s.heap (s.getType left).2)
            (2 ^ (a.dataflow.getValue right).value)) ∧
    (∀ (fuel0 rounds : Nat) (function : Function) (canceled : Nat → Bool) (u u2 : Types),
      u.WF → (∀ k, canceled k = false) →
      a.analyze fuel0 rounds function canceled u = .ok u2 →
      term ∈ (a.census function).terms → a.isUsed term.id = true →
        isInteger u2.heap (u2.getType left).2 = true ∧
        factor u2.heap (u2.getType term.id).2 ∣
          mulValue (factor u2.heap (u2.getType left).2)
            (2 ^ (a.dataflow.getValue right).value)) := by
  rw [← shlOne_of_lt hv]
  refine ⟨?_, ?_, ?_⟩
  · rw [analyzeTerm_eq] at e
    obtain ⟨e1, _⟩ := Types.run_ok e
    rw [Types.touchAll_heap] at e1
    unfold termAction at e1
    rw [hk] at e1
    simp only at e1
    rw [binaryAction_shl _ _ _ _ _ _ hc] at e1
    obtain ⟨h1, eh1, _, _⟩ :=
      (shlBitsBlock_plain (findSet s.heap term.id) (findSet s.heap left)
        (findSet s.heap right)).returns s.heap
    rw [eh1] at e1
    simp only at e1
    injection e1 with e1
    exact ⟨h1, eh1, e1.symm⟩
  · rw [analyzeTerm_eq] at e
    obtain ⟨e1, _⟩ := Types.run_ok e
    rw [Types.touchAll_heap] at e1
    unfold termAction at e1
    rw [hk] at e1
    simp only at e1
    rw [binaryAction_shl _ _ _ _ _ _ hc] at e1
    obtain ⟨h1, eh1, hl, hf⟩ :=
      (shlBitsBlock_plain (findSet s.heap term.id) (findSet s.heap left)
        (findSet s.heap right)).returns s.heap
    rw [eh1] at e1
    simp only at e1
    injection e1 with e1
    have hfs : ∀ j, findSet h1 j = findSet s.heap j := fun j => (hl j).1
    have hfac : factor h1 (findSet s.heap left) = factor s.heap (findSet s.heap left) := by
      unfold factor
      rw [hfs, hf (fun c => c)]
    show (s2.heap (findSet s2.heap (findSet s2.heap term.id))).factor_ = _
    rw [← e1]
    simp only [findSet_updateFactor, hfs]
    have := factor_stored_updateFactor (findSet s.heap term.id)
      (mulValue (factor h1 (findSet s.heap left)) (shlOne (a.dataflow.getValue right).value)) h1
    rw [hfs] at this
    rw [this, hf (fun c => c), hfac]
    rfl
  · intro fuel0 rounds function canceled u u2 wu hnc ea hm hu
    obtain ⟨w2, q, hT, hL, hR, k⟩ := binary_fixed wu hnc ea hm hu hk
    rw [binaryAction_shl_eq] at k
    have m := (seq_quiet _ (shlList_wired fuel0 (fun k => k ∈ u2.keys) _ _ _
      (a.dataflow.getValue right) hT hL hR) _ _ w2 k q).2
    have m1 := m (lift (makeInteger (findSet u2.heap left))) (by simp [shlBitsBlock])
    have m2 := m (when (fun _ => (a.dataflow.getValue right).isConcrete)
        (fun h => .ok (updateFactor (findSet u2.heap term.id)
          (mulValue (factor h (findSet u2.heap left))
            (shlOne (a.dataflow.getValue right).value)) h)))
      (by simp)
    have m3 := when_quiet m2 hc
    injection m3 with m3
    exact ⟨isInteger_of_fixed (lift_quiet m1), factor_dvd_of_fixed m3⟩

/-- Witness of C10: the scenario S1 itself, the function whose terms are `t0`,
the constant 3 and the used term `t2 := t0 SHL 3`, analysed on the empty store:
afterwards `t0` is integer and the factor of the type of `t2` is 8. -/
theorem shl_factor_witness :
    (isInteger (resultStore (shlExample.analyze 1 3 (blockOf []) (fun _ => false)
        Types.empty)).heap
      ((resultStore (shlExample.analyze 1 3 (blockOf []) (fun _ => false)
        Types.empty)).getType 0).2 = true ∧
     factor (resultStore (shlExample.analyze 1 3 (blockOf []) (fun _ => false)
        Types.empty)).heap
      ((resultStore (shlExample.analyze 1 3 (blockOf []) (fun _ => false)
        Types.empty)).getType 2).2 ∣
      mulValue (factor (resultStore (shlExample.analyze 1 3 (blockOf []) (fun _ => false)
        Types.empty)).heap
        ((resultStore (shlExample.analyze 1 3 (blockOf []) (fun _ => false)
          Types.empty)).getType 0).2) (2 ^ 3)) ∧
    factor (resultStore (shlExample.analyze 1 3 (blockOf []) (fun _ => false)
        Types.empty)).heap
      ((resultStore (shlExample.analyze 1 3 (blockOf []) (fun _ => false)
        Types.empty)).getType 2).2 = 8 :=
  ⟨(shl_factor shlExample 1 Types.empty _ ⟨2, true, .BINARY_OPERATOR .SHL 0 1⟩ 0 1 rfl rfl
      (by decide) (eq_ok_of_returned (by decide!))).2.2 1 3 (blockOf []) (fun _ => false)
      Types.empty _ Types.empty_wf (fun _ => rfl) (eq_ok_of_returned (by decide!))
      (by decide) rfl,
   by decide!⟩

/-- Counterexample to C10 as stated: `shlMergeExample` has the used term
`t2 := t0 SHL t1` with the concrete value 3 for `t1`, and also the used term
`t4 := t6 SHL 1` and the assignment `t2 := t4`.  The analysis on the empty
store, with a token that is never canceled, returns; afterwards the type of
`t0` is integer and the factor of the type of `t2` is 2, not 8: the assignment
put `t2` and `t4` in one class, whose factor is the GCD of 8 and 2. -/
theorem shl_factor_counterexample :
    (⟨2, true, .BINARY_OPERATOR .SHL 0 1⟩ : Term) ∈
        (shlMergeExample.census (blockOf [])).terms ∧
    shlMergeExample.isUsed 2 = true ∧
    (shlMergeExample.dataflow.getValue 1).isConcrete = true ∧
    (shlMergeExample.dataflow.getValue 1).value = 3 ∧
    returned (shlMergeExample.analyze 1 5 (blockOf []) (fun _ => false) Types.empty) = true ∧
    isInteger (resultStore (shlMergeExample.analyze 1 5 (blockOf []) (fun _ => false)
        Types.empty)).heap
      ((resultStore (shlMergeExample.analyze 1 5 (blockOf []) (fun _ => false)
        Types.empty)).getType 0).2 = true ∧
    factor (resultStore (shlMergeExample.analyze 1 5 (blockOf []) (fun _ => false)
        Types.empty)).heap
      ((resultStore (shlMergeExample.analyze 1 5 (blockOf []) (fun _ => false)
        Types.empty)).getType 2).2 = 2 ∧
    factor (resultStore (shlMergeExample.analyze 1 5 (blockOf []) (fun _ => false)
        Types.empty)).heap
      ((resultStore (shlMergeExample.analyze 1 5 (blockOf []) (fun _ => false)
        Types.empty)).getType 2).2 ≠ 8 := by
  decide!

end TypeAnalyzer

end nc
